import Mathlib

/-!
Shallow embedding of the RefBitClockCache C implementation (src/main.c),
together with proofs about its operations.

Modelling conventions:
* C `unsigned int` arithmetic is `Nat` with explicit `% 4294967296`.
* C strings (keys) are lists of byte values (`List Nat`); `strcmp == 0` is
  list equality, valid for nul-free byte strings.
* The heap of `CacheValue` cells is a list indexed by cell id; `free`-ing a
  cell replaces its entry by `none`.  `malloc` of a new cell appends.
* The unbounded probe loops of the hash index are modelled with a fuel
  argument; a call that exhausts its fuel (which for fuel = table size means
  the C loop runs forever) yields `none`, and the enclosing operation is
  regarded as never completing.
* Allocation failures during admission are modelled by an `AllocPlan`
  record saying which of the fallible allocations succeed.
-/

set_option maxRecDepth 4000

namespace RBC

def STATE_EMPTY : Nat := 0

def STATE_OCCUPIED : Nat := 1

def STATE_TOMBSTONE : Nat := 2

/-- Byte string of a C key (no nul bytes). -/
abbrev Key := List Nat

/-- The `CacheValue` struct.  `refcount` is a C `int`, hence `Int`;
`index` is the home slot or the sentinel `-1` (EVICTED); `ref_bit`
is the C `int` used as a boolean. -/
structure CacheValue where
  data : List Nat
  refcount : Int
  index : Int
  ref_bit : Nat
deriving DecidableEq

instance : Inhabited CacheValue := ⟨⟨[], 0, 0, 0⟩⟩

/-- One `HashEntry` of the open-addressing table.  The all-zero value
(from `memset 0`) is an EMPTY entry. -/
structure HashEntry where
  key : Key
  cache_index : Int
  state : Nat
deriving DecidableEq

instance : Inhabited HashEntry := ⟨⟨[], 0, STATE_EMPTY⟩⟩

/-- The `RefBitClockCache` struct (mutex omitted: every public operation
holds it for its whole body, so operations are atomic state transformers).
`heap` is the explicit cell heap: `heap[cid] = none` means cell `cid`
has been freed. -/
structure RBCCache where
  cache_size : Nat
  keys : List (Option Key)
  values : List (Option Nat)
  clock_hand : Nat
  hash_table : List HashEntry
  hash_size : Nat
  hash_used : Nat
  heap : List (Option CacheValue)
deriving DecidableEq

/-- One FNV-1a step on 32-bit state. -/
def fnvStep (h c : Nat) : Nat := ((h ^^^ c) * 16777619) % 4294967296

/-- The `while (*key)` loop of `hash`. -/
def fnvList : Key → Nat → Nat
  | [], h => h
  | c :: cs, h => fnvList cs (fnvStep h c)

/-- The C `hash` function: FNV-1a over the bytes, reduced mod the table size. -/
def hash (key : Key) (hash_size : Nat) : Nat :=
  fnvList key 2166136261 % hash_size

/-- The trial-division primality test inside `next_prime` (note that it
calls 0 and 1 prime, as the C loop does). -/
def cPrime (n : Nat) : Bool :=
  ! (List.range (n + 1)).any fun i => decide (2 ≤ i) && decide (i * i ≤ n) && decide (n % i = 0)

/-- The `while (1)` search of `next_prime`, with fuel.  Fuel `n + 2` always
suffices (Bertrand's postulate), so the exhaustion branch is unreachable. -/
def next_primeAux : Nat → Nat → Nat
  | 0, n => n
  | fuel + 1, n => if cPrime n then n else next_primeAux fuel (n + 1)

/-- The C `next_prime`: smallest `m ≥ n` accepted by the trial division. -/
def next_prime (n : Nat) : Nat := next_primeAux (n + 2) n

/-- The probe loop of `getCacheIndex`: skip tombstones and non-matching
occupied entries, stop at EMPTY (miss, `-1`) or at an occupied match. -/
def probeGet (t : List HashEntry) (size : Nat) (k : Key) : Nat → Nat → Option Int
  | _, 0 => none
  | h, fuel + 1 =>
    if (t.getD h default).state = STATE_EMPTY then some (-1)
    else if (t.getD h default).state = STATE_OCCUPIED ∧ (t.getD h default).key = k then
      some (t.getD h default).cache_index
    else probeGet t size k ((h + 1) % size) fuel

/-- The C `getCacheIndex` (fuel = table size: exactly the calls on which the
C loop terminates return `some`). -/
def getCacheIndex (c : RBCCache) (k : Key) : Option Int :=
  probeGet c.hash_table c.hash_size k (hash k c.hash_size) c.hash_size

/-- The probe loop of `eraseHash`; the Bool records whether a matching
occupied entry was found and tombstoned. -/
def probeErase (t : List HashEntry) (size : Nat) (k : Key) :
    Nat → Nat → Option (List HashEntry × Bool)
  | _, 0 => none
  | h, fuel + 1 =>
    if (t.getD h default).state = STATE_EMPTY then some (t, false)
    else if (t.getD h default).state = STATE_OCCUPIED ∧ (t.getD h default).key = k then
      some (t.set h { t.getD h default with state := STATE_TOMBSTONE }, true)
    else probeErase t size k ((h + 1) % size) fuel

/-- The C `eraseHash`.  (`hash_used` is a C `int`; it is only decremented
when an occupied entry was found, so it stays non-negative and is a `Nat`.) -/
def eraseHash (c : RBCCache) (k : Key) : Option RBCCache :=
  match probeErase c.hash_table c.hash_size k (hash k c.hash_size) c.hash_size with
  | none => none
  | some (t, found) =>
    some { c with hash_table := t, hash_used := c.hash_used - (if found then 1 else 0) }

/-- The probe loop of `insertHash`, carrying the first tombstone position
seen; the Bool is `true` for a fresh insertion (`hash_used` increments). -/
def probeIns (t : List HashEntry) (size : Nat) (k : Key) (idx : Int) :
    Nat → Option Nat → Nat → Option (List HashEntry × Bool)
  | _, _, 0 => none
  | h, tomb, fuel + 1 =>
    if (t.getD h default).state = STATE_EMPTY then
      some (t.set (tomb.getD h) ⟨k, idx, STATE_OCCUPIED⟩, true)
    else if (t.getD h default).state = STATE_TOMBSTONE then
      probeIns t size k idx ((h + 1) % size) (some (tomb.getD h)) fuel
    else if (t.getD h default).state = STATE_OCCUPIED ∧ (t.getD h default).key = k then
      some (t.set h { t.getD h default with cache_index := idx }, false)
    else probeIns t size k idx ((h + 1) % size) tomb fuel

/-- The placement loop inside `rehash`: skip occupied entries, write the
migrated entry at the first non-occupied position. -/
def probePlace (t : List HashEntry) (size : Nat) (e : HashEntry) :
    Nat → Nat → Option (List HashEntry)
  | _, 0 => none
  | h, fuel + 1 =>
    if (t.getD h default).state = STATE_OCCUPIED then probePlace t size e ((h + 1) % size) fuel
    else some (t.set h e)

/-- The migration loop of `rehash`, walking the old table in order and
counting migrated entries (the new `hash_used`). -/
def rehashLoop (size : Nat) : List HashEntry → List HashEntry → Nat →
    Option (List HashEntry × Nat)
  | [], t, used => some (t, used)
  | e :: rest, t, used =>
    if e.state = STATE_OCCUPIED then
      match probePlace t size e (hash e.key size) size with
      | none => none
      | some t' => rehashLoop size rest t' (used + 1)
    else rehashLoop size rest t used

/-- The C `rehash`.  `allocOk = false` is the failing `malloc`: the code
restores the old table pointer and size and returns, a net no-op. -/
def rehash (c : RBCCache) (allocOk : Bool) : Option RBCCache :=
  if allocOk then
    match rehashLoop (next_prime (c.hash_size * 2)) c.hash_table
        (List.replicate (next_prime (c.hash_size * 2)) default) 0 with
    | none => none
    | some (t, used) =>
      some { c with hash_size := next_prime (c.hash_size * 2), hash_table := t,
                    hash_used := used }
  else some c

/-- The C `insertHash`, including its load-factor check
`(hash_used * 10) / hash_size >= 7` (integer division) and the conditional
`rehash` call. -/
def insertHash (c : RBCCache) (k : Key) (idx : Int) (rehashOk : Bool) : Option RBCCache :=
  match (if 7 ≤ c.hash_used * 10 / c.hash_size then rehash c rehashOk else some c) with
  | none => none
  | some c1 =>
    match probeIns c1.hash_table c1.hash_size k idx (hash k c1.hash_size) none c1.hash_size with
    | none => none
    | some (t, fresh) =>
      some { c1 with hash_table := t,
                     hash_used := c1.hash_used + (if fresh then 1 else 0) }

/-- Advance the clock hand by one, modulo the capacity. -/
def advanceHand (c : RBCCache) : RBCCache :=
  { c with clock_hand := (c.clock_hand + 1) % c.cache_size }

/-- Mutate the cell `cid` through its (live) heap entry; a no-op on a freed
cell id (the corresponding C write is through a dangling pointer, which the
cache never does in well-formed states). -/
def modifyCell (c : RBCCache) (cid : Nat) (f : CacheValue → CacheValue) : RBCCache :=
  { c with heap := c.heap.set cid ((c.heap.getD cid none).map f) }

/-- The `while (attempts < max_attempts)` sweep of `findClockVictim`.
Returns the victim (if one was found, with the hand already advanced past
it) and the updated state (reference bits cleared along the way). -/
def sweepLoop : RBCCache → Nat → Option Nat × RBCCache
  | c, 0 => (none, c)
  | c, fuel + 1 =>
    match c.values.getD c.clock_hand none with
    | none => (some c.clock_hand, advanceHand c)
    | some cid =>
      if (c.keys.getD c.clock_hand none).isNone then (some c.clock_hand, advanceHand c)
      else if ((c.heap.getD cid none).getD default).refcount = 0 ∧
          ((c.heap.getD cid none).getD default).ref_bit = 0 then
        (some c.clock_hand, advanceHand c)
      else sweepLoop (advanceHand (modifyCell c cid fun v => { v with ref_bit := 0 })) fuel

/-- The C `findClockVictim`: two-pass clock sweep, then the linear
empty-slot scan (fallback A), then the forced eviction of the hand
position recorded at entry (fallback B). -/
def findClockVictim (c : RBCCache) : Nat × RBCCache :=
  match sweepLoop c (c.cache_size * 2) with
  | (some v, c') => (v, c')
  | (none, c') =>
    match (List.range c.cache_size).find? (fun i => (c'.keys.getD i none).isNone) with
    | some i => (i, c')
    | none => (c.clock_hand, c')

/-- Which of the fallible allocations of an admission (and of the rehash a
triggered insert may attempt) succeed. -/
structure AllocPlan where
  strdupOk : Bool
  cellOk : Bool
  dataOk : Bool
  rehashOk : Bool
deriving DecidableEq

instance : Inhabited AllocPlan := ⟨⟨true, true, true, true⟩⟩

/-- All allocations succeed. -/
def allOk : AllocPlan := ⟨true, true, true, true⟩

/-- Retiring the victim slot's key: erase it from the index, free the
string, null the slot (`accessCache` lines after `findClockVictim`). -/
def retireSlotKey (c : RBCCache) (v : Nat) : Option RBCCache :=
  match c.keys.getD v none with
  | none => some c
  | some kv =>
    match eraseHash c kv with
    | none => none
    | some c' => some { c' with keys := c'.keys.set v none }

/-- Retiring the victim slot's cell: free it if idle, else detach it with
`index := -1`; either way null the slot pointer. -/
def retireSlotCell (c : RBCCache) (v : Nat) : RBCCache :=
  match c.values.getD v none with
  | none => c
  | some cid =>
    match c.heap.getD cid none with
    | none => { c with values := c.values.set v none }
    | some old =>
      if old.refcount = 0 then
        { c with heap := c.heap.set cid none, values := c.values.set v none }
      else
        { c with heap := c.heap.set cid (some { old with index := -1 }),
                 values := c.values.set v none }

/-- Admission of a new entry at slot `v`: `strdup` the key, allocate the
cell and payload (each can fail; the C code frees everything allocated so
far on failure, so a failed admission is a net no-op on the state), then
install and index the new cell. -/
def admitEntry (c : RBCCache) (v : Nat) (k : Key) (value : List Nat) (plan : AllocPlan) :
    Option (RBCCache × Option Nat) :=
  if plan.strdupOk = false ∨ plan.cellOk = false ∨ plan.dataOk = false then some (c, none)
  else
    match insertHash
        { c with keys := c.keys.set v (some k),
                 values := c.values.set v (some c.heap.length),
                 heap := c.heap ++ [some ⟨value, 1, (v : Int), 1⟩] }
        k (v : Int) plan.rehashOk with
    | none => none
    | some c2 => some (c2, some c.heap.length)

/-- The C `accessCache`.  Result `none` means the call never completes (a
probe loop diverged); `some (c', none)` is a completed call returning NULL;
`some (c', some cid)` returns a handle on cell `cid`. -/
def accessCache (c : RBCCache) (k : Key) (value : List Nat) (plan : AllocPlan) :
    Option (RBCCache × Option Nat) :=
  match getCacheIndex c k with
  | none => none
  | some index =>
    if index ≠ -1 ∧ (c.values.getD index.toNat none).isSome then
      some (modifyCell c ((c.values.getD index.toNat none).getD 0)
          (fun v => { v with refcount := v.refcount + 1, ref_bit := 1 }),
        some ((c.values.getD index.toNat none).getD 0))
    else
      match retireSlotKey (findClockVictim c).2 (findClockVictim c).1 with
      | none => none
      | some c2 => admitEntry (retireSlotCell c2 (findClockVictim c).1) (findClockVictim c).1 k value plan

/-- The C `releaseValue` on a (live) handle: decrement the refcount and
free the cell if that brought it to zero while it is evicted. -/
def releaseValue (c : RBCCache) (cid : Nat) : RBCCache :=
  match c.heap.getD cid none with
  | none => c
  | some cv =>
    if cv.refcount - 1 = 0 ∧ cv.index = -1 then { c with heap := c.heap.set cid none }
    else { c with heap := c.heap.set cid (some { cv with refcount := cv.refcount - 1 }) }

/-- The C `createCache` with all allocations succeeding. -/
def createCache (n : Nat) : RBCCache :=
  { cache_size := n
    keys := List.replicate n none
    values := List.replicate n none
    clock_hand := 0
    hash_table := List.replicate (next_prime (n * 2)) default
    hash_size := next_prime (n * 2)
    hash_used := 0
    heap := [] }

/-- One completed public operation.  `release` requires the caller to hold
a handle on a live cell (the library's usage contract); `access` requires a
nul-free byte-string key. -/
inductive Step : RBCCache → RBCCache → Prop where
  | access (c : RBCCache) (k : Key) (value : List Nat) (plan : AllocPlan)
      (c' : RBCCache) (r : Option Nat) (hk : ∀ b ∈ k, 0 < b ∧ b < 128)
      (h : accessCache c k value plan = some (c', r)) : Step c c'
  | release (c : RBCCache) (cid : Nat) (cv : CacheValue)
      (h : c.heap.getD cid none = some cv) (hrc : 1 ≤ cv.refcount) :
      Step c (releaseValue c cid)

/-- States reachable from a fresh cache of capacity `n` by completed
public operations. -/
def Reachable (n : Nat) (c : RBCCache) : Prop :=
  Relation.ReflTransGen Step (createCache n) c

/-- Cell `cid` is live (not freed). -/
def live (c : RBCCache) (cid : Nat) : Prop := (c.heap.getD cid none).isSome

instance (c : RBCCache) (cid : Nat) : Decidable (live c cid) := by
  unfold live
  infer_instance

/-- The cell record at `cid` (junk default when freed). -/
def cellOf (c : RBCCache) (cid : Nat) : CacheValue := (c.heap.getD cid none).getD default

/-- Number of entries of the table in a given state. -/
def countState (t : List HashEntry) (st : Nat) : Nat :=
  (t.filter fun e => e.state == st).length

/-! ### Generic facts about the probe walks -/

/-- Positions the probe walks past without stopping: not EMPTY, and not an
occupied entry with the probed key. -/
def skipAt (t : List HashEntry) (k : Key) (p : Nat) : Prop :=
  (t.getD p default).state ≠ STATE_EMPTY ∧
  ¬((t.getD p default).state = STATE_OCCUPIED ∧ (t.getD p default).key = k)

theorem mod_walk {size : Nat} (h d : Nat) :
    ((h + 1) % size + d) % size = (h + (d + 1)) % size := by
  rw [Nat.mod_add_mod, Nat.add_assoc, Nat.add_comm 1 d]

theorem probeGet_hit {t : List HashEntry} {size : Nat} {k : Key} :
    ∀ (d h fuel : Nat), h < size → d < fuel →
    (∀ d' < d, skipAt t k ((h + d') % size)) →
    (t.getD ((h + d) % size) default).state = STATE_OCCUPIED →
    (t.getD ((h + d) % size) default).key = k →
    probeGet t size k h fuel = some (t.getD ((h + d) % size) default).cache_index := by
  intro d
  induction d with
  | zero =>
    intro h fuel hh hfuel _ hst hkey
    cases fuel with
    | zero => omega
    | succ fuel =>
    rw [Nat.add_zero, Nat.mod_eq_of_lt hh] at hst hkey
    simp only [probeGet]
    rw [if_neg (by rw [hst]; decide), if_pos ⟨hst, hkey⟩]
    rw [Nat.add_zero, Nat.mod_eq_of_lt hh]
  | succ d ih =>
    intro h fuel hh hfuel hskip hst hkey
    cases fuel with
    | zero => omega
    | succ fuel =>
    have hskip0 := hskip 0 (Nat.succ_pos d)
    rw [Nat.add_zero, Nat.mod_eq_of_lt hh] at hskip0
    simp only [probeGet]
    rw [if_neg hskip0.1, if_neg hskip0.2]
    have hpos : 0 < size := Nat.lt_of_le_of_lt (Nat.zero_le _) hh
    have ih' := ih ((h + 1) % size) fuel (Nat.mod_lt _ hpos) (Nat.lt_of_succ_lt_succ hfuel)
    rw [mod_walk h d] at ih'
    apply ih'
    · intro d' hd'
      rw [mod_walk h d']
      exact hskip (d' + 1) (Nat.succ_lt_succ hd')
    · exact hst
    · exact hkey

theorem probeGet_miss {t : List HashEntry} {size : Nat} {k : Key} :
    ∀ (d h fuel : Nat), h < size → d < fuel →
    (∀ d' < d, skipAt t k ((h + d') % size)) →
    (t.getD ((h + d) % size) default).state = STATE_EMPTY →
    probeGet t size k h fuel = some (-1) := by
  intro d
  induction d with
  | zero =>
    intro h fuel hh hfuel _ hst
    cases fuel with
    | zero => omega
    | succ fuel =>
    rw [Nat.add_zero, Nat.mod_eq_of_lt hh] at hst
    simp only [probeGet]
    rw [if_pos hst]
  | succ d ih =>
    intro h fuel hh hfuel hskip hst
    cases fuel with
    | zero => omega
    | succ fuel =>
    have hskip0 := hskip 0 (Nat.succ_pos d)
    rw [Nat.add_zero, Nat.mod_eq_of_lt hh] at hskip0
    simp only [probeGet]
    rw [if_neg hskip0.1, if_neg hskip0.2]
    have hpos : 0 < size := Nat.lt_of_le_of_lt (Nat.zero_le _) hh
    have ih' := ih ((h + 1) % size) fuel (Nat.mod_lt _ hpos) (Nat.lt_of_succ_lt_succ hfuel)
    rw [mod_walk h d] at ih'
    apply ih'
    · intro d' hd'
      rw [mod_walk h d']
      exact hskip (d' + 1) (Nat.succ_lt_succ hd')
    · exact hst

theorem probeGet_stuck {t : List HashEntry} {size : Nat} {k : Key} :
    ∀ (fuel h : Nat), h < size →
    (∀ p < size, skipAt t k p) →
    probeGet t size k h fuel = none := by
  intro fuel
  induction fuel with
  | zero => intro h _ _; rfl
  | succ fuel ih =>
    intro h hh hall
    have hsk := hall h hh
    simp only [probeGet]
    rw [if_neg hsk.1, if_neg hsk.2]
    exact ih _ (Nat.mod_lt _ (Nat.lt_of_le_of_lt (Nat.zero_le _) hh)) hall

theorem probeErase_hit {t : List HashEntry} {size : Nat} {k : Key} :
    ∀ (d h fuel : Nat), h < size → d < fuel →
    (∀ d' < d, skipAt t k ((h + d') % size)) →
    (t.getD ((h + d) % size) default).state = STATE_OCCUPIED →
    (t.getD ((h + d) % size) default).key = k →
    probeErase t size k h fuel =
      some (t.set ((h + d) % size)
        { t.getD ((h + d) % size) default with state := STATE_TOMBSTONE }, true) := by
  intro d
  induction d with
  | zero =>
    intro h fuel hh hfuel _ hst hkey
    cases fuel with
    | zero => omega
    | succ fuel =>
    simp only [Nat.add_zero, Nat.mod_eq_of_lt hh] at hst hkey ⊢
    simp only [probeErase]
    rw [if_neg (by rw [hst]; decide), if_pos ⟨hst, hkey⟩]
  | succ d ih =>
    intro h fuel hh hfuel hskip hst hkey
    cases fuel with
    | zero => omega
    | succ fuel =>
    have hskip0 := hskip 0 (Nat.succ_pos d)
    rw [Nat.add_zero, Nat.mod_eq_of_lt hh] at hskip0
    simp only [probeErase]
    rw [if_neg hskip0.1, if_neg hskip0.2]
    have ih' := ih ((h + 1) % size) fuel
      (Nat.mod_lt _ (Nat.lt_of_le_of_lt (Nat.zero_le _) hh)) (Nat.lt_of_succ_lt_succ hfuel)
    rw [mod_walk h d] at ih'
    apply ih'
    · intro d' hd'
      rw [mod_walk h d']
      exact hskip (d' + 1) (Nat.succ_lt_succ hd')
    · exact hst
    · exact hkey

theorem probeErase_miss {t : List HashEntry} {size : Nat} {k : Key} :
    ∀ (d h fuel : Nat), h < size → d < fuel →
    (∀ d' < d, skipAt t k ((h + d') % size)) →
    (t.getD ((h + d) % size) default).state = STATE_EMPTY →
    probeErase t size k h fuel = some (t, false) := by
  intro d
  induction d with
  | zero =>
    intro h fuel hh hfuel _ hst
    cases fuel with
    | zero => omega
    | succ fuel =>
    rw [Nat.add_zero, Nat.mod_eq_of_lt hh] at hst
    simp only [probeErase]
    rw [if_pos hst]
  | succ d ih =>
    intro h fuel hh hfuel hskip hst
    cases fuel with
    | zero => omega
    | succ fuel =>
    have hskip0 := hskip 0 (Nat.succ_pos d)
    rw [Nat.add_zero, Nat.mod_eq_of_lt hh] at hskip0
    simp only [probeErase]
    rw [if_neg hskip0.1, if_neg hskip0.2]
    have ih' := ih ((h + 1) % size) fuel
      (Nat.mod_lt _ (Nat.lt_of_le_of_lt (Nat.zero_le _) hh)) (Nat.lt_of_succ_lt_succ hfuel)
    rw [mod_walk h d] at ih'
    apply ih'
    · intro d' hd'
      rw [mod_walk h d']
      exact hskip (d' + 1) (Nat.succ_lt_succ hd')
    · exact hst

/-- First tombstone along the walk from `h` (absolute table position),
looking `d` steps ahead. -/
def firstTomb (t : List HashEntry) (size : Nat) : Nat → Nat → Option Nat
  | _, 0 => none
  | h, d + 1 =>
    if (t.getD h default).state = STATE_TOMBSTONE then some h
    else firstTomb t size ((h + 1) % size) d

/-- Where `probeIns` lands when the walk reaches an EMPTY entry after `d`
skipped positions: the pending tombstone if any, else the first tombstone
seen on the walk, else the EMPTY position itself. -/
theorem probeIns_toEmpty {t : List HashEntry} {size : Nat} {k : Key} {idx : Int} :
    ∀ (d h fuel : Nat) (tomb : Option Nat), h < size → d < fuel →
    (∀ d' < d, skipAt t k ((h + d') % size)) →
    (t.getD ((h + d) % size) default).state = STATE_EMPTY →
    probeIns t size k idx h tomb fuel =
      some (t.set (tomb.getD ((firstTomb t size h d).getD ((h + d) % size)))
        ⟨k, idx, STATE_OCCUPIED⟩, true) := by
  intro d
  induction d with
  | zero =>
    intro h fuel tomb hh hfuel _ hst
    cases fuel with
    | zero => omega
    | succ fuel =>
    simp only [Nat.add_zero, Nat.mod_eq_of_lt hh] at hst ⊢
    simp only [probeIns, firstTomb, Option.getD_none]
    rw [if_pos hst]
  | succ d ih =>
    intro h fuel tomb hh hfuel hskip hst
    cases fuel with
    | zero => omega
    | succ fuel =>
    have hskip0 := hskip 0 (Nat.succ_pos d)
    rw [Nat.add_zero, Nat.mod_eq_of_lt hh] at hskip0
    have hh1 : (h + 1) % size < size := Nat.mod_lt _ (Nat.lt_of_le_of_lt (Nat.zero_le _) hh)
    have hskip' : ∀ d' < d, skipAt t k (((h + 1) % size + d') % size) := by
      intro d' hd'
      rw [mod_walk h d']
      exact hskip (d' + 1) (Nat.succ_lt_succ hd')
    have hst' : (t.getD (((h + 1) % size + d) % size) default).state = STATE_EMPTY := by
      rw [mod_walk h d]; exact hst
    simp only [probeIns, firstTomb]
    rw [if_neg hskip0.1]
    by_cases htomb : (t.getD h default).state = STATE_TOMBSTONE
    · rw [if_pos htomb]
      have ih' := ih ((h + 1) % size) fuel (some (tomb.getD h)) hh1
        (Nat.lt_of_succ_lt_succ hfuel) hskip' hst'
      rw [ih']
      rw [if_pos htomb]
      rfl
    · rw [if_neg htomb, if_neg hskip0.2]
      have ih' := ih ((h + 1) % size) fuel tomb hh1
        (Nat.lt_of_succ_lt_succ hfuel) hskip' hst'
      rw [ih']
      rw [if_neg htomb, mod_walk h d]

/-- The landing offset of a tombstone search: characterisation of
`firstTomb` when it finds a position. -/
theorem firstTomb_some {t : List HashEntry} {size : Nat} :
    ∀ (d h p : Nat), h < size → firstTomb t size h d = some p →
    ∃ dp < d, p = (h + dp) % size ∧ (t.getD p default).state = STATE_TOMBSTONE ∧
      ∀ d' < dp, (t.getD ((h + d') % size) default).state ≠ STATE_TOMBSTONE := by
  intro d
  induction d with
  | zero => intro h p _ hEq; simp [firstTomb] at hEq
  | succ d ih =>
    intro h p hh hEq
    simp only [firstTomb] at hEq
    by_cases htomb : (t.getD h default).state = STATE_TOMBSTONE
    · rw [if_pos htomb] at hEq
      refine ⟨0, Nat.succ_pos d, ?_, ?_, ?_⟩
      · cases hEq; rw [Nat.add_zero, Nat.mod_eq_of_lt hh]
      · cases hEq; exact htomb
      · intro d' hd'; omega
    · rw [if_neg htomb] at hEq
      have hh1 : (h + 1) % size < size := Nat.mod_lt _ (Nat.lt_of_le_of_lt (Nat.zero_le _) hh)
      obtain ⟨dp, hdp, hpEq, hstp, hmin⟩ := ih ((h + 1) % size) p hh1 hEq
      refine ⟨dp + 1, Nat.succ_lt_succ hdp, ?_, hstp, ?_⟩
      · rw [hpEq, mod_walk h dp]
      · intro d' hd'
        cases d' with
        | zero => rw [Nat.add_zero, Nat.mod_eq_of_lt hh]; exact htomb
        | succ d' =>
          rw [← mod_walk h d']
          exact hmin d' (Nat.lt_of_succ_lt_succ hd')

theorem firstTomb_none {t : List HashEntry} {size : Nat} :
    ∀ (d h : Nat), h < size → firstTomb t size h d = none →
    ∀ d' < d, (t.getD ((h + d') % size) default).state ≠ STATE_TOMBSTONE := by
  intro d
  induction d with
  | zero => intro h _ _ d' hd'; omega
  | succ d ih =>
    intro h hh hEq d' hd'
    simp only [firstTomb] at hEq
    by_cases htomb : (t.getD h default).state = STATE_TOMBSTONE
    · rw [if_pos htomb] at hEq; cases hEq
    · rw [if_neg htomb] at hEq
      have hh1 : (h + 1) % size < size := Nat.mod_lt _ (Nat.lt_of_le_of_lt (Nat.zero_le _) hh)
      cases d' with
      | zero => rw [Nat.add_zero, Nat.mod_eq_of_lt hh]; exact htomb
      | succ d' =>
        rw [← mod_walk h d']
        exact ih ((h + 1) % size) hh1 hEq d' (Nat.lt_of_succ_lt_succ hd')

/-! ### List and counting helpers -/

theorem getD_set_ne {α : Type} (l : List α) (e d : α) :
    ∀ (p q : Nat), p ≠ q → (l.set p e).getD q d = l.getD q d := by
  induction l with
  | nil => intro p q _; cases p <;> rfl
  | cons a l ih =>
    intro p q hpq
    cases p with
    | zero => cases q with
      | zero => exact absurd rfl hpq
      | succ q => rfl
    | succ p => cases q with
      | zero => rfl
      | succ q => exact ih p q (fun h => hpq (by rw [h]))

theorem getD_set_self {α : Type} (l : List α) (e d : α) :
    ∀ (p : Nat), p < l.length → (l.set p e).getD p d = e := by
  induction l with
  | nil => intro p hp; simp at hp
  | cons a l ih =>
    intro p hp
    cases p with
    | zero => rfl
    | succ p => exact ih p (Nat.lt_of_succ_lt_succ hp)

theorem length_set' {α : Type} (l : List α) (e : α) (p : Nat) :
    (l.set p e).length = l.length := List.length_set l p e

theorem getD_length_le {α : Type} (l : List α) (d : α) :
    ∀ (p : Nat), l.length ≤ p → l.getD p d = d := by
  induction l with
  | nil => intro p _; cases p <;> rfl
  | cons a l ih =>
    intro p hp
    cases p with
    | zero => simp at hp
    | succ p => exact ih p (Nat.le_of_succ_le_succ hp)

theorem countState_cons (a : HashEntry) (t : List HashEntry) (st : Nat) :
    countState (a :: t) st = (if a.state = st then 1 else 0) + countState t st := by
  by_cases ha : a.state = st <;>
    simp [countState, List.filter_cons, ha, Nat.add_comm]

/-- `countState` after overwriting position `p`, in balance form. -/
theorem countState_set {st : Nat} (e : HashEntry) :
    ∀ (t : List HashEntry) (p : Nat), p < t.length →
    countState (t.set p e) st + (if (t.getD p default).state = st then 1 else 0) =
      countState t st + (if e.state = st then 1 else 0) := by
  intro t
  induction t with
  | nil => intro p hp; simp at hp
  | cons a t ih =>
    intro p hp
    cases p with
    | zero =>
      simp only [List.set, List.getD_cons_zero, countState_cons]
      omega
    | succ p =>
      have ihp := ih p (Nat.lt_of_succ_lt_succ hp)
      simp only [List.set, List.getD_cons_succ, countState_cons]
      omega

theorem countState_eq_length {st : Nat} (t : List HashEntry)
    (h : ∀ p < t.length, (t.getD p default).state = st) : countState t st = t.length := by
  induction t with
  | nil => rfl
  | cons a t ih =>
    have h0 : a.state = st := h 0 (Nat.succ_pos _)
    rw [countState_cons, if_pos h0, List.length_cons, ih, Nat.add_comm]
    intro p hp
    exact h (p + 1) (Nat.succ_lt_succ hp)

/-- Every residue is reached by the walk within `size` steps. -/
theorem walk_surj {size : Nat} (h p : Nat) (hp : p < size) :
    ∃ d < size, (h + d) % size = p := by
  have hpos : 0 < size := Nat.lt_of_le_of_lt (Nat.zero_le _) hp
  have hr : h % size < size := Nat.mod_lt _ hpos
  rcases Nat.lt_or_ge p (h % size) with hlt | hle
  · refine ⟨p + size - h % size, by omega, ?_⟩
    rw [← Nat.mod_add_mod]
    have : h % size + (p + size - h % size) = p + size := by omega
    rw [this, Nat.add_mod_right, Nat.mod_eq_of_lt hp]
  · refine ⟨p - h % size, by omega, ?_⟩
    rw [← Nat.mod_add_mod]
    have : h % size + (p - h % size) = p := by omega
    rw [this, Nat.mod_eq_of_lt hp]

theorem next_primeAux_ge : ∀ (fuel n : Nat), n ≤ next_primeAux fuel n := by
  intro fuel
  induction fuel with
  | zero => intro n; exact Nat.le_refl n
  | succ fuel ih =>
    intro n
    simp only [next_primeAux]
    by_cases hc : cPrime n
    · rw [if_pos hc]
    · rw [if_neg hc]
      exact Nat.le_trans (Nat.le_succ n) (ih (n + 1))

theorem next_prime_ge (n : Nat) : n ≤ next_prime n := next_primeAux_ge _ n

/-- The placement walk of `rehash` lands at the first non-occupied position. -/
theorem probePlace_lands {t : List HashEntry} {size : Nat} {e : HashEntry} :
    ∀ (d h fuel : Nat), h < size → d < fuel →
    (∀ d' < d, (t.getD ((h + d') % size) default).state = STATE_OCCUPIED) →
    (t.getD ((h + d) % size) default).state ≠ STATE_OCCUPIED →
    probePlace t size e h fuel = some (t.set ((h + d) % size) e) := by
  intro d
  induction d with
  | zero =>
    intro h fuel hh hfuel _ hst
    cases fuel with
    | zero => omega
    | succ fuel =>
    simp only [Nat.add_zero, Nat.mod_eq_of_lt hh] at hst ⊢
    simp only [probePlace]
    rw [if_neg hst]
  | succ d ih =>
    intro h fuel hh hfuel hocc hst
    cases fuel with
    | zero => omega
    | succ fuel =>
    have h0 := hocc 0 (Nat.succ_pos d)
    rw [Nat.add_zero, Nat.mod_eq_of_lt hh] at h0
    simp only [probePlace]
    rw [if_pos h0]
    have ih' := ih ((h + 1) % size) fuel
      (Nat.mod_lt _ (Nat.lt_of_le_of_lt (Nat.zero_le _) hh)) (Nat.lt_of_succ_lt_succ hfuel)
    rw [mod_walk h d] at ih'
    apply ih'
    · intro d' hd'
      rw [mod_walk h d']
      exact hocc (d' + 1) (Nat.succ_lt_succ hd')
    · exact hst

/-- If the table is not full of occupied entries, the placement walk
terminates, landing at the first non-occupied position after the start. -/
theorem probePlace_succeeds {t : List HashEntry} {size : Nat} {e : HashEntry} {h : Nat}
    (hlen : t.length = size) (hh : h < size)
    (hcount : countState t STATE_OCCUPIED < size) :
    ∃ d < size, (∀ d' < d, (t.getD ((h + d') % size) default).state = STATE_OCCUPIED) ∧
      (t.getD ((h + d) % size) default).state ≠ STATE_OCCUPIED ∧
      probePlace t size e h size = some (t.set ((h + d) % size) e) := by
  have hex : ∃ d, d < size ∧ (t.getD ((h + d) % size) default).state ≠ STATE_OCCUPIED := by
    by_contra hall
    push_neg at hall
    have : countState t STATE_OCCUPIED = size := by
      rw [← hlen]
      apply countState_eq_length
      intro p hp
      obtain ⟨d, hd, hdp⟩ := walk_surj h p (hlen ▸ hp)
      rcases Nat.lt_or_ge d size with h1 | h1
      · rw [← hdp]; exact hall d h1
      · omega
    omega
  classical
  have hfind := Nat.find_spec hex
  have hlt : Nat.find hex < size := hfind.1
  refine ⟨Nat.find hex, hlt, ?_, hfind.2, ?_⟩
  · intro d' hd'
    have := Nat.find_min hex hd'
    push_neg at this
    by_contra hne
    exact hne (this (by omega))
  · exact probePlace_lands (Nat.find hex) h size hh hlt
      (fun d' hd' => by
        have := Nat.find_min hex hd'
        push_neg at this
        by_contra hne
        exact hne (this (by omega))) hfind.2

/-- Upper bound on the migrated-entry count of `rehashLoop`. -/
theorem rehashLoop_used_le {size : Nat} :
    ∀ (olds : List HashEntry) (t t' : List HashEntry) (used used' : Nat),
    rehashLoop size olds t used = some (t', used') → used' ≤ used + olds.length := by
  intro olds
  induction olds with
  | nil =>
    intro t t' used used' hEq
    simp only [rehashLoop] at hEq
    cases hEq
    simp
  | cons e rest ih =>
    intro t t' used used' hEq
    simp only [rehashLoop] at hEq
    by_cases he : e.state = STATE_OCCUPIED
    · rw [if_pos he] at hEq
      cases hplace : probePlace t size e (hash e.key size) size with
      | none => rw [hplace] at hEq; cases hEq
      | some t2 =>
        rw [hplace] at hEq
        have := ih t2 t' (used + 1) used' hEq
        simp only [List.length_cons]
        omega
    · rw [if_neg he] at hEq
      have := ih t t' used used' hEq
      simp only [List.length_cons]
      omega

theorem walk_inj {size : Nat} (h : Nat) :
    ∀ d d', d < size → d' < size → (h + d) % size = (h + d') % size → d = d' := by
  intro d d' hd hd' hEq
  have h1 : (h + d) % size = (h % size + d % size) % size := by rw [Nat.add_mod]
  have h2 : (h + d') % size = (h % size + d' % size) % size := by rw [Nat.add_mod]
  rw [Nat.mod_eq_of_lt hd] at h1
  rw [Nat.mod_eq_of_lt hd'] at h2
  have hpos : 0 < size := Nat.lt_of_le_of_lt (Nat.zero_le _) hd
  have hr : h % size < size := Nat.mod_lt _ hpos
  rw [h1, h2] at hEq
  rcases Nat.lt_or_ge (h % size + d) size with hc | hc <;>
    rcases Nat.lt_or_ge (h % size + d') size with hc' | hc'
  · rw [Nat.mod_eq_of_lt hc, Nat.mod_eq_of_lt hc'] at hEq; omega
  · rw [Nat.mod_eq_of_lt hc] at hEq
    have : (h % size + d') % size = h % size + d' - size := by
      rw [Nat.mod_eq_sub_mod hc', Nat.mod_eq_of_lt (by omega)]
    omega
  · rw [Nat.mod_eq_of_lt hc'] at hEq
    have : (h % size + d) % size = h % size + d - size := by
      rw [Nat.mod_eq_sub_mod hc, Nat.mod_eq_of_lt (by omega)]
    omega
  · have e1 : (h % size + d) % size = h % size + d - size := by
      rw [Nat.mod_eq_sub_mod hc, Nat.mod_eq_of_lt (by omega)]
    have e2 : (h % size + d') % size = h % size + d' - size := by
      rw [Nat.mod_eq_sub_mod hc', Nat.mod_eq_of_lt (by omega)]
    omega

theorem hash_lt (k : Key) {size : Nat} (hpos : 0 < size) : hash k size < size :=
  Nat.mod_lt _ hpos

/-! ### Well-formedness of the probe table -/

/-- The occupied entry at position `p` is probe-reachable: it sits at some
offset `d` of its key's walk, with every earlier walk position neither
EMPTY nor an occupied match.  This is the fundamental linear-probing
invariant; it makes `getCacheIndex` find the entry. -/
def goodEntry (t : List HashEntry) (size p : Nat) : Prop :=
  ∃ d, d < size ∧ p = (hash (t.getD p default).key size + d) % size ∧
    ∀ d' < d, skipAt t (t.getD p default).key ((hash (t.getD p default).key size + d') % size)

/-- Every occupied entry of the table is probe-reachable. -/
def tableWF (t : List HashEntry) (size : Nat) : Prop :=
  ∀ p, p < size → (t.getD p default).state = STATE_OCCUPIED → goodEntry t size p

instance (t : List HashEntry) (k : Key) (p : Nat) : Decidable (skipAt t k p) := by
  unfold skipAt
  infer_instance

instance (t : List HashEntry) (size p : Nat) : Decidable (goodEntry t size p) := by
  unfold goodEntry
  infer_instance

instance (t : List HashEntry) (size : Nat) : Decidable (tableWF t size) := by
  unfold tableWF
  infer_instance

/-- Lookup of the key of a probe-reachable occupied entry finds it. -/
theorem probeGet_of_goodEntry {t : List HashEntry} {size p : Nat} (hpos : 0 < size)
    (hocc : (t.getD p default).state = STATE_OCCUPIED) (hgood : goodEntry t size p) :
    probeGet t size (t.getD p default).key (hash (t.getD p default).key size) size =
      some (t.getD p default).cache_index := by
  obtain ⟨d, hd, hpEq, hskips⟩ := hgood
  have := probeGet_hit d (hash (t.getD p default).key size) size
    (hash_lt _ hpos) hd hskips (by rw [← hpEq]; exact hocc) (by rw [← hpEq])
  rw [← hpEq] at this
  exact this

/-- Two probe-reachable occupied entries with the same key coincide. -/
theorem goodEntry_unique {t : List HashEntry} {size p q : Nat}
    (hp : p < size) (hq : q < size)
    (hop : (t.getD p default).state = STATE_OCCUPIED)
    (hoq : (t.getD q default).state = STATE_OCCUPIED)
    (hkey : (t.getD p default).key = (t.getD q default).key)
    (hgp : goodEntry t size p) (hgq : goodEntry t size q) : p = q := by
  obtain ⟨dp, hdp, hpEq, hskp⟩ := hgp
  obtain ⟨dq, hdq, hqEq, hskq⟩ := hgq
  rw [hkey] at hpEq hskp
  set k := (t.getD q default).key with hk
  rcases Nat.lt_trichotomy dp dq with hlt | hEq | hgt
  · exfalso
    have := (hskq dp hlt).2
    rw [← hpEq] at this
    exact this ⟨hop, by rw [hkey]⟩
  · rw [hpEq, hqEq, hEq]
  · exfalso
    have := (hskp dq hgt).2
    rw [← hqEq] at this
    exact this ⟨hoq, rfl⟩

/-- A fresh insertion (no occupied match anywhere, some EMPTY entry
present): the probe terminates and writes the new entry at a
probe-reachable non-occupied position. -/
theorem probeIns_fresh {t : List HashEntry} {size : Nat} {k : Key} {idx : Int}
    (hpos : 0 < size)
    (hnomatch : ∀ p < size,
      ¬((t.getD p default).state = STATE_OCCUPIED ∧ (t.getD p default).key = k))
    (hempty : ∃ p < size, (t.getD p default).state = STATE_EMPTY) :
    ∃ dq, dq < size ∧
      (t.getD ((hash k size + dq) % size) default).state ≠ STATE_OCCUPIED ∧
      (∀ d' < dq, skipAt t k ((hash k size + d') % size)) ∧
      probeIns t size k idx (hash k size) none size =
        some (t.set ((hash k size + dq) % size) ⟨k, idx, STATE_OCCUPIED⟩, true) := by
  classical
  obtain ⟨pe, hpe, hste⟩ := hempty
  have hh0 : hash k size < size := hash_lt _ hpos
  have hexE : ∃ d, d < size ∧ (t.getD ((hash k size + d) % size) default).state = STATE_EMPTY := by
    obtain ⟨d, hd, hdp⟩ := walk_surj (hash k size) pe hpe
    exact ⟨d, hd, by rw [hdp]; exact hste⟩
  have hfind := Nat.find_spec hexE
  set d0 := Nat.find hexE with hd0def
  have hskips : ∀ d' < d0, skipAt t k ((hash k size + d') % size) := by
    intro d' hd'
    have hmin := Nat.find_min hexE hd'
    push_neg at hmin
    constructor
    · intro hE
      exact absurd hE (hmin (by omega))
    · exact hnomatch _ (Nat.mod_lt _ hpos)
  have hins := @probeIns_toEmpty t size k idx d0 (hash k size) size none hh0 hfind.1 hskips hfind.2
  simp only [Option.getD_none] at hins
  cases hft : firstTomb t size (hash k size) d0 with
  | none =>
    rw [hft] at hins
    simp only [Option.getD_none] at hins
    exact ⟨d0, hfind.1, by rw [hfind.2]; decide, hskips, hins⟩
  | some ptomb =>
    rw [hft] at hins
    simp only [Option.getD_some] at hins
    obtain ⟨dp, hdp, hpEq, hstp, _⟩ := firstTomb_some d0 (hash k size) ptomb hh0 hft
    refine ⟨dp, Nat.lt_trans hdp hfind.1, ?_, ?_, ?_⟩
    · rw [← hpEq, hstp]; decide
    · intro d' hd'
      exact hskips d' (Nat.lt_trans hd' hdp)
    · rw [← hpEq]; exact hins

/-- A fresh insert through `insertHash`, when the pre-insert (rehash)
stage leaves the state unchanged. -/
theorem insertHash_fresh {c : RBCCache} {k : Key} {idx : Int} {rehashOk : Bool}
    (hpos : 0 < c.hash_size)
    (hstage : (if 7 ≤ c.hash_used * 10 / c.hash_size then rehash c rehashOk else some c) = some c)
    (hnomatch : ∀ p < c.hash_size,
      ¬((c.hash_table.getD p default).state = STATE_OCCUPIED ∧
        (c.hash_table.getD p default).key = k))
    (hempty : ∃ p < c.hash_size, (c.hash_table.getD p default).state = STATE_EMPTY) :
    ∃ dq, dq < c.hash_size ∧
      (c.hash_table.getD ((hash k c.hash_size + dq) % c.hash_size) default).state ≠
        STATE_OCCUPIED ∧
      (∀ d' < dq, skipAt c.hash_table k ((hash k c.hash_size + d') % c.hash_size)) ∧
      insertHash c k idx rehashOk = some { c with
        hash_table := c.hash_table.set ((hash k c.hash_size + dq) % c.hash_size)
          ⟨k, idx, STATE_OCCUPIED⟩,
        hash_used := c.hash_used + 1 } := by
  obtain ⟨dq, hdq, hnocc, hskips, hins⟩ :=
    @probeIns_fresh c.hash_table c.hash_size k idx hpos hnomatch (by
      obtain ⟨p, hp, hs⟩ := hempty
      exact ⟨p, hp, hs⟩)
  refine ⟨dq, hdq, hnocc, hskips, ?_⟩
  unfold insertHash
  rw [hstage]
  dsimp only
  rw [hins]
  simp

/-- Lookup finds a freshly inserted entry. -/
theorem probeGet_set_fresh {t : List HashEntry} {size : Nat} {k : Key} {idx : Int} {dq : Nat}
    (hlen : t.length = size) (hpos : 0 < size) (hdq : dq < size)
    (hskips : ∀ d' < dq, skipAt t k ((hash k size + d') % size)) :
    probeGet (t.set ((hash k size + dq) % size) ⟨k, idx, STATE_OCCUPIED⟩) size k
      (hash k size) size = some idx := by
  set q := (hash k size + dq) % size with hq
  have hqlt : q < size := Nat.mod_lt _ hpos
  have hgetq : ((t.set q ⟨k, idx, STATE_OCCUPIED⟩).getD q default) = ⟨k, idx, STATE_OCCUPIED⟩ :=
    getD_set_self t _ default q (hlen ▸ hqlt)
  have hskips' : ∀ d' < dq,
      skipAt (t.set q ⟨k, idx, STATE_OCCUPIED⟩) k ((hash k size + d') % size) := by
    intro d' hd'
    have hne : (hash k size + d') % size ≠ q := by
      rw [hq]
      intro hEq
      exact absurd (walk_inj (hash k size) d' dq (Nat.lt_trans hd' hdq) hdq hEq)
        (Nat.ne_of_lt hd')
    unfold skipAt
    rw [getD_set_ne t _ default q _ (fun hEq => hne hEq.symm)]
    exact hskips d' hd'
  have hmain := probeGet_hit (t := t.set q ⟨k, idx, STATE_OCCUPIED⟩) (k := k) dq
    (hash k size) size (hash_lt _ hpos) hdq hskips'
    (by rw [← hq, hgetq]) (by rw [← hq, hgetq])
  rw [← hq] at hmain
  rw [hmain, hgetq]

/-! ### C3: load-factor trigger and bound of `insertHash` -/

/-- A hash-index state with `hash_used = 7`, `hash_size = 11`: the spec's
trigger `(used+1)·10 ≥ H·7` fires (80 ≥ 77) but the code's integer-division
trigger `(used·10)/H ≥ 7` does not (70/11 = 6). -/
def c3state : RBCCache :=
  { cache_size := 4
    keys := []
    values := []
    clock_hand := 0
    hash_table :=
      [⟨[1], 0, STATE_OCCUPIED⟩, ⟨[2], 1, STATE_OCCUPIED⟩, ⟨[3], 2, STATE_OCCUPIED⟩,
       ⟨[4], 3, STATE_OCCUPIED⟩, ⟨[5], 0, STATE_OCCUPIED⟩, ⟨[6], 1, STATE_OCCUPIED⟩,
       ⟨[7], 2, STATE_OCCUPIED⟩, default, default, default, default]
    hash_size := 11
    hash_used := 7
    heap := [] }

/-- The state `insertHash` produces from `c3state` for the fresh key `[90]`. -/
def c3res : RBCCache := (insertHash c3state [90] 0 true).getD c3state

/-- C3 counterexample: at `hash_used = 7`, `hash_size = 11` the spec's
trigger `(used+1)·10 ≥ H·7` holds (80 ≥ 77), yet the code's check
`(used·10)/H ≥ 7` (70/11 = 6) does not fire: inserting a fresh key
performs no rehash (the table size stays 11 even though every attempted
rehash would have succeeded), and afterwards `used·10 < H·7` fails
(80 ≥ 77). -/
theorem c3_load_factor_cex :
    c3state.hash_size * 7 ≤ (c3state.hash_used + 1) * 10 ∧
    insertHash c3state [90] 0 true = some c3res ∧
    c3res.hash_size = c3state.hash_size ∧
    ¬(c3res.hash_used * 10 < c3res.hash_size * 7) := by
  decide

/-- C3 (amended): `insertHash` grows the table before inserting whenever
`used·10 ≥ H·7` with integer division, i.e. `(used·10)/H ≥ 7`; consequently
immediately after an insert whose rehash attempt (if any) was allowed to
allocate, `used·10 < H·7 + 10` holds. -/
theorem insertHash_load_factor (c : RBCCache) (k : Key) (idx : Int) (c' : RBCCache)
    (hlen : c.hash_table.length = c.hash_size) (hpos : 0 < c.hash_size)
    (hrun : insertHash c k idx true = some c') :
    c'.hash_used * 10 < c'.hash_size * 7 + 10 := by
  unfold insertHash at hrun
  by_cases htrig : 7 ≤ c.hash_used * 10 / c.hash_size
  · rw [if_pos htrig] at hrun
    unfold rehash at hrun
    rw [if_pos rfl] at hrun
    cases hloop : rehashLoop (next_prime (c.hash_size * 2)) c.hash_table
        (List.replicate (next_prime (c.hash_size * 2)) default) 0 with
    | none => rw [hloop] at hrun; cases hrun
    | some tu =>
      obtain ⟨t2, used2⟩ := tu
      rw [hloop] at hrun
      dsimp only at hrun
      have hused2 : used2 ≤ c.hash_size := by
        have := rehashLoop_used_le c.hash_table _ t2 0 used2 hloop
        omega
      have hnext : c.hash_size * 2 ≤ next_prime (c.hash_size * 2) :=
        next_prime_ge _
      cases hins : probeIns t2 (next_prime (c.hash_size * 2)) k idx
          (hash k (next_prime (c.hash_size * 2))) none (next_prime (c.hash_size * 2)) with
      | none => rw [hins] at hrun; cases hrun
      | some tf =>
        obtain ⟨t3, fresh⟩ := tf
        rw [hins] at hrun
        dsimp only at hrun
        cases hrun
        dsimp only
        have hb : (if fresh = true then (1 : Nat) else 0) ≤ 1 := by cases fresh <;> simp
        omega
  · rw [if_neg htrig] at hrun
    dsimp only at hrun
    have hlt : c.hash_used * 10 < 7 * c.hash_size :=
      (Nat.div_lt_iff_lt_mul hpos).mp (Nat.lt_of_not_le htrig)
    cases hins : probeIns c.hash_table c.hash_size k idx
        (hash k c.hash_size) none c.hash_size with
    | none => rw [hins] at hrun; cases hrun
    | some tf =>
      obtain ⟨t3, fresh⟩ := tf
      rw [hins] at hrun
      dsimp only at hrun
      cases hrun
      dsimp only
      have hb : (if fresh = true then (1 : Nat) else 0) ≤ 1 := by cases fresh <;> simp
      omega

/-- C3 amended-claim witness at the counterexample state itself. -/
theorem insertHash_load_factor_witness :
    c3res.hash_used * 10 < c3res.hash_size * 7 + 10 :=
  insertHash_load_factor c3state [90] 0 c3res (by decide) (by decide) (by decide)

/-- `eraseHash` on the key of a probe-reachable occupied entry tombstones
exactly that entry and decrements `hash_used`. -/
theorem eraseHash_found {c : RBCCache} {p : Nat}
    (hpos : 0 < c.hash_size) (hp : p < c.hash_size)
    (hocc : (c.hash_table.getD p default).state = STATE_OCCUPIED)
    (hgood : goodEntry c.hash_table c.hash_size p) :
    eraseHash c (c.hash_table.getD p default).key =
      some { c with
        hash_table := c.hash_table.set p
          { c.hash_table.getD p default with state := STATE_TOMBSTONE },
        hash_used := c.hash_used - 1 } := by
  obtain ⟨d, hd, hpEq, hskips⟩ := hgood
  have hhit := probeErase_hit d (hash (c.hash_table.getD p default).key c.hash_size)
    c.hash_size (hash_lt _ hpos) hd hskips (by rw [← hpEq]; exact hocc) (by rw [← hpEq])
  rw [← hpEq] at hhit
  unfold eraseHash
  rw [hhit]
  rfl

/-- Lookup of a probe-reachable occupied entry's key returns its slot. -/
theorem getCacheIndex_of_goodEntry {c : RBCCache} {p : Nat} (hpos : 0 < c.hash_size)
    (hocc : (c.hash_table.getD p default).state = STATE_OCCUPIED)
    (hgood : goodEntry c.hash_table c.hash_size p) :
    getCacheIndex c (c.hash_table.getD p default).key =
      some (c.hash_table.getD p default).cache_index :=
  probeGet_of_goodEntry hpos hocc hgood

/-- C8: a rehash whose allocation of the larger table fails restores the
old table pointer and size and returns with the index state unchanged (a
net no-op on the cache state), and the index operations keep working on the
old table: even with the load-factor bound exceeded (no bound is assumed
below), a fresh insert still lands the key so that lookup finds it, and an
erase of a probe-reachable entry still tombstones it. -/
theorem rehash_fail_restores :
    (∀ c : RBCCache, rehash c false = some c) ∧
    (∀ (c : RBCCache) (k : Key) (idx : Int),
      c.hash_table.length = c.hash_size → 0 < c.hash_size →
      (∀ p < c.hash_size,
        ¬((c.hash_table.getD p default).state = STATE_OCCUPIED ∧
          (c.hash_table.getD p default).key = k)) →
      (∃ p < c.hash_size, (c.hash_table.getD p default).state = STATE_EMPTY) →
      ∃ c', insertHash c k idx false = some c' ∧
        c'.hash_size = c.hash_size ∧ c'.hash_used = c.hash_used + 1 ∧
        getCacheIndex c' k = some idx) ∧
    (∀ (c : RBCCache) (p : Nat),
      c.hash_table.length = c.hash_size → 0 < c.hash_size → p < c.hash_size →
      (c.hash_table.getD p default).state = STATE_OCCUPIED →
      goodEntry c.hash_table c.hash_size p →
      ∃ c', eraseHash c (c.hash_table.getD p default).key = some c' ∧
        (c'.hash_table.getD p default).state = STATE_TOMBSTONE ∧
        c'.hash_used = c.hash_used - 1 ∧ c'.hash_size = c.hash_size) := by
  refine ⟨fun c => by simp [rehash], ?_, ?_⟩
  · intro c k idx hlen hpos hnomatch hempty
    have hstage : (if 7 ≤ c.hash_used * 10 / c.hash_size then rehash c false else some c) =
        some c := by
      split
      · simp [rehash]
      · rfl
    obtain ⟨dq, hdq, hnocc, hskips, hins⟩ :=
      @insertHash_fresh c k idx false hpos hstage hnomatch hempty
    refine ⟨_, hins, by dsimp, by dsimp, ?_⟩
    unfold getCacheIndex
    dsimp only
    exact probeGet_set_fresh hlen hpos hdq hskips
  · intro c p hlen hpos hp hocc hgood
    refine ⟨_, eraseHash_found hpos hp hocc hgood, ?_, by dsimp, by dsimp⟩
    dsimp only
    rw [getD_set_self _ _ _ p (hlen ▸ hp)]

/-- An over-loaded index state (`used·10 ≥ H·7`): 8 occupied entries in an
11-slot table, each key hashing to its own position. -/
def c8state : RBCCache :=
  { cache_size := 4
    keys := []
    values := []
    clock_hand := 0
    hash_table :=
      [⟨[66], 0, STATE_OCCUPIED⟩, ⟨[77], 1, STATE_OCCUPIED⟩, ⟨[76], 2, STATE_OCCUPIED⟩,
       ⟨[79], 3, STATE_OCCUPIED⟩, ⟨[69], 0, STATE_OCCUPIED⟩, ⟨[68], 1, STATE_OCCUPIED⟩,
       ⟨[71], 2, STATE_OCCUPIED⟩, ⟨[70], 3, STATE_OCCUPIED⟩, default, default, default]
    hash_size := 11
    hash_used := 8
    heap := [] }

/-- C8 witness: the failed rehash is a no-op on a concrete over-loaded
state, and insert and erase still work there. -/
theorem rehash_fail_restores_witness :
    rehash c8state false = some c8state ∧
    (∃ c', insertHash c8state [90] 0 false = some c' ∧
      c'.hash_size = c8state.hash_size ∧ c'.hash_used = c8state.hash_used + 1 ∧
      getCacheIndex c' [90] = some 0) ∧
    (∃ c', eraseHash c8state (c8state.hash_table.getD 0 default).key = some c' ∧
      (c'.hash_table.getD 0 default).state = STATE_TOMBSTONE ∧
      c'.hash_used = c8state.hash_used - 1 ∧ c'.hash_size = c8state.hash_size) :=
  ⟨rehash_fail_restores.1 c8state,
   rehash_fail_restores.2.1 c8state [90] 0 (by decide) (by decide) (by decide) (by decide),
   rehash_fail_restores.2.2 c8state 0 (by decide) (by decide) (by decide) (by decide)
     (by decide)⟩

theorem getD_some_lt {α : Type} (l : List (Option α)) (p : Nat) (x : α)
    (h : l.getD p none = some x) : p < l.length := by
  by_contra hge
  rw [getD_length_le l none p (Nat.le_of_not_lt hge)] at h
  cases h

/-- C5: when the index maps the key to a slot whose cell is present,
`accessCache` is a pure hit: it bumps that cell's refcount by one, sets its
reference bit, and returns the very same cell; keys, slots, hash table,
clock hand and the cell's payload are untouched, whatever `value` and
`plan` were passed. -/
theorem accessCache_hit (c : RBCCache) (k : Key) (value : List Nat) (plan : AllocPlan)
    (i : Int) (cid : Nat) (cv : CacheValue)
    (hidx : getCacheIndex c k = some i) (hne : i ≠ -1)
    (hval : c.values.getD i.toNat none = some cid)
    (hcell : c.heap.getD cid none = some cv) :
    accessCache c k value plan =
      some ({ c with heap := (c.heap.set cid
        (some { cv with refcount := cv.refcount + 1, ref_bit := 1 })) }, some cid) ∧
    cellOf { c with heap := (c.heap.set cid
        (some { cv with refcount := cv.refcount + 1, ref_bit := 1 })) } cid =
      { cv with refcount := cv.refcount + 1, ref_bit := 1 } := by
  constructor
  · unfold accessCache
    rw [hidx]
    dsimp only
    rw [if_pos ⟨hne, by rw [hval]; rfl⟩]
    unfold modifyCell
    rw [hval]
    simp only [Option.getD_some]
    rw [hcell]
    rfl
  · unfold cellOf
    dsimp only
    rw [getD_set_self _ _ _ cid (getD_some_lt c.heap cid cv hcell)]
    rfl

/-- The cache state after `access("A", [1,0,0,0])` and a release of the
returned handle, on a fresh capacity-4 cache. -/
def c5sA : RBCCache :=
  releaseValue ((accessCache (createCache 4) [65] [1, 0, 0, 0] allOk).getD
    (createCache 4, none)).1 0

/-- C5 witness: hitting `"A"` again with different bytes `[9,9,9,9]`
returns the same cell 0 with its original payload `[1,0,0,0]`. -/
theorem accessCache_hit_witness :
    accessCache c5sA [65] [9, 9, 9, 9] allOk =
      some ({ c5sA with heap := (c5sA.heap.set 0
        (some ⟨[1, 0, 0, 0], 1, 0, 1⟩)) }, some 0) ∧
    cellOf { c5sA with heap := (c5sA.heap.set 0
        (some ⟨[1, 0, 0, 0], 1, 0, 1⟩)) } 0 = ⟨[1, 0, 0, 0], 1, 0, 1⟩ := by
  exact accessCache_hit c5sA [65] [9, 9, 9, 9] allOk 0 0 ⟨[1, 0, 0, 0], 0, 0, 1⟩
    (by decide) (by decide) (by decide) (by decide)

/-! ### Clock sweep lemmas -/

theorem modifyCell_getD (c : RBCCache) (cid : Nat) (f : CacheValue → CacheValue) (j : Nat) :
    (modifyCell c cid f).heap.getD j none =
      if j = cid then (c.heap.getD cid none).map f else c.heap.getD j none := by
  unfold modifyCell
  dsimp only
  by_cases hj : j = cid
  · subst hj
    rw [if_pos rfl]
    rcases Nat.lt_or_ge j c.heap.length with hlt | hge
    · exact getD_set_self _ _ _ j hlt
    · rw [getD_length_le _ none j (by rw [length_set']; exact hge)]
      rw [getD_length_le c.heap none j hge]
      rfl
  · rw [if_neg hj]
    exact getD_set_ne _ _ _ cid j (fun h => hj h.symm)

/-- Slot `i` would stop the clock sweep: it is empty, or the sweep's read
of its cell (`default` junk for a dangling id, as the C code would read
freed memory) shows `refcount = 0` and `ref_bit = 0`. -/
def idleAt (c : RBCCache) (i : Nat) : Prop :=
  c.values.getD i none = none ∨ (c.keys.getD i none).isNone ∨
  ∃ cid, c.values.getD i none = some cid ∧
    (cellOf c cid).refcount = 0 ∧ (cellOf c cid).ref_bit = 0

/-- Clearing `cid0`'s reference bit: refcounts are everywhere untouched,
`cid0`'s bit reads as 0 afterwards, other cells are untouched. -/
theorem cellOf_modifyBit (c : RBCCache) (cid0 cid : Nat) :
    (cellOf (modifyCell c cid0 fun v => { v with ref_bit := 0 }) cid).refcount =
      (cellOf c cid).refcount ∧
    (cid = cid0 → (cellOf (modifyCell c cid0 fun v => { v with ref_bit := 0 }) cid).ref_bit = 0) ∧
    (cid ≠ cid0 → cellOf (modifyCell c cid0 fun v => { v with ref_bit := 0 }) cid =
      cellOf c cid) := by
  unfold cellOf
  rw [modifyCell_getD]
  by_cases hcc : cid = cid0
  · subst hcc
    rw [if_pos rfl]
    cases c.heap.getD cid none <;> exact ⟨rfl, fun _ => rfl, fun hne => absurd rfl hne⟩
  · rw [if_neg hcc]
    exact ⟨rfl, fun hEq => absurd hEq hcc, fun _ => rfl⟩

/-- If the sweep starts at a slot that stops it, one iteration returns that
slot and advances the hand. -/
theorem sweepLoop_stops_here (c : RBCCache) (fuel : Nat) (hfuel : 0 < fuel)
    (hidle : idleAt c c.clock_hand) :
    sweepLoop c fuel = (some c.clock_hand, advanceHand c) := by
  cases fuel with
  | zero => omega
  | succ fuel =>
  rcases hidle with hv | hk | ⟨cid, hv, hrc, hbit⟩
  · simp only [sweepLoop, hv]
  · cases hv : c.values.getD c.clock_hand none with
    | none => simp only [sweepLoop, hv]
    | some cid =>
      simp only [sweepLoop, hv]
      rw [if_pos hk]
  · unfold cellOf at hrc hbit
    simp only [sweepLoop, hv]
    by_cases hk : (c.keys.getD c.clock_hand none).isNone
    · rw [if_pos hk]
    · rw [if_neg hk, if_pos ⟨hrc, hbit⟩]

/-- One non-returning sweep iteration. -/
theorem sweepLoop_step (c : RBCCache) (fuel : Nat) (cid : Nat)
    (hv : c.values.getD c.clock_hand none = some cid)
    (hk : ¬(c.keys.getD c.clock_hand none).isNone)
    (hnotidle : ¬((cellOf c cid).refcount = 0 ∧ (cellOf c cid).ref_bit = 0)) :
    sweepLoop c (fuel + 1) =
      sweepLoop (advanceHand (modifyCell c cid fun v => { v with ref_bit := 0 })) fuel := by
  unfold cellOf at hnotidle
  simp only [sweepLoop, hv]
  rw [if_neg hk, if_neg hnotidle]

/-- If some slot within `d` walk steps of the hand would stop the sweep,
the sweep returns a victim within `d + 1` iterations. -/
theorem sweepLoop_finds_idle :
    ∀ (d : Nat) (c : RBCCache) (fuel : Nat), 0 < c.cache_size →
    c.clock_hand < c.cache_size → d < fuel →
    idleAt c ((c.clock_hand + d) % c.cache_size) →
    (sweepLoop c fuel).1.isSome := by
  intro d
  induction d with
  | zero =>
    intro c fuel hC hhand hfuel hidle
    rw [Nat.add_zero, Nat.mod_eq_of_lt hhand] at hidle
    rw [sweepLoop_stops_here c fuel (by omega) hidle]
    rfl
  | succ d ih =>
    intro c fuel hC hhand hfuel hidle
    cases fuel with
    | zero => omega
    | succ fuel =>
    cases hv : c.values.getD c.clock_hand none with
    | none =>
      rw [sweepLoop_stops_here c (fuel + 1) (Nat.succ_pos _) (Or.inl hv)]
      rfl
    | some cid =>
      by_cases hk : (c.keys.getD c.clock_hand none).isNone
      · rw [sweepLoop_stops_here c (fuel + 1) (Nat.succ_pos _) (Or.inr (Or.inl hk))]
        rfl
      · by_cases hstop : (cellOf c cid).refcount = 0 ∧ (cellOf c cid).ref_bit = 0
        · rw [sweepLoop_stops_here c (fuel + 1) (Nat.succ_pos _)
            (Or.inr (Or.inr ⟨cid, hv, hstop.1, hstop.2⟩))]
          rfl
        · rw [sweepLoop_step c fuel cid hv hk hstop]
          set c' := advanceHand (modifyCell c cid fun v => { v with ref_bit := 0 }) with hc'
          have hsz : c'.cache_size = c.cache_size := rfl
          have hhand' : c'.clock_hand = (c.clock_hand + 1) % c.cache_size := rfl
          apply ih c' fuel (by rw [hsz]; exact hC)
            (by rw [hhand', hsz]; exact Nat.mod_lt _ hC) (by omega)
          have htarget : (c'.clock_hand + d) % c'.cache_size =
              (c.clock_hand + (d + 1)) % c.cache_size := by
            rw [hhand', hsz, mod_walk]
          rw [htarget]
          rcases hidle with h1 | h2 | ⟨cid2, hv2, hrc2, hbit2⟩
          · exact Or.inl h1
          · exact Or.inr (Or.inl h2)
          · refine Or.inr (Or.inr ⟨cid2, hv2, ?_, ?_⟩)
            · have := (cellOf_modifyBit c cid cid2).1
              rw [show cellOf c' cid2 =
                cellOf (modifyCell c cid fun v => { v with ref_bit := 0 }) cid2 from rfl]
              rw [this]
              exact hrc2
            · rw [show cellOf c' cid2 =
                cellOf (modifyCell c cid fun v => { v with ref_bit := 0 }) cid2 from rfl]
              by_cases hcc : cid2 = cid
              · exact (cellOf_modifyBit c cid cid2).2.1 hcc
              · rw [(cellOf_modifyBit c cid cid2).2.2 hcc]
                exact hbit2

/-- If some slot within `d` steps holds a cell reading `refcount = 0` (any
reference bit), the sweep returns a victim within `d + 1 + C` iterations:
at worst the first pass clears the bit and the second pass takes the slot. -/
theorem sweepLoop_finds_rc0 :
    ∀ (d : Nat) (c : RBCCache) (fuel : Nat), 0 < c.cache_size →
    c.clock_hand < c.cache_size → d + c.cache_size < fuel →
    (∃ cid, c.values.getD ((c.clock_hand + d) % c.cache_size) none = some cid ∧
      (cellOf c cid).refcount = 0) →
    (sweepLoop c fuel).1.isSome := by
  intro d
  induction d with
  | zero =>
    intro c fuel hC hhand hfuel htarget
    obtain ⟨cid, hv, hrc⟩ := htarget
    rw [Nat.add_zero, Nat.mod_eq_of_lt hhand] at hv
    cases fuel with
    | zero => omega
    | succ fuel =>
    by_cases hk : (c.keys.getD c.clock_hand none).isNone
    · rw [sweepLoop_stops_here c (fuel + 1) (Nat.succ_pos _) (Or.inr (Or.inl hk))]
      rfl
    · by_cases hbit : (cellOf c cid).ref_bit = 0
      · rw [sweepLoop_stops_here c (fuel + 1) (Nat.succ_pos _)
          (Or.inr (Or.inr ⟨cid, hv, hrc, hbit⟩))]
        rfl
      · rw [sweepLoop_step c fuel cid hv hk (fun hcon => hbit hcon.2)]
        set c' := advanceHand (modifyCell c cid fun v => { v with ref_bit := 0 }) with hc'
        have hsz : c'.cache_size = c.cache_size := rfl
        have hhand' : c'.clock_hand = (c.clock_hand + 1) % c.cache_size := rfl
        apply sweepLoop_finds_idle (c.cache_size - 1) c' fuel (by rw [hsz]; exact hC)
          (by rw [hhand', hsz]; exact Nat.mod_lt _ hC) (by omega)
        have htarget' : (c'.clock_hand + (c.cache_size - 1)) % c'.cache_size =
            c.clock_hand := by
          rw [hhand', hsz, Nat.mod_add_mod]
          have heq2 : c.clock_hand + 1 + (c.cache_size - 1) =
              c.clock_hand + c.cache_size := by omega
          rw [heq2, Nat.add_mod_right, Nat.mod_eq_of_lt hhand]
        rw [htarget']
        refine Or.inr (Or.inr ⟨cid, hv, ?_, ?_⟩)
        · rw [show cellOf c' cid =
            cellOf (modifyCell c cid fun v => { v with ref_bit := 0 }) cid from rfl]
          rw [(cellOf_modifyBit c cid cid).1]
          exact hrc
        · rw [show cellOf c' cid =
            cellOf (modifyCell c cid fun v => { v with ref_bit := 0 }) cid from rfl]
          exact (cellOf_modifyBit c cid cid).2.1 rfl
  | succ d ih =>
    intro c fuel hC hhand hfuel htarget
    obtain ⟨cid, hv, hrc⟩ := htarget
    cases fuel with
    | zero => omega
    | succ fuel =>
    cases hv0 : c.values.getD c.clock_hand none with
    | none =>
      rw [sweepLoop_stops_here c (fuel + 1) (Nat.succ_pos _) (Or.inl hv0)]
      rfl
    | some cid0 =>
      by_cases hk : (c.keys.getD c.clock_hand none).isNone
      · rw [sweepLoop_stops_here c (fuel + 1) (Nat.succ_pos _) (Or.inr (Or.inl hk))]
        rfl
      · by_cases hstop : (cellOf c cid0).refcount = 0 ∧ (cellOf c cid0).ref_bit = 0
        · rw [sweepLoop_stops_here c (fuel + 1) (Nat.succ_pos _)
            (Or.inr (Or.inr ⟨cid0, hv0, hstop.1, hstop.2⟩))]
          rfl
        · rw [sweepLoop_step c fuel cid0 hv0 hk hstop]
          set c' := advanceHand (modifyCell c cid0 fun v => { v with ref_bit := 0 }) with hc'
          have hsz : c'.cache_size = c.cache_size := rfl
          have hhand' : c'.clock_hand = (c.clock_hand + 1) % c.cache_size := rfl
          apply ih c' fuel (by rw [hsz]; exact hC)
            (by rw [hhand', hsz]; exact Nat.mod_lt _ hC) (by omega)
          have htarget' : (c'.clock_hand + d) % c'.cache_size =
              (c.clock_hand + (d + 1)) % c.cache_size := by
            rw [hhand', hsz, mod_walk]
          rw [htarget']
          refine ⟨cid, hv, ?_⟩
          rw [show cellOf c' cid =
            cellOf (modifyCell c cid0 fun v => { v with ref_bit := 0 }) cid from rfl]
          rw [(cellOf_modifyBit c cid0 cid).1]
          exact hrc

/-- The sweep never changes capacity, slots, keys or the hash index. -/
theorem sweepLoop_fields : ∀ (fuel : Nat) (c : RBCCache),
    (sweepLoop c fuel).2.cache_size = c.cache_size ∧
    (sweepLoop c fuel).2.keys = c.keys ∧
    (sweepLoop c fuel).2.values = c.values ∧
    (sweepLoop c fuel).2.hash_table = c.hash_table ∧
    (sweepLoop c fuel).2.hash_size = c.hash_size ∧
    (sweepLoop c fuel).2.hash_used = c.hash_used := by
  intro fuel
  induction fuel with
  | zero => intro c; exact ⟨rfl, rfl, rfl, rfl, rfl, rfl⟩
  | succ fuel ih =>
    intro c
    cases hv : c.values.getD c.clock_hand none with
    | none =>
      simp only [sweepLoop, hv]
      exact ⟨rfl, rfl, rfl, rfl, rfl, rfl⟩
    | some cid =>
      by_cases hk : (c.keys.getD c.clock_hand none).isNone
      · simp only [sweepLoop, hv]
        rw [if_pos hk]
        exact ⟨rfl, rfl, rfl, rfl, rfl, rfl⟩
      · by_cases hstop : ((c.heap.getD cid none).getD default).refcount = 0 ∧
            ((c.heap.getD cid none).getD default).ref_bit = 0
        · simp only [sweepLoop, hv]
          rw [if_neg hk, if_pos hstop]
          exact ⟨rfl, rfl, rfl, rfl, rfl, rfl⟩
        · simp only [sweepLoop, hv]
          rw [if_neg hk, if_neg hstop]
          exact ih _

/-- Helper applications of `accessCache` for concrete scenarios: access
with all allocations succeeding, then release the returned handle. -/
def doAccess (c : RBCCache) (k : Key) (v : List Nat) : RBCCache × Option Nat :=
  (accessCache c k v allOk).getD (c, none)

def doAR (c : RBCCache) (k : Key) (v : List Nat) : RBCCache :=
  releaseValue (doAccess c k v).1 ((doAccess c k v).2.getD 0)

/-- Capacity-4 cache after admitting A, B, C, D with each handle released:
slots 0..3 hold them, all reference bits 1, all refcounts 0, hand at 0. -/
def c4sABCD : RBCCache :=
  doAR (doAR (doAR (doAR (createCache 4) [65] [1, 0, 0, 0]) [66] [2]) [67] [3]) [68] [4]

/-- Result of the fifth access `access("E", …)` on `c4sABCD`. -/
def c4resE : RBCCache × Option Nat := (accessCache c4sABCD [69] [5] allOk).getD (c4sABCD, none)

/-- A steady state: four idle slots (`refcount = 0`, `ref_bit = 0`), hand
at 2. -/
def c4steady : RBCCache :=
  { cache_size := 4
    keys := [some [65], some [66], some [67], some [68]]
    values := [some 0, some 1, some 2, some 3]
    clock_hand := 2
    hash_table := List.replicate 11 default
    hash_size := 11
    hash_used := 0
    heap := [some ⟨[1], 0, 0, 0⟩, some ⟨[2], 0, 1, 0⟩, some ⟨[3], 0, 2, 0⟩,
             some ⟨[4], 0, 3, 0⟩] }

/-- C4: (general part) when every slot whose cell exists reads
`refcount = 0` and `ref_bit = 0`, `findClockVictim` returns exactly the
slot named by the clock hand and advances the hand by one modulo the
capacity; (concrete part) with capacity 4, after admitting A, B, C, D (all
released, all bits set, hand 0), accessing E clears the four reference
bits in one pass, evicts A from slot 0 (its cell freed, its key gone from
the index), admits E at slot 0, and leaves the hand at 1. -/
theorem findClockVictim_steady :
    (∀ c : RBCCache, 0 < c.cache_size → c.clock_hand < c.cache_size →
      (∀ i, i < c.cache_size → ∀ cid, c.values.getD i none = some cid →
        (cellOf c cid).refcount = 0 ∧ (cellOf c cid).ref_bit = 0) →
      findClockVictim c = (c.clock_hand, advanceHand c)) ∧
    (c4sABCD.clock_hand = 0 ∧
     c4sABCD.keys = [some [65], some [66], some [67], some [68]] ∧
     c4sABCD.values = [some 0, some 1, some 2, some 3] ∧
     (∀ cid, cid < 4 → (cellOf c4sABCD cid).refcount = 0 ∧
       (cellOf c4sABCD cid).ref_bit = 1) ∧
     accessCache c4sABCD [69] [5] allOk = some (c4resE.1, some 4) ∧
     c4resE.1.keys = [some [69], some [66], some [67], some [68]] ∧
     c4resE.1.clock_hand = 1 ∧
     c4resE.1.values = [some 4, some 1, some 2, some 3] ∧
     (cellOf c4resE.1 1).ref_bit = 0 ∧ (cellOf c4resE.1 2).ref_bit = 0 ∧
     (cellOf c4resE.1 3).ref_bit = 0 ∧ (cellOf c4resE.1 4).ref_bit = 1 ∧
     c4resE.1.heap.getD 0 none = none ∧
     getCacheIndex c4resE.1 [65] = some (-1) ∧
     getCacheIndex c4resE.1 [69] = some 0) := by
  constructor
  · intro c hC hhand hsteady
    have hidle : idleAt c c.clock_hand := by
      cases hv : c.values.getD c.clock_hand none with
      | none => exact Or.inl hv
      | some cid =>
        obtain ⟨h1, h2⟩ := hsteady c.clock_hand hhand cid hv
        exact Or.inr (Or.inr ⟨cid, hv, h1, h2⟩)
    unfold findClockVictim
    rw [sweepLoop_stops_here c (c.cache_size * 2) (by omega) hidle]
  · decide

/-- C4 witness: the general statement applied to the steady state
`c4steady` (hand at 2). -/
theorem findClockVictim_steady_witness :
    findClockVictim c4steady = (c4steady.clock_hand, advanceHand c4steady) :=
  findClockVictim_steady.1 c4steady (by decide) (by decide) (by decide)

/-- C6: if the two-pass sweep exhausts its `2·C` iterations without
returning (the only way execution can reach `findClockVictim`'s final
fallback), then every slot of the cache is occupied — key present, cell
present and live — by a cell with `refcount > 0`; and the fallback indeed
returns the hand position recorded at entry (the empty-slot scan finds
nothing).  Contrapositively, when some slot is empty or some cell reads
`refcount = 0`, the sweep or the scan yields a victim first. -/
theorem findClockVictim_forced_all_pinned (c : RBCCache)
    (hC : 0 < c.cache_size) (hhand : c.clock_hand < c.cache_size)
    (hrc : ∀ i, i < c.cache_size → ∀ cid, c.values.getD i none = some cid →
      0 ≤ (cellOf c cid).refcount)
    (hforced : (sweepLoop c (c.cache_size * 2)).1 = none) :
    (∀ i, i < c.cache_size → ∃ cid cv, c.values.getD i none = some cid ∧
      (c.keys.getD i none).isSome ∧ c.heap.getD cid none = some cv ∧
      0 < cv.refcount) ∧
    findClockVictim c = (c.clock_hand, (sweepLoop c (c.cache_size * 2)).2) := by
  have hmain : ∀ i, i < c.cache_size → ∃ cid cv, c.values.getD i none = some cid ∧
      (c.keys.getD i none).isSome ∧ c.heap.getD cid none = some cv ∧
      0 < cv.refcount := by
    intro i hi
    obtain ⟨d, hd, hdi⟩ := walk_surj c.clock_hand i hi
    have hnotidle : ¬ idleAt c ((c.clock_hand + d) % c.cache_size) := by
      intro hidle
      have := sweepLoop_finds_idle d c (c.cache_size * 2) hC hhand (by omega) hidle
      rw [hforced] at this
      cases this
    rw [hdi] at hnotidle
    cases hv : c.values.getD i none with
    | none => exact absurd (Or.inl hv) hnotidle
    | some cid =>
      have hksome : (c.keys.getD i none).isSome := by
        cases hk : c.keys.getD i none with
        | none => exact absurd (Or.inr (Or.inl (by rw [hk]; rfl))) hnotidle
        | some key => rfl
      have hrcne : (cellOf c cid).refcount ≠ 0 := by
        intro hz
        have hvd : c.values.getD ((c.clock_hand + d) % c.cache_size) none = some cid := by
          rw [hdi]; exact hv
        have := sweepLoop_finds_rc0 d c (c.cache_size * 2) hC hhand (by omega) ⟨cid, hvd, hz⟩
        rw [hforced] at this
        cases this
      have hrcpos : 0 < (cellOf c cid).refcount :=
        lt_of_le_of_ne (hrc i hi cid hv) (fun hEq => hrcne hEq.symm)
      cases hc : c.heap.getD cid none with
      | none =>
        exfalso
        unfold cellOf at hrcpos
        rw [hc] at hrcpos
        exact absurd hrcpos (by decide)
      | some cv =>
        refine ⟨cid, cv, rfl, hksome, hc, ?_⟩
        unfold cellOf at hrcpos
        rw [hc] at hrcpos
        exact hrcpos
  refine ⟨hmain, ?_⟩
  unfold findClockVictim
  cases hsweep : sweepLoop c (c.cache_size * 2) with
  | mk o c' =>
    rw [hsweep] at hforced
    dsimp only at hforced
    subst hforced
    dsimp only
    have hkeys : c'.keys = c.keys := by
      have := (sweepLoop_fields (c.cache_size * 2) c).2.1
      rw [hsweep] at this
      exact this
    have hfind : (List.range c.cache_size).find?
        (fun i => (c'.keys.getD i none).isNone) = none := by
      rw [List.find?_eq_none]
      intro i hi
      rw [List.mem_range] at hi
      obtain ⟨cid, cv, _, hksome, _, _⟩ := hmain i hi
      rw [hkeys]
      simp only [Option.isNone_iff_eq_none]
      intro hkn
      rw [hkn] at hksome
      cases hksome
    rw [hfind]

/-- An all-pinned state: both slots hold cells with `refcount = 1`. -/
def c6pinned : RBCCache :=
  { cache_size := 2
    keys := [some [65], some [66]]
    values := [some 0, some 1]
    clock_hand := 0
    hash_table := List.replicate 5 default
    hash_size := 5
    hash_used := 0
    heap := [some ⟨[1], 1, 0, 1⟩, some ⟨[2], 1, 1, 0⟩] }

/-- C6 witness: on the concrete all-pinned two-slot state the sweep
exhausts, every slot is shown pinned, and the fallback returns the entry
hand. -/
theorem findClockVictim_forced_witness :
    (∀ i, i < c6pinned.cache_size → ∃ cid cv, c6pinned.values.getD i none = some cid ∧
      (c6pinned.keys.getD i none).isSome ∧ c6pinned.heap.getD cid none = some cv ∧
      0 < cv.refcount) ∧
    findClockVictim c6pinned =
      (c6pinned.clock_hand, (sweepLoop c6pinned (c6pinned.cache_size * 2)).2) :=
  findClockVictim_forced_all_pinned c6pinned (by decide) (by decide) (by decide) (by decide)

/-! ### Heap / liveness plumbing for C1 and C9 -/

theorem getD_append_lt {α : Type} (l l' : List α) (d : α) :
    ∀ (p : Nat), p < l.length → (l ++ l').getD p d = l.getD p d := by
  induction l with
  | nil => intro p hp; simp at hp
  | cons a t ih =>
    intro p hp
    cases p with
    | zero => rfl
    | succ p => exact ih p (Nat.lt_of_succ_lt_succ hp)

theorem live_modifyCell (c : RBCCache) (cid0 : Nat) (f : CacheValue → CacheValue) (cid : Nat) :
    live (modifyCell c cid0 f) cid ↔ live c cid := by
  unfold live
  rw [show (modifyCell c cid0 f).heap.getD cid none =
    (if cid = cid0 then (c.heap.getD cid0 none).map f else c.heap.getD cid none)
    from modifyCell_getD c cid0 f cid]
  by_cases hcc : cid = cid0
  · subst hcc
    rw [if_pos rfl]
    cases c.heap.getD cid none <;> simp
  · rw [if_neg hcc]

theorem modifyCell_heap_length (c : RBCCache) (cid0 : Nat) (f : CacheValue → CacheValue) :
    (modifyCell c cid0 f).heap.length = c.heap.length := length_set' _ _ _

theorem sweepLoop_live : ∀ (fuel : Nat) (c : RBCCache) (cid : Nat),
    live (sweepLoop c fuel).2 cid ↔ live c cid := by
  intro fuel
  induction fuel with
  | zero => intro c cid; exact Iff.rfl
  | succ fuel ih =>
    intro c cid
    cases hv : c.values.getD c.clock_hand none with
    | none => simp only [sweepLoop, hv]; exact Iff.rfl
    | some cid0 =>
      by_cases hk : (c.keys.getD c.clock_hand none).isNone
      · simp only [sweepLoop, hv]
        rw [if_pos hk]
        exact Iff.rfl
      · by_cases hstop : ((c.heap.getD cid0 none).getD default).refcount = 0 ∧
            ((c.heap.getD cid0 none).getD default).ref_bit = 0
        · simp only [sweepLoop, hv]
          rw [if_neg hk, if_pos hstop]
          exact Iff.rfl
        · simp only [sweepLoop, hv]
          rw [if_neg hk, if_neg hstop]
          rw [ih _ cid]
          exact live_modifyCell c cid0 _ cid

theorem sweepLoop_rc : ∀ (fuel : Nat) (c : RBCCache) (cid : Nat),
    (cellOf (sweepLoop c fuel).2 cid).refcount = (cellOf c cid).refcount := by
  intro fuel
  induction fuel with
  | zero => intro c cid; rfl
  | succ fuel ih =>
    intro c cid
    cases hv : c.values.getD c.clock_hand none with
    | none =>
      simp only [sweepLoop, hv]
      rfl
    | some cid0 =>
      by_cases hk : (c.keys.getD c.clock_hand none).isNone
      · simp only [sweepLoop, hv]
        rw [if_pos hk]
        rfl
      · by_cases hstop : ((c.heap.getD cid0 none).getD default).refcount = 0 ∧
            ((c.heap.getD cid0 none).getD default).ref_bit = 0
        · simp only [sweepLoop, hv]
          rw [if_neg hk, if_pos hstop]
          rfl
        · simp only [sweepLoop, hv]
          rw [if_neg hk, if_neg hstop]
          rw [ih _ cid]
          exact (cellOf_modifyBit c cid0 cid).1

theorem sweepLoop_heap_length : ∀ (fuel : Nat) (c : RBCCache),
    (sweepLoop c fuel).2.heap.length = c.heap.length := by
  intro fuel
  induction fuel with
  | zero => intro c; rfl
  | succ fuel ih =>
    intro c
    cases hv : c.values.getD c.clock_hand none with
    | none =>
      simp only [sweepLoop, hv]
      rfl
    | some cid0 =>
      by_cases hk : (c.keys.getD c.clock_hand none).isNone
      · simp only [sweepLoop, hv]
        rw [if_pos hk]
        rfl
      · by_cases hstop : ((c.heap.getD cid0 none).getD default).refcount = 0 ∧
            ((c.heap.getD cid0 none).getD default).ref_bit = 0
        · simp only [sweepLoop, hv]
          rw [if_neg hk, if_pos hstop]
          rfl
        · simp only [sweepLoop, hv]
          rw [if_neg hk, if_neg hstop]
          rw [ih _]
          exact modifyCell_heap_length c cid0 _

/-- All branches of `findClockVictim` return the post-sweep state. -/
theorem findClockVictim_snd (c : RBCCache) :
    (findClockVictim c).2 = (sweepLoop c (c.cache_size * 2)).2 := by
  unfold findClockVictim
  cases hsweep : sweepLoop c (c.cache_size * 2) with
  | mk o c' =>
    cases o with
    | none =>
      dsimp only
      cases (List.range c.cache_size).find? (fun i => (c'.keys.getD i none).isNone) <;> rfl
    | some v => rfl

/-- `retireSlotKey` touches only `keys`, `hash_table` and `hash_used`. -/
theorem retireSlotKey_fields (c c2 : RBCCache) (v : Nat)
    (h : retireSlotKey c v = some c2) :
    c2.heap = c.heap ∧ c2.values = c.values ∧ c2.cache_size = c.cache_size ∧
    c2.clock_hand = c.clock_hand ∧ c2.hash_size = c.hash_size := by
  unfold retireSlotKey at h
  cases hk : c.keys.getD v none with
  | none =>
    rw [hk] at h
    dsimp only at h
    cases h
    exact ⟨rfl, rfl, rfl, rfl, rfl⟩
  | some kv =>
    rw [hk] at h
    dsimp only at h
    cases he : eraseHash c kv with
    | none => rw [he] at h; cases h
    | some c1 =>
      rw [he] at h
      dsimp only at h
      cases h
      unfold eraseHash at he
      cases hp : probeErase c.hash_table c.hash_size kv (hash kv c.hash_size) c.hash_size with
      | none => rw [hp] at he; cases he
      | some tf =>
        rw [hp] at he
        cases he
        exact ⟨rfl, rfl, rfl, rfl, rfl⟩

/-- Destructions performed by `retireSlotCell`: only the victim slot's
cell, and only when its refcount reads 0. -/
theorem retireSlotCell_destroys (c : RBCCache) (v cid : Nat)
    (hlive : live c cid) (hdead : ¬ live (retireSlotCell c v) cid) :
    c.values.getD v none = some cid ∧ (cellOf c cid).refcount = 0 := by
  unfold retireSlotCell at hdead
  cases hv : c.values.getD v none with
  | none => rw [hv] at hdead; exact absurd hlive hdead
  | some cid0 =>
    rw [hv] at hdead
    dsimp only at hdead
    cases hc : c.heap.getD cid0 none with
    | none =>
      rw [hc] at hdead
      exact absurd hlive hdead
    | some old =>
      rw [hc] at hdead
      dsimp only at hdead
      by_cases hrc : old.refcount = 0
      · rw [if_pos hrc] at hdead
        unfold live at hdead
        dsimp only at hdead
        by_cases hcc : cid = cid0
        · subst hcc
          refine ⟨rfl, ?_⟩
          unfold cellOf
          rw [hc]
          exact hrc
        · exfalso
          rw [getD_set_ne _ _ _ cid0 cid (fun hEq => hcc hEq.symm)] at hdead
          exact hdead hlive
      · rw [if_neg hrc] at hdead
        unfold live at hdead
        dsimp only at hdead
        exfalso
        by_cases hcc : cid = cid0
        · subst hcc
          rcases Nat.lt_or_ge cid c.heap.length with hlt | hge
          · rw [getD_set_self _ _ _ cid hlt] at hdead
            exact hdead rfl
          · unfold live at hlive
            rw [getD_length_le _ _ cid hge] at hlive
            cases hlive
        · rw [getD_set_ne _ _ _ cid0 cid (fun hEq => hcc hEq.symm)] at hdead
          exact hdead hlive

theorem retireSlotCell_dead_stays (c : RBCCache) (v cid : Nat)
    (hdead : ¬ live c cid) : ¬ live (retireSlotCell c v) cid := by
  unfold retireSlotCell
  cases hv : c.values.getD v none with
  | none => exact hdead
  | some cid0 =>
    dsimp only
    cases hc : c.heap.getD cid0 none with
    | none => exact hdead
    | some old =>
      dsimp only
      have hcc : cid ≠ cid0 := by
        intro hEq
        subst hEq
        unfold live at hdead
        rw [hc] at hdead
        exact hdead rfl
      by_cases hrc : old.refcount = 0
      · rw [if_pos hrc]
        unfold live
        dsimp only
        rw [getD_set_ne _ _ _ cid0 cid (fun hEq => hcc hEq.symm)]
        exact hdead
      · rw [if_neg hrc]
        unfold live
        dsimp only
        rw [getD_set_ne _ _ _ cid0 cid (fun hEq => hcc hEq.symm)]
        exact hdead

theorem retireSlotCell_heap_length (c : RBCCache) (v : Nat) :
    (retireSlotCell c v).heap.length = c.heap.length := by
  unfold retireSlotCell
  cases hv : c.values.getD v none with
  | none => rfl
  | some cid0 =>
    dsimp only
    cases hc : c.heap.getD cid0 none with
    | none => rfl
    | some old =>
      dsimp only
      by_cases hrc : old.refcount = 0
      · rw [if_pos hrc]; exact length_set' _ _ _
      · rw [if_neg hrc]; exact length_set' _ _ _

/-- `insertHash` never touches the slots, heap, capacity or hand. -/
theorem insertHash_fields (c c' : RBCCache) (k : Key) (idx : Int) (rehashOk : Bool)
    (h : insertHash c k idx rehashOk = some c') :
    c'.heap = c.heap ∧ c'.values = c.values ∧ c'.keys = c.keys ∧
    c'.cache_size = c.cache_size ∧ c'.clock_hand = c.clock_hand := by
  unfold insertHash at h
  have hstage : ∀ c1 : RBCCache,
      (if 7 ≤ c.hash_used * 10 / c.hash_size then rehash c rehashOk else some c) = some c1 →
      c1.heap = c.heap ∧ c1.values = c.values ∧ c1.keys = c.keys ∧
      c1.cache_size = c.cache_size ∧ c1.clock_hand = c.clock_hand := by
    intro c1 h1
    by_cases htrig : 7 ≤ c.hash_used * 10 / c.hash_size
    · rw [if_pos htrig] at h1
      unfold rehash at h1
      cases rehashOk with
      | false =>
        simp only [Bool.false_eq_true, if_false] at h1
        cases h1
        exact ⟨rfl, rfl, rfl, rfl, rfl⟩
      | true =>
        simp only [if_true] at h1
        cases hloop : rehashLoop (next_prime (c.hash_size * 2)) c.hash_table
            (List.replicate (next_prime (c.hash_size * 2)) default) 0 with
        | none => rw [hloop] at h1; cases h1
        | some tu =>
          obtain ⟨t2, u2⟩ := tu
          rw [hloop] at h1
          cases h1
          exact ⟨rfl, rfl, rfl, rfl, rfl⟩
    · rw [if_neg htrig] at h1
      cases h1
      exact ⟨rfl, rfl, rfl, rfl, rfl⟩
  cases hst : (if 7 ≤ c.hash_used * 10 / c.hash_size then rehash c rehashOk else some c) with
  | none => rw [hst] at h; cases h
  | some c1 =>
    rw [hst] at h
    dsimp only at h
    obtain ⟨h1, h2, h3, h4, h5⟩ := hstage c1 hst
    cases hins : probeIns c1.hash_table c1.hash_size k idx (hash k c1.hash_size) none
        c1.hash_size with
    | none => rw [hins] at h; cases h
    | some tf =>
      obtain ⟨t2, fr⟩ := tf
      rw [hins] at h
      dsimp only at h
      cases h
      exact ⟨h1, h2, h3, h4, h5⟩

theorem live_lt {c : RBCCache} {cid : Nat} (h : live c cid) : cid < c.heap.length := by
  unfold live at h
  cases hc : c.heap.getD cid none with
  | none => rw [hc] at h; cases h
  | some cv => exact getD_some_lt _ _ _ hc

/-- Admission preserves liveness of every pre-existing cell id (the new
cell gets the fresh id `c.heap.length`). -/
theorem admitEntry_live (c c' : RBCCache) (v : Nat) (k : Key) (value : List Nat)
    (plan : AllocPlan) (r : Option Nat) (h : admitEntry c v k value plan = some (c', r))
    (cid : Nat) (hcid : cid < c.heap.length) :
    live c' cid ↔ live c cid := by
  unfold admitEntry at h
  by_cases hfail : plan.strdupOk = false ∨ plan.cellOk = false ∨ plan.dataOk = false
  · rw [if_pos hfail] at h
    cases h
    exact Iff.rfl
  · rw [if_neg hfail] at h
    cases hins : insertHash
        { c with keys := c.keys.set v (some k),
                 values := c.values.set v (some c.heap.length),
                 heap := c.heap ++ [some ⟨value, 1, (v : Int), 1⟩] }
        k (v : Int) plan.rehashOk with
    | none => rw [hins] at h; cases h
    | some c2 =>
      rw [hins] at h
      dsimp only at h
      cases h
      have hheap := (insertHash_fields _ _ _ _ _ hins).1
      unfold live
      rw [hheap]
      dsimp only
      rw [getD_append_lt c.heap _ none cid hcid]

/-- C1: cells are destroyed exactly at the two legal moments and never
while referenced.  (1) A completed `accessCache` call destroys a cell only
if it was the victim slot's live cell and its refcount was 0 at entry.
(2) `releaseValue cid0` destroys only `cid0` itself, and only when its
refcount was exactly 1 (the decrement brings it to 0) and its `index` was
the EVICTED sentinel `-1`.  (3)/(4) Neither operation ever touches an
already-freed id again, so together with (1)-(2) each cell is destroyed at
most once, and never with refcount > 0. -/
theorem cell_destroyed_once_safe :
    (∀ (c : RBCCache) (k : Key) (value : List Nat) (plan : AllocPlan)
       (c' : RBCCache) (r : Option Nat),
      accessCache c k value plan = some (c', r) →
      ∀ cid, live c cid → ¬ live c' cid →
        c.values.getD (findClockVictim c).1 none = some cid ∧
        (cellOf c cid).refcount = 0) ∧
    (∀ (c : RBCCache) (cid0 cid : Nat), live c cid → ¬ live (releaseValue c cid0) cid →
        cid = cid0 ∧ (cellOf c cid0).refcount = 1 ∧ (cellOf c cid0).index = -1) ∧
    (∀ (c : RBCCache) (k : Key) (value : List Nat) (plan : AllocPlan)
       (c' : RBCCache) (r : Option Nat),
      accessCache c k value plan = some (c', r) →
      ∀ cid, cid < c.heap.length → ¬ live c cid → ¬ live c' cid) ∧
    (∀ (c : RBCCache) (cid0 cid : Nat), ¬ live c cid →
        ¬ live (releaseValue c cid0) cid) := by
  have haccess : ∀ (c : RBCCache) (k : Key) (value : List Nat) (plan : AllocPlan)
      (c' : RBCCache) (r : Option Nat),
      accessCache c k value plan = some (c', r) →
      ∀ cid, (live c cid → ¬ live c' cid →
        c.values.getD (findClockVictim c).1 none = some cid ∧
        (cellOf c cid).refcount = 0) ∧
        (cid < c.heap.length → ¬ live c cid → ¬ live c' cid) := by
    intro c k value plan c' r hrun cid
    unfold accessCache at hrun
    cases hidx : getCacheIndex c k with
    | none => rw [hidx] at hrun; cases hrun
    | some index =>
      rw [hidx] at hrun
      dsimp only at hrun
      by_cases hhit : index ≠ -1 ∧ (c.values.getD index.toNat none).isSome
      · rw [if_pos hhit] at hrun
        cases hrun
        constructor
        · intro hlive hdead
          rw [live_modifyCell] at hdead
          exact absurd hlive hdead
        · intro _ hdead
          rw [live_modifyCell]
          exact hdead
      · rw [if_neg hhit] at hrun
        cases hkey : retireSlotKey (findClockVictim c).2 (findClockVictim c).1 with
        | none => rw [hkey] at hrun; cases hrun
        | some c2 =>
          rw [hkey] at hrun
          dsimp only at hrun
          obtain ⟨hheap2, hvals2, _, _, _⟩ :=
            retireSlotKey_fields (findClockVictim c).2 c2 (findClockVictim c).1 hkey
          have hsn := findClockVictim_snd c
          have hlive1 : ∀ j, live (findClockVictim c).2 j ↔ live c j := by
            intro j
            rw [hsn]
            exact sweepLoop_live (c.cache_size * 2) c j
          have hlive2 : ∀ j, live c2 j ↔ live c j := by
            intro j
            unfold live
            rw [hheap2]
            exact hlive1 j
          have hrc2 : ∀ j, (cellOf c2 j).refcount = (cellOf c j).refcount := by
            intro j
            unfold cellOf
            rw [hheap2, hsn]
            exact sweepLoop_rc (c.cache_size * 2) c j
          have hvals2' : c2.values = c.values := by
            rw [hvals2, hsn]
            exact (sweepLoop_fields (c.cache_size * 2) c).2.2.1
          have hlen2 : c2.heap.length = c.heap.length := by
            rw [hheap2, hsn]
            exact sweepLoop_heap_length (c.cache_size * 2) c
          set c3 := retireSlotCell c2 (findClockVictim c).1 with hc3
          have hlen3 : c3.heap.length = c2.heap.length :=
            retireSlotCell_heap_length c2 (findClockVictim c).1
          constructor
          · intro hlive hdead
            have hdead3 : ¬ live c3 cid := by
              intro hlive3
              apply hdead
              rw [admitEntry_live c3 c' (findClockVictim c).1 k value plan r hrun cid
                (by rw [hlen3, hlen2]; exact live_lt hlive)]
              exact hlive3
            obtain ⟨hv3, hrc3⟩ := retireSlotCell_destroys c2 (findClockVictim c).1 cid
              ((hlive2 cid).mpr hlive) hdead3
            constructor
            · rw [← hvals2']
              exact hv3
            · rw [← hrc2 cid]
              exact hrc3
          · intro hcid hdead
            have hdead3 : ¬ live c3 cid :=
              retireSlotCell_dead_stays c2 (findClockVictim c).1 cid
                (fun hl => hdead ((hlive2 cid).mp hl))
            intro hlive'
            apply hdead3
            rw [← admitEntry_live c3 c' (findClockVictim c).1 k value plan r hrun cid
              (by rw [hlen3, hlen2]; exact hcid)]
            exact hlive'
  refine ⟨fun c k value plan c' r hrun cid hl hd =>
      (haccess c k value plan c' r hrun cid).1 hl hd, ?_, ?_, ?_⟩
  · intro c cid0 cid hlive hdead
    unfold releaseValue at hdead
    cases hc : c.heap.getD cid0 none with
    | none =>
      rw [hc] at hdead
      exact absurd hlive hdead
    | some cv =>
      rw [hc] at hdead
      dsimp only at hdead
      by_cases hcond : cv.refcount - 1 = 0 ∧ cv.index = -1
      · rw [if_pos hcond] at hdead
        unfold live at hdead
        dsimp only at hdead
        by_cases hcc : cid = cid0
        · subst hcc
          refine ⟨rfl, ?_, ?_⟩
          · unfold cellOf
            rw [hc]
            simp only [Option.getD_some]
            have := hcond.1
            omega
          · unfold cellOf
            rw [hc]
            simp only [Option.getD_some]
            exact hcond.2
        · exfalso
          rw [getD_set_ne _ _ _ cid0 cid (fun hEq => hcc hEq.symm)] at hdead
          exact hdead hlive
      · rw [if_neg hcond] at hdead
        exfalso
        unfold live at hdead
        dsimp only at hdead
        by_cases hcc : cid = cid0
        · subst hcc
          rw [getD_set_self _ _ _ cid (getD_some_lt _ _ _ hc)] at hdead
          exact hdead rfl
        · rw [getD_set_ne _ _ _ cid0 cid (fun hEq => hcc hEq.symm)] at hdead
          exact hdead hlive
  · intro c k value plan c' r hrun cid hcid hdead
    exact (haccess c k value plan c' r hrun cid).2 hcid hdead
  · intro c cid0 cid hdead
    unfold releaseValue
    cases hc : c.heap.getD cid0 none with
    | none => exact hdead
    | some cv =>
      dsimp only
      have hcc : cid ≠ cid0 := by
        intro hEq
        subst hEq
        unfold live at hdead
        rw [hc] at hdead
        exact hdead rfl
      by_cases hcond : cv.refcount - 1 = 0 ∧ cv.index = -1
      · rw [if_pos hcond]
        unfold live
        dsimp only
        rw [getD_set_ne _ _ _ cid0 cid (fun hEq => hcc hEq.symm)]
        exact hdead
      · rw [if_neg hcond]
        unfold live
        dsimp only
        rw [getD_set_ne _ _ _ cid0 cid (fun hEq => hcc hEq.symm)]
        exact hdead

/-- A cache holding only a detached (evicted) cell with one outstanding
handle. -/
def c1rel : RBCCache :=
  { cache_size := 1
    keys := [none]
    values := [none]
    clock_hand := 0
    hash_table := List.replicate 3 default
    hash_size := 3
    hash_used := 0
    heap := [some ⟨[7], 1, -1, 0⟩] }

/-- C1 witness: the access that admits E on `c4sABCD` destroys exactly the
victim slot's idle cell 0, and releasing the last handle on the detached
cell of `c1rel` destroys it with refcount 1 → 0 at `index = -1`. -/
theorem cell_destroyed_once_safe_witness :
    (c4sABCD.values.getD (findClockVictim c4sABCD).1 none = some 0 ∧
      (cellOf c4sABCD 0).refcount = 0) ∧
    ((0 : Nat) = 0 ∧ (cellOf c1rel 0).refcount = 1 ∧ (cellOf c1rel 0).index = -1) :=
  ⟨cell_destroyed_once_safe.1 c4sABCD [69] [5] allOk c4resE.1 (some 4) (by decide) 0
      (by decide) (by decide),
   cell_destroyed_once_safe.2.1 c1rel 0 0 (by decide) (by decide)⟩

/-! ### C10: exhaustion of EMPTY entries and probe divergence -/

/-- An access (all allocations succeeding) followed by a release of the
returned handle is two completed public operations. -/
theorem Step_doAR (c : RBCCache) (k : Key) (v : List Nat)
    (hk : ∀ b ∈ k, 0 < b ∧ b < 128)
    (hacc : accessCache c k v allOk = some (doAccess c k v))
    (hlive : live (doAccess c k v).1 ((doAccess c k v).2.getD 0))
    (hrc : 1 ≤ (cellOf (doAccess c k v).1 ((doAccess c k v).2.getD 0)).refcount) :
    Relation.ReflTransGen Step c (doAR c k v) := by
  have h1 : Step c (doAccess c k v).1 :=
    Step.access c k v allOk (doAccess c k v).1 (doAccess c k v).2 hk (by rw [hacc])
  have h2 : Step (doAccess c k v).1 (doAR c k v) := by
    unfold live at hlive
    cases hc : (doAccess c k v).1.heap.getD ((doAccess c k v).2.getD 0) none with
    | none =>
      rw [hc] at hlive
      cases hlive
    | some cv =>
      have hEq : doAR c k v =
          releaseValue (doAccess c k v).1 ((doAccess c k v).2.getD 0) := rfl
      rw [hEq]
      refine Step.release _ _ cv hc ?_
      unfold cellOf at hrc
      rw [hc] at hrc
      exact hrc
  exact Relation.ReflTransGen.tail (Relation.ReflTransGen.single h1) h2

/-- Eleven access+release rounds on a fresh capacity-4 cache, with keys
A, B, C, D, E, F, G, L, M, O, U, whose FNV-1a hashes cover all eleven
residues modulo the (never-growing) table size 11. -/
def c10state : RBCCache :=
  doAR (doAR (doAR (doAR (doAR (doAR (doAR (doAR (doAR (doAR (doAR
    (createCache 4) [65] [0]) [66] [0]) [67] [0]) [68] [0]) [69] [0]) [70] [0])
    [71] [0]) [76] [0]) [77] [0]) [79] [0]) [85] [0]

/-- The divergence state is reachable by completed public operations. -/
theorem c10_reachable : Reachable 4 c10state := by
  have h0 : Reachable 4 (createCache 4) := Relation.ReflTransGen.refl
  have h1 := Relation.ReflTransGen.trans h0
    (Step_doAR _ [65] [0] (by decide) (by decide) (by decide) (by decide))
  have h2 := Relation.ReflTransGen.trans h1
    (Step_doAR _ [66] [0] (by decide) (by decide) (by decide) (by decide))
  have h3 := Relation.ReflTransGen.trans h2
    (Step_doAR _ [67] [0] (by decide) (by decide) (by decide) (by decide))
  have h4 := Relation.ReflTransGen.trans h3
    (Step_doAR _ [68] [0] (by decide) (by decide) (by decide) (by decide))
  have h5 := Relation.ReflTransGen.trans h4
    (Step_doAR _ [69] [0] (by decide) (by decide) (by decide) (by decide))
  have h6 := Relation.ReflTransGen.trans h5
    (Step_doAR _ [70] [0] (by decide) (by decide) (by decide) (by decide))
  have h7 := Relation.ReflTransGen.trans h6
    (Step_doAR _ [71] [0] (by decide) (by decide) (by decide) (by decide))
  have h8 := Relation.ReflTransGen.trans h7
    (Step_doAR _ [76] [0] (by decide) (by decide) (by decide) (by decide))
  have h9 := Relation.ReflTransGen.trans h8
    (Step_doAR _ [77] [0] (by decide) (by decide) (by decide) (by decide))
  have h10 := Relation.ReflTransGen.trans h9
    (Step_doAR _ [79] [0] (by decide) (by decide) (by decide) (by decide))
  have h11 := Relation.ReflTransGen.trans h10
    (Step_doAR _ [85] [0] (by decide) (by decide) (by decide) (by decide))
  exact h11

/-- C10 refutation: after the eleven rounds the table has NO empty entry
left (7 tombstones + 4 occupied): eviction only tombstones entries and the
rehash trigger counts occupied entries only, so nothing ever restores an
EMPTY.  A twelfth access with the fresh key Z (`[90]`, matching no occupied
entry) makes the `getCacheIndex` probe loop run forever — `probeGet`
returns `none` for EVERY fuel — so `accessCache` never completes; the
fuel-bounded `getCacheIndex`, `eraseHash` and `insertHash` all report
divergence on this state as well. -/
theorem probe_loops_can_diverge :
    Reachable 4 c10state ∧
    countState c10state.hash_table STATE_EMPTY = 0 ∧
    countState c10state.hash_table STATE_TOMBSTONE = 7 ∧
    countState c10state.hash_table STATE_OCCUPIED = 4 ∧
    c10state.hash_size = 11 ∧
    (∀ fuel : Nat, probeGet c10state.hash_table 11 [90] (hash [90] 11) fuel = none) ∧
    getCacheIndex c10state [90] = none ∧
    (∀ (value : List Nat) (plan : AllocPlan), accessCache c10state [90] value plan = none) ∧
    eraseHash c10state [90] = none ∧
    insertHash c10state [90] 0 true = none := by
  refine ⟨c10_reachable, by decide, by decide, by decide, by decide, ?_, by decide, ?_,
    by decide, by decide⟩
  · intro fuel
    exact probeGet_stuck fuel (hash [90] 11) (by decide)
      (fun p hp => (by decide : ∀ p, p < 11 → skipAt c10state.hash_table [90] p) p hp)
  · intro value plan
    unfold accessCache
    rw [show getCacheIndex c10state [90] = none from by decide]

/-! ### C7: the rehash migration preserves the key → slot mapping -/

theorem countState_le_length (t : List HashEntry) (st : Nat) :
    countState t st ≤ t.length :=
  List.length_filter_le _ t

theorem getD_mem {α : Type} (t : List α) (d : α) :
    ∀ (p : Nat), p < t.length → t.getD p d ∈ t := by
  induction t with
  | nil => intro p hp; simp at hp
  | cons a t ih =>
    intro p hp
    cases p with
    | zero => exact List.mem_cons_self a t
    | succ p => exact List.mem_cons_of_mem a (ih p (Nat.lt_of_succ_lt_succ hp))

theorem countState_replicate (n st : Nat) (hst : st ≠ STATE_EMPTY) :
    countState (List.replicate n default) st = 0 := by
  induction n with
  | zero => rfl
  | succ n ih =>
    rw [List.replicate_succ, countState_cons]
    rw [if_neg (fun hEq => hst (by rw [← hEq]; rfl)), ih]

theorem getD_replicate {α : Type} (n : Nat) (x d : α) :
    ∀ (p : Nat), p < n → (List.replicate n x).getD p d = x := by
  induction n with
  | zero => intro p hp; omega
  | succ n ih =>
    intro p hp
    cases p with
    | zero => rfl
    | succ p => exact ih p (Nat.lt_of_succ_lt_succ hp)

/-- The key invariant carried through the rehash migration fold. -/
theorem rehashLoop_spec {newSize : Nat} (hpos : 0 < newSize) :
    ∀ (olds tn : List HashEntry) (m : Nat),
    tn.length = newSize →
    (∀ p, p < newSize → (tn.getD p default).state = STATE_EMPTY ∨
      (tn.getD p default).state = STATE_OCCUPIED) →
    countState tn STATE_OCCUPIED = m →
    m + countState olds STATE_OCCUPIED < newSize →
    (∀ e ∈ olds, e.state = STATE_OCCUPIED → ∀ p, p < newSize →
      (tn.getD p default).state = STATE_OCCUPIED → (tn.getD p default).key ≠ e.key) →
    List.Pairwise (fun e1 e2 => e1.state = STATE_OCCUPIED → e2.state = STATE_OCCUPIED →
      e1.key ≠ e2.key) olds →
    (∀ p, p < newSize → (tn.getD p default).state = STATE_OCCUPIED →
      goodEntry tn newSize p) →
    ∃ t', rehashLoop newSize olds tn m = some (t', m + countState olds STATE_OCCUPIED) ∧
      t'.length = newSize ∧
      (∀ p, p < newSize → (t'.getD p default).state = STATE_EMPTY ∨
        (t'.getD p default).state = STATE_OCCUPIED) ∧
      countState t' STATE_OCCUPIED = m + countState olds STATE_OCCUPIED ∧
      (∀ p, p < newSize → (tn.getD p default).state = STATE_OCCUPIED →
        t'.getD p default = tn.getD p default ∧ goodEntry t' newSize p) ∧
      (∀ e ∈ olds, e.state = STATE_OCCUPIED → ∃ q, q < newSize ∧
        t'.getD q default = e ∧ goodEntry t' newSize q) ∧
      (∀ p, p < newSize → (t'.getD p default).state = STATE_OCCUPIED →
        goodEntry t' newSize p) ∧
      (∀ p, p < newSize → (t'.getD p default).state = STATE_OCCUPIED →
        t'.getD p default ∈ olds ∨ t'.getD p default = tn.getD p default) := by
  intro olds
  induction olds with
  | nil =>
    intro tn m hlen hEO hcount _ _ _ hgood
    have hzero : countState ([] : List HashEntry) STATE_OCCUPIED = 0 := rfl
    refine ⟨tn, ?_, hlen, hEO, ?_, ?_, ?_, hgood, ?_⟩
    · rw [hzero, Nat.add_zero]
      rfl
    · rw [hzero, Nat.add_zero]
      exact hcount
    · intro p hp hocc
      exact ⟨rfl, hgood p hp hocc⟩
    · intro e he
      cases he
    · intro p _ _
      exact Or.inr rfl
  | cons e rest ih =>
    intro tn m hlen hEO hcount hroom hcross hpair hgood
    by_cases he : e.state = STATE_OCCUPIED
    · -- place e, then recurse
      have hcnt_cons : countState (e :: rest) STATE_OCCUPIED =
          1 + countState rest STATE_OCCUPIED := by
        rw [countState_cons, if_pos he]
      have hroom' : countState tn STATE_OCCUPIED < newSize := by
        rw [hcount]
        have hr := hroom
        rw [hcnt_cons] at hr
        omega
      obtain ⟨d, hd, hprefix, hnonocc, hplace⟩ :=
        probePlace_succeeds (t := tn) (e := e) (h := hash e.key newSize) hlen
          (hash_lt _ hpos) hroom'
      set q := (hash e.key newSize + d) % newSize with hq
      have hqlt : q < newSize := Nat.mod_lt _ hpos
      have hqE : (tn.getD q default).state = STATE_EMPTY := by
        rcases hEO q hqlt with h1 | h1
        · exact h1
        · exact absurd h1 hnonocc
      set tn1 := tn.set q e with htn1
      have hlen1 : tn1.length = newSize := by rw [htn1, length_set']; exact hlen
      have hget1 : ∀ p, p < newSize → tn1.getD p default =
          (if p = q then e else tn.getD p default) := by
        intro p hp
        by_cases hpq : p = q
        · rw [if_pos hpq, htn1, hpq]
          exact getD_set_self _ _ _ q (hlen ▸ (hpq ▸ hp))
        · rw [if_neg hpq, htn1]
          exact getD_set_ne _ _ _ q p (fun hEq => hpq hEq.symm)
      have hEO1 : ∀ p, p < newSize → (tn1.getD p default).state = STATE_EMPTY ∨
          (tn1.getD p default).state = STATE_OCCUPIED := by
        intro p hp
        rw [hget1 p hp]
        by_cases hpq : p = q
        · rw [if_pos hpq]; exact Or.inr he
        · rw [if_neg hpq]; exact hEO p hp
      have hcount1 : countState tn1 STATE_OCCUPIED = m + 1 := by
        have := @countState_set STATE_OCCUPIED e tn q (hlen ▸ hqlt)
        rw [hqE] at this
        rw [htn1]
        rw [if_neg (by decide), if_pos he] at this
        omega
      have hkeyq : (tn1.getD q default).key = e.key := by
        rw [hget1 q hqlt, if_pos rfl]
      -- goodEntry for entries of tn1
      have hgood1 : ∀ p, p < newSize → (tn1.getD p default).state = STATE_OCCUPIED →
          goodEntry tn1 newSize p := by
        intro p hp hocc1
        by_cases hpq : p = q
        · -- the new entry
          have hkey1 : (tn1.getD p default).key = e.key := by rw [hpq]; exact hkeyq
          refine ⟨d, hd, ?_, ?_⟩
          · rw [hkey1, hpq]
          · intro d' hd'
            rw [hkey1]
            have hskq : (hash e.key newSize + d') % newSize ≠ q := by
              rw [hq]
              intro hEq
              exact absurd (walk_inj (hash e.key newSize) d' d
                (Nat.lt_trans hd' hd) hd hEq) (Nat.ne_of_lt hd')
            have hplt : (hash e.key newSize + d') % newSize < newSize := Nat.mod_lt _ hpos
            have hoccpre := hprefix d' hd'
            constructor
            · rw [hget1 _ hplt, if_neg hskq, hoccpre]
              decide
            · rw [hget1 _ hplt, if_neg hskq]
              intro hcon
              exact hcross e (List.mem_cons_self e rest) he _ hplt hoccpre hcon.2
        · -- an old entry of tn
          have hoccp : (tn.getD p default).state = STATE_OCCUPIED := by
            have := hget1 p hp
            rw [if_neg hpq] at this
            rw [← this]
            exact hocc1
          obtain ⟨dp, hdp, hpEq, hskips⟩ := hgood p hp hoccp
          have hkeyp : (tn1.getD p default).key = (tn.getD p default).key := by
            rw [hget1 p hp, if_neg hpq]
          refine ⟨dp, hdp, ?_, ?_⟩
          · rw [hkeyp]; exact hpEq
          · intro d' hd'
            rw [hkeyp]
            have hplt : (hash (tn.getD p default).key newSize + d') % newSize < newSize :=
              Nat.mod_lt _ hpos
            have hsk := hskips d' hd'
            by_cases hq' : (hash (tn.getD p default).key newSize + d') % newSize = q
            · -- position q was EMPTY before, contradicting the skip condition
              exfalso
              rw [hq'] at hsk
              exact hsk.1 hqE
            · constructor
              · rw [hget1 _ hplt, if_neg hq']
                exact hsk.1
              · rw [hget1 _ hplt, if_neg hq']
                exact hsk.2
      have hcross1 : ∀ e2 ∈ rest, e2.state = STATE_OCCUPIED → ∀ p, p < newSize →
          (tn1.getD p default).state = STATE_OCCUPIED → (tn1.getD p default).key ≠ e2.key := by
        intro e2 he2 hocc2 p hp hocc1
        rw [hget1 p hp] at hocc1 ⊢
        by_cases hpq : p = q
        · rw [if_pos hpq]
          have := (List.pairwise_cons.mp hpair).1 e2 he2
          exact this he hocc2
        · rw [if_neg hpq]
          exact hcross e2 (List.mem_cons_of_mem e he2) hocc2 p hp (by
            rw [if_neg hpq] at hocc1; exact hocc1)
      have hroom1 : m + 1 + countState rest STATE_OCCUPIED < newSize := by
        rw [hcnt_cons] at hroom
        omega
      obtain ⟨t', hloop, hlen', hEO', hcount', hkeep', hmem', hWF', hfrom'⟩ :=
        ih tn1 (m + 1) hlen1 hEO1 hcount1 hroom1 hcross1
          (List.pairwise_cons.mp hpair).2 hgood1
      refine ⟨t', ?_, hlen', hEO', ?_, ?_, ?_, hWF', ?_⟩
      · simp only [rehashLoop]
        rw [if_pos he, hplace]
        dsimp only
        rw [hloop, hcnt_cons]
        have hassoc : m + (1 + countState rest STATE_OCCUPIED) =
            m + 1 + countState rest STATE_OCCUPIED := by omega
        rw [hassoc]
      · rw [hcount', hcnt_cons]
        omega
      · intro p hp hoccp
        have hpq : p ≠ q := by
          intro hEq
          subst hEq
          rw [hqE] at hoccp
          cases hoccp
        have hocc1 : (tn1.getD p default).state = STATE_OCCUPIED := by
          rw [hget1 p hp, if_neg hpq]
          exact hoccp
        obtain ⟨hkeep, hgoodp⟩ := hkeep' p hp hocc1
        refine ⟨?_, hgoodp⟩
        rw [hkeep, hget1 p hp, if_neg hpq]
      · intro e2 he2 hocc2
        rcases List.mem_cons.mp he2 with rfl | hmem
        · have hocc1q : (tn1.getD q default).state = STATE_OCCUPIED := by
            rw [hget1 q hqlt, if_pos rfl]
            exact he
          obtain ⟨hkeep, hgoodq⟩ := hkeep' q hqlt hocc1q
          refine ⟨q, hqlt, ?_, hgoodq⟩
          rw [hkeep, hget1 q hqlt, if_pos rfl]
        · exact hmem' e2 hmem hocc2
      · intro p hp hocc'
        rcases hfrom' p hp hocc' with hmem | hEq
        · exact Or.inl (List.mem_cons_of_mem e hmem)
        · rw [hEq, hget1 p hp]
          by_cases hpq : p = q
          · rw [if_pos hpq]
            exact Or.inl (List.mem_cons_self e rest)
          · rw [if_neg hpq]
            exact Or.inr rfl
    · -- skip non-occupied old entry
      have hcnt_cons : countState (e :: rest) STATE_OCCUPIED =
          countState rest STATE_OCCUPIED := by
        rw [countState_cons, if_neg he]
        omega
      have hroom' : m + countState rest STATE_OCCUPIED < newSize := by
        rw [hcnt_cons] at hroom
        exact hroom
      obtain ⟨t', hloop, hlen', hEO', hcount', hkeep', hmem', hWF', hfrom'⟩ :=
        ih tn m hlen hEO hcount hroom'
          (fun e2 he2 => hcross e2 (List.mem_cons_of_mem e he2))
          (List.pairwise_cons.mp hpair).2 hgood
      refine ⟨t', ?_, hlen', hEO', ?_, hkeep', ?_, hWF', ?_⟩
      · simp only [rehashLoop]
        rw [if_neg he, hloop, hcnt_cons]
      · rw [hcount', hcnt_cons]
      · intro e2 he2 hocc2
        rcases List.mem_cons.mp he2 with rfl | hmem
        · exact absurd hocc2 he
        · exact hmem' e2 hmem hocc2
      · intro p hp hocc'
        rcases hfrom' p hp hocc' with hmem | hEq
        · exact Or.inl (List.mem_cons_of_mem e hmem)
        · exact Or.inr hEq

/-- The hash entry at position `p` (the `memset`-zero default beyond the
table). -/
def entryOf (c : RBCCache) (p : Nat) : HashEntry := c.hash_table.getD p default

theorem getD_eq_get {α : Type} (t : List α) (d : α) :
    ∀ (p : Nat) (hp : p < t.length), t.getD p d = t.get ⟨p, hp⟩ := by
  induction t with
  | nil => intro p hp; simp at hp
  | cons a t ih =>
    intro p hp
    cases p with
    | zero => rfl
    | succ p => exact ih p (Nat.lt_of_succ_lt_succ hp)

/-- A probe-reachable table has pairwise-distinct occupied keys. -/
theorem tableWF_pairwise (t : List HashEntry) (size : Nat)
    (hlen : t.length = size) (hWF : tableWF t size) :
    List.Pairwise (fun e1 e2 => e1.state = STATE_OCCUPIED → e2.state = STATE_OCCUPIED →
      e1.key ≠ e2.key) t := by
  rw [List.pairwise_iff_get]
  intro i j hij h1 h2 hkey
  have hi : (i : Nat) < size := hlen ▸ i.2
  have hj : (j : Nat) < size := hlen ▸ j.2
  have hei : t.getD (i : Nat) default = t.get i := getD_eq_get t default i i.2
  have hej : t.getD (j : Nat) default = t.get j := getD_eq_get t default j j.2
  have hEq := @goodEntry_unique t size (i : Nat) (j : Nat) hi hj
    (by rw [hei]; exact h1) (by rw [hej]; exact h2)
    (by rw [hei, hej]; exact hkey)
    (hWF _ hi (by rw [hei]; exact h1)) (hWF _ hj (by rw [hej]; exact h2))
  omega

/-- C7: for every key occupying the index before a successful rehash,
lookup after the rehash returns the same slot index as before. -/
theorem rehash_preserves_mapping (c : RBCCache) (p : Nat)
    (hlen : c.hash_table.length = c.hash_size) (hpos : 0 < c.hash_size)
    (hWF : tableWF c.hash_table c.hash_size)
    (hp : p < c.hash_size) (hocc : (entryOf c p).state = STATE_OCCUPIED) :
    ∃ c', rehash c true = some c' ∧
      getCacheIndex c (entryOf c p).key = some (entryOf c p).cache_index ∧
      getCacheIndex c' (entryOf c p).key = some (entryOf c p).cache_index ∧
      c'.hash_size = next_prime (c.hash_size * 2) ∧
      c'.hash_used = countState c.hash_table STATE_OCCUPIED := by
  have hnewpos : 0 < next_prime (c.hash_size * 2) :=
    Nat.lt_of_lt_of_le (by omega) (next_prime_ge _)
  have hroom : 0 + countState c.hash_table STATE_OCCUPIED < next_prime (c.hash_size * 2) := by
    have h1 : countState c.hash_table STATE_OCCUPIED ≤ c.hash_size :=
      hlen ▸ countState_le_length c.hash_table STATE_OCCUPIED
    have h2 : c.hash_size * 2 ≤ next_prime (c.hash_size * 2) := next_prime_ge _
    omega
  obtain ⟨t', hloop, hlen', hEO', hcount', _, hmem', _, _⟩ :=
    rehashLoop_spec hnewpos c.hash_table
      (List.replicate (next_prime (c.hash_size * 2)) default) 0
      (List.length_replicate _ _)
      (fun q hq => by rw [getD_replicate _ _ _ q hq]; exact Or.inl rfl)
      (countState_replicate _ _ (by decide))
      hroom
      (fun e _ _ q hq hocc' => by
        rw [getD_replicate _ _ _ q hq] at hocc'
        exact absurd hocc' (by decide))
      (tableWF_pairwise c.hash_table c.hash_size hlen hWF)
      (fun q hq hocc' => by
        rw [getD_replicate _ _ _ q hq] at hocc'
        exact absurd hocc' (by decide))
  obtain ⟨q, hqlt, hEqq, hgoodq⟩ :=
    hmem' (entryOf c p) (getD_mem c.hash_table default p (by rw [hlen]; exact hp)) hocc
  refine ⟨({ c with
      hash_size := next_prime (c.hash_size * 2), hash_table := t',
      hash_used := 0 + countState c.hash_table STATE_OCCUPIED } : RBCCache),
    ?_, ?_, ?_, rfl, ?_⟩
  · unfold rehash
    rw [if_pos rfl, hloop]
  · exact getCacheIndex_of_goodEntry hpos hocc (hWF p hp hocc)
  · have hocc2 : (({ c with
        hash_size := next_prime (c.hash_size * 2), hash_table := t',
        hash_used := 0 + countState c.hash_table STATE_OCCUPIED } :
        RBCCache).hash_table.getD q default).state = STATE_OCCUPIED := by
      show (t'.getD q default).state = STATE_OCCUPIED
      rw [hEqq]
      exact hocc
    have hlook := getCacheIndex_of_goodEntry (p := q) hnewpos hocc2 hgoodq
    rw [show ({ c with
        hash_size := next_prime (c.hash_size * 2), hash_table := t',
        hash_used := 0 + countState c.hash_table STATE_OCCUPIED } :
        RBCCache).hash_table.getD q default = entryOf c p from hEqq] at hlook
    exact hlook
  · exact Nat.zero_add _

/-- C7 witness: rehash of the concrete 8-entry table `c8state` preserves
the mapping of the key at entry 0. -/
theorem rehash_preserves_mapping_witness :
    ∃ c', rehash c8state true = some c' ∧
      getCacheIndex c8state (entryOf c8state 0).key = some (entryOf c8state 0).cache_index ∧
      getCacheIndex c' (entryOf c8state 0).key = some (entryOf c8state 0).cache_index ∧
      c'.hash_size = next_prime (c8state.hash_size * 2) ∧
      c'.hash_used = countState c8state.hash_table STATE_OCCUPIED :=
  rehash_preserves_mapping c8state 0 (by decide) (by decide) (by decide) (by decide)
    (by decide)

/-! ### C2: slot/index consistency after every completed operation -/

/-- Inversion of a terminating `probeGet` call: the walk skipped a prefix
and stopped at an EMPTY entry (returning `-1`) or at an occupied match
(returning its `cache_index`). -/
theorem probeGet_inv {t : List HashEntry} {size : Nat} {k : Key} :
    ∀ (fuel h : Nat) (res : Int), h < size →
    probeGet t size k h fuel = some res →
    ∃ d, d < fuel ∧ (∀ d' < d, skipAt t k ((h + d') % size)) ∧
      (((t.getD ((h + d) % size) default).state = STATE_EMPTY ∧ res = -1) ∨
       ((t.getD ((h + d) % size) default).state = STATE_OCCUPIED ∧
        (t.getD ((h + d) % size) default).key = k ∧
        res = (t.getD ((h + d) % size) default).cache_index)) := by
  intro fuel
  induction fuel with
  | zero =>
    intro h res _ hp
    simp only [probeGet] at hp
    exact Option.noConfusion hp
  | succ fuel ih =>
    intro h res hh hp
    simp only [probeGet] at hp
    by_cases hE : (t.getD h default).state = STATE_EMPTY
    · rw [if_pos hE] at hp
      refine ⟨0, Nat.succ_pos _, fun d' hd' => absurd hd' (Nat.not_lt_zero d'), Or.inl ?_⟩
      rw [Nat.add_zero, Nat.mod_eq_of_lt hh]
      exact ⟨hE, (Option.some.inj hp).symm⟩
    · rw [if_neg hE] at hp
      by_cases hM : (t.getD h default).state = STATE_OCCUPIED ∧ (t.getD h default).key = k
      · rw [if_pos hM] at hp
        refine ⟨0, Nat.succ_pos _, fun d' hd' => absurd hd' (Nat.not_lt_zero d'), Or.inr ?_⟩
        rw [Nat.add_zero, Nat.mod_eq_of_lt hh]
        exact ⟨hM.1, hM.2, (Option.some.inj hp).symm⟩
      · rw [if_neg hM] at hp
        have hpos : 0 < size := Nat.lt_of_le_of_lt (Nat.zero_le _) hh
        obtain ⟨d, hd, hsk, hstop⟩ := ih ((h + 1) % size) res (Nat.mod_lt _ hpos) hp
        refine ⟨d + 1, Nat.succ_lt_succ hd, ?_, ?_⟩
        · intro d' hd'
          cases d' with
          | zero =>
            rw [Nat.add_zero, Nat.mod_eq_of_lt hh]
            exact ⟨hE, hM⟩
          | succ d' =>
            have hskd := hsk d' (Nat.lt_of_succ_lt_succ hd')
            rw [mod_walk h d'] at hskd
            exact hskd
        · rw [← mod_walk h d]
          exact hstop

/-- Inversion of a terminating `probeIns` call: a fresh insert overwrites a
non-occupied walk-reachable position with the new entry; a non-fresh insert
updates the `cache_index` of the occupied match in place. -/
theorem probeIns_inv {t : List HashEntry} {size : Nat} {k : Key} {idx : Int} :
    ∀ (fuel j : Nat) (tomb : Option Nat) (t' : List HashEntry) (fresh : Bool),
    hash k size < size →
    (∀ d' < j, skipAt t k ((hash k size + d') % size)) →
    (∀ q, tomb = some q → ∃ dt, dt < j ∧ q = (hash k size + dt) % size ∧
      (t.getD q default).state = STATE_TOMBSTONE) →
    probeIns t size k idx ((hash k size + j) % size) tomb fuel = some (t', fresh) →
    ∃ d, d < j + fuel ∧ (∀ d' < d, skipAt t k ((hash k size + d') % size)) ∧
      ((fresh = true ∧
        (t.getD ((hash k size + d) % size) default).state ≠ STATE_OCCUPIED ∧
        t' = t.set ((hash k size + d) % size) ⟨k, idx, STATE_OCCUPIED⟩) ∨
       (fresh = false ∧
        (t.getD ((hash k size + d) % size) default).state = STATE_OCCUPIED ∧
        (t.getD ((hash k size + d) % size) default).key = k ∧
        t' = t.set ((hash k size + d) % size)
          { t.getD ((hash k size + d) % size) default with cache_index := idx })) := by
  intro fuel
  induction fuel with
  | zero =>
    intro j tomb t' fresh _ _ _ hp
    simp only [probeIns] at hp
    exact Option.noConfusion hp
  | succ fuel ih =>
    intro j tomb t' fresh hh hpre htmb hp
    have hpos : 0 < size := Nat.lt_of_le_of_lt (Nat.zero_le _) hh
    simp only [probeIns] at hp
    by_cases hE : (t.getD ((hash k size + j) % size) default).state = STATE_EMPTY
    · rw [if_pos hE] at hp
      have hpair := Option.some.inj hp
      have ht' : t' = t.set (tomb.getD ((hash k size + j) % size)) ⟨k, idx, STATE_OCCUPIED⟩ :=
        (congrArg Prod.fst hpair).symm
      have hfr : fresh = true := (congrArg Prod.snd hpair).symm
      cases htc : tomb with
      | none =>
        refine ⟨j, by omega, hpre, Or.inl ⟨hfr, ?_, ?_⟩⟩
        · rw [hE]
          decide
        · rw [ht', htc]
          rfl
      | some q =>
        obtain ⟨dt, hdt, hq, hts⟩ := htmb q htc
        refine ⟨dt, by omega, fun d' hd' => hpre d' (Nat.lt_trans hd' hdt),
          Or.inl ⟨hfr, ?_, ?_⟩⟩
        · rw [← hq, hts]
          decide
        · rw [ht', htc, ← hq]
          rfl
    · rw [if_neg hE] at hp
      by_cases hT : (t.getD ((hash k size + j) % size) default).state = STATE_TOMBSTONE
      · rw [if_pos hT] at hp
        have hstep : ((hash k size + j) % size + 1) % size =
            (hash k size + (j + 1)) % size := by
          rw [Nat.mod_add_mod, Nat.add_assoc]
        rw [hstep] at hp
        have hpre' : ∀ d' < j + 1, skipAt t k ((hash k size + d') % size) := by
          intro d' hd'
          rcases Nat.lt_or_ge d' j with hlt | hge
          · exact hpre d' hlt
          · have hdj : d' = j := by omega
            subst hdj
            refine ⟨by rw [hT]; decide, ?_⟩
            intro hcon
            have hc := hcon.1
            rw [hT] at hc
            exact absurd hc (by decide)
        have htmb' : ∀ q', some (tomb.getD ((hash k size + j) % size)) = some q' →
            ∃ dt, dt < j + 1 ∧ q' = (hash k size + dt) % size ∧
              (t.getD q' default).state = STATE_TOMBSTONE := by
          intro q' hq'
          have hq2 := Option.some.inj hq'
          cases htc : tomb with
          | none =>
            rw [htc] at hq2
            simp only [Option.getD_none] at hq2
            refine ⟨j, by omega, hq2.symm, ?_⟩
            rw [← hq2]
            exact hT
          | some q0 =>
            rw [htc] at hq2
            simp only [Option.getD_some] at hq2
            obtain ⟨dt, hdt, hqq, hts⟩ := htmb q0 htc
            refine ⟨dt, by omega, ?_, ?_⟩
            · rw [← hq2]
              exact hqq
            · rw [← hq2]
              exact hts
        obtain ⟨d, hd, hsk, hstop⟩ := ih (j + 1)
          (some (tomb.getD ((hash k size + j) % size))) t' fresh hh hpre' htmb' hp
        exact ⟨d, by omega, hsk, hstop⟩
      · rw [if_neg hT] at hp
        by_cases hM : (t.getD ((hash k size + j) % size) default).state = STATE_OCCUPIED ∧
            (t.getD ((hash k size + j) % size) default).key = k
        · rw [if_pos hM] at hp
          have hpair := Option.some.inj hp
          have ht' : t' = t.set ((hash k size + j) % size)
              { t.getD ((hash k size + j) % size) default with cache_index := idx } :=
            (congrArg Prod.fst hpair).symm
          have hfr : fresh = false := (congrArg Prod.snd hpair).symm
          exact ⟨j, by omega, hpre, Or.inr ⟨hfr, hM.1, hM.2, ht'⟩⟩
        · rw [if_neg hM] at hp
          have hstep : ((hash k size + j) % size + 1) % size =
              (hash k size + (j + 1)) % size := by
            rw [Nat.mod_add_mod, Nat.add_assoc]
          rw [hstep] at hp
          have hpre' : ∀ d' < j + 1, skipAt t k ((hash k size + d') % size) := by
            intro d' hd'
            rcases Nat.lt_or_ge d' j with hlt | hge
            · exact hpre d' hlt
            · have hdj : d' = j := by omega
              subst hdj
              exact ⟨hE, hM⟩
          have htmb' : ∀ q', tomb = some q' → ∃ dt, dt < j + 1 ∧
              q' = (hash k size + dt) % size ∧
              (t.getD q' default).state = STATE_TOMBSTONE := by
            intro q' hq'
            obtain ⟨dt, hdt, hqq, hts⟩ := htmb q' hq'
            exact ⟨dt, by omega, hqq, hts⟩
          obtain ⟨d, hd, hsk, hstop⟩ := ih (j + 1) tomb t' fresh hh hpre' htmb' hp
          exact ⟨d, by omega, hsk, hstop⟩

/-- Tombstoning a position preserves every skip: a tombstone is itself
skipped. -/
theorem skipAt_set_tomb (t : List HashEntry) (k : Key) (p q : Nat) (hq : q < t.length)
    (h : skipAt t k p) :
    skipAt (t.set q { t.getD q default with state := STATE_TOMBSTONE }) k p := by
  by_cases hpq : p = q
  · subst hpq
    unfold skipAt
    rw [getD_set_self _ _ _ p hq]
    refine ⟨(by decide : STATE_TOMBSTONE ≠ STATE_EMPTY), ?_⟩
    intro hcon
    exact absurd hcon.1 (by decide : STATE_TOMBSTONE ≠ STATE_OCCUPIED)
  · unfold skipAt
    rw [getD_set_ne _ _ _ q p (fun hEq => hpq hEq.symm)]
    exact h

/-- Tombstoning another position preserves probe-reachability of an
entry. -/
theorem goodEntry_set_tomb (t : List HashEntry) (size p q : Nat) (hq : q < t.length)
    (hpq : p ≠ q) (hg : goodEntry t size p) :
    goodEntry (t.set q { t.getD q default with state := STATE_TOMBSTONE }) size p := by
  obtain ⟨d, hd, hpEq, hsk⟩ := hg
  have hkey : ((t.set q { t.getD q default with state := STATE_TOMBSTONE }).getD p
      default).key = (t.getD p default).key := by
    rw [getD_set_ne _ _ _ q p (fun hEq => hpq hEq.symm)]
  refine ⟨d, hd, ?_, ?_⟩
  · rw [hkey]
    exact hpEq
  · intro d' hd'
    rw [hkey]
    exact skipAt_set_tomb t _ _ q hq (hsk d' hd')

/-- The clock sweep never changes any cell's `index` field.  First, the
single reference-bit clear. -/
theorem cellOf_modifyBit_index (c : RBCCache) (cid0 cid : Nat) :
    (cellOf (modifyCell c cid0 fun v => { v with ref_bit := 0 }) cid).index =
      (cellOf c cid).index := by
  unfold cellOf
  rw [modifyCell_getD]
  by_cases hcc : cid = cid0
  · rw [if_pos hcc, hcc]
    cases c.heap.getD cid0 none <;> rfl
  · rw [if_neg hcc]

theorem sweepLoop_index : ∀ (fuel : Nat) (c : RBCCache) (cid : Nat),
    (cellOf (sweepLoop c fuel).2 cid).index = (cellOf c cid).index := by
  intro fuel
  induction fuel with
  | zero => intro c cid; rfl
  | succ fuel ih =>
    intro c cid
    cases hv : c.values.getD c.clock_hand none with
    | none =>
      simp only [sweepLoop, hv]
      rfl
    | some cid0 =>
      by_cases hk : (c.keys.getD c.clock_hand none).isNone
      · simp only [sweepLoop, hv]
        rw [if_pos hk]
        rfl
      · by_cases hstop : ((c.heap.getD cid0 none).getD default).refcount = 0 ∧
            ((c.heap.getD cid0 none).getD default).ref_bit = 0
        · simp only [sweepLoop, hv]
          rw [if_neg hk, if_pos hstop]
          rfl
        · simp only [sweepLoop, hv]
          rw [if_neg hk, if_neg hstop]
          rw [ih _ cid]
          exact cellOf_modifyBit_index c cid0 cid

theorem sweepLoop_hand_lt : ∀ (fuel : Nat) (c : RBCCache), 0 < c.cache_size →
    c.clock_hand < c.cache_size → (sweepLoop c fuel).2.clock_hand < c.cache_size := by
  intro fuel
  induction fuel with
  | zero =>
    intro c _ hh
    exact hh
  | succ fuel ih =>
    intro c hpos hh
    cases hv : c.values.getD c.clock_hand none with
    | none =>
      simp only [sweepLoop, hv]
      exact Nat.mod_lt _ hpos
    | some cid0 =>
      by_cases hk : (c.keys.getD c.clock_hand none).isNone
      · simp only [sweepLoop, hv]
        rw [if_pos hk]
        exact Nat.mod_lt _ hpos
      · by_cases hstop : ((c.heap.getD cid0 none).getD default).refcount = 0 ∧
            ((c.heap.getD cid0 none).getD default).ref_bit = 0
        · simp only [sweepLoop, hv]
          rw [if_neg hk, if_pos hstop]
          exact Nat.mod_lt _ hpos
        · simp only [sweepLoop, hv]
          rw [if_neg hk, if_neg hstop]
          exact ih _ hpos (Nat.mod_lt _ hpos)

theorem sweepLoop_victim_lt : ∀ (fuel : Nat) (c : RBCCache) (v : Nat) (c' : RBCCache),
    0 < c.cache_size → c.clock_hand < c.cache_size →
    sweepLoop c fuel = (some v, c') → v < c.cache_size := by
  intro fuel
  induction fuel with
  | zero =>
    intro c v c' _ _ hp
    simp only [sweepLoop] at hp
    exact Option.noConfusion (congrArg Prod.fst hp)
  | succ fuel ih =>
    intro c v c' hpos hh hp
    cases hv : c.values.getD c.clock_hand none with
    | none =>
      simp only [sweepLoop, hv] at hp
      have := Option.some.inj (congrArg Prod.fst hp)
      rw [← this]
      exact hh
    | some cid0 =>
      by_cases hk : (c.keys.getD c.clock_hand none).isNone
      · simp only [sweepLoop, hv] at hp
        rw [if_pos hk] at hp
        have := Option.some.inj (congrArg Prod.fst hp)
        rw [← this]
        exact hh
      · by_cases hstop : ((c.heap.getD cid0 none).getD default).refcount = 0 ∧
            ((c.heap.getD cid0 none).getD default).ref_bit = 0
        · simp only [sweepLoop, hv] at hp
          rw [if_neg hk, if_pos hstop] at hp
          have := Option.some.inj (congrArg Prod.fst hp)
          rw [← this]
          exact hh
        · simp only [sweepLoop, hv] at hp
          rw [if_neg hk, if_neg hstop] at hp
          exact ih (advanceHand (modifyCell c cid0 fun w => { w with ref_bit := 0 }))
            v c' hpos (Nat.mod_lt _ hpos) hp

/-- Every victim returned by `findClockVictim` names a valid slot. -/
theorem findClockVictim_lt (c : RBCCache) (hpos : 0 < c.cache_size)
    (hh : c.clock_hand < c.cache_size) : (findClockVictim c).1 < c.cache_size := by
  unfold findClockVictim
  cases hs : sweepLoop c (c.cache_size * 2) with
  | mk o c' =>
    cases o with
    | some v =>
      dsimp only
      exact sweepLoop_victim_lt _ c v c' hpos hh hs
    | none =>
      dsimp only
      cases hf : (List.range c.cache_size).find? (fun i => (c'.keys.getD i none).isNone) with
      | some i =>
        dsimp only
        exact List.mem_range.mp (List.mem_of_find?_eq_some hf)
      | none =>
        dsimp only
        exact hh

theorem getD_append_self {α : Type} : ∀ (l : List α) (x d : α),
    (l ++ [x]).getD l.length d = x := by
  intro l
  induction l with
  | nil => intro x d; rfl
  | cons a t ih => intro x d; exact ih x d

theorem countState_pos (t : List HashEntry) (st : Nat) :
    ∀ (p : Nat), p < t.length → (t.getD p default).state = st → 1 ≤ countState t st := by
  induction t with
  | nil =>
    intro p hp _
    simp at hp
  | cons a t ih =>
    intro p hp hst
    rw [countState_cons]
    cases p with
    | zero =>
      simp only [List.getD_cons_zero] at hst
      rw [if_pos hst]
      omega
    | succ p =>
      simp only [List.getD_cons_succ] at hst
      have := ih p (Nat.lt_of_succ_lt_succ hp) hst
      omega

/-- The global well-formedness invariant of a cache state: sizes are
positive and the arrays have their declared lengths; the clock hand is in
range; the key and value arrays agree on which slots are occupied; each
occupied slot's cell is live with its `index` naming the slot; every
OCCUPIED index entry is probe-reachable and names an occupied slot holding
its key; every occupied slot's key has an OCCUPIED index entry naming the
slot; and `hash_used` counts the OCCUPIED index entries. -/
structure Inv (c : RBCCache) : Prop where
  size_pos : 0 < c.cache_size
  hash_pos : 0 < c.hash_size
  keys_len : c.keys.length = c.cache_size
  values_len : c.values.length = c.cache_size
  table_len : c.hash_table.length = c.hash_size
  hand_lt : c.clock_hand < c.cache_size
  align : ∀ i, i < c.cache_size →
    ((c.keys.getD i none).isSome ↔ (c.values.getD i none).isSome)
  slot_cell : ∀ i cid, i < c.cache_size → c.values.getD i none = some cid →
    live c cid ∧ (cellOf c cid).index = (i : Int)
  entry_good : ∀ p, p < c.hash_size →
    (c.hash_table.getD p default).state = STATE_OCCUPIED →
    goodEntry c.hash_table c.hash_size p
  entry_slot : ∀ p, p < c.hash_size →
    (c.hash_table.getD p default).state = STATE_OCCUPIED →
    ∃ i, i < c.cache_size ∧ (c.hash_table.getD p default).cache_index = (i : Int) ∧
      c.keys.getD i none = some (c.hash_table.getD p default).key
  slot_entry : ∀ i k, i < c.cache_size → c.keys.getD i none = some k →
    ∃ p, p < c.hash_size ∧ (c.hash_table.getD p default).state = STATE_OCCUPIED ∧
      (c.hash_table.getD p default).key = k ∧
      (c.hash_table.getD p default).cache_index = (i : Int)
  used_eq : c.hash_used = countState c.hash_table STATE_OCCUPIED

/-- Distinct slots hold distinct cells. -/
theorem Inv.values_inj {c : RBCCache} (hI : Inv c) {i j cid : Nat}
    (hi : i < c.cache_size) (hj : j < c.cache_size)
    (hvi : c.values.getD i none = some cid) (hvj : c.values.getD j none = some cid) :
    i = j := by
  have h1 := (hI.slot_cell i cid hi hvi).2
  have h2 := (hI.slot_cell j cid hj hvj).2
  rw [h1] at h2
  omega

/-- Distinct slots hold distinct keys. -/
theorem Inv.keys_inj {c : RBCCache} (hI : Inv c) {i j : Nat} {k : Key}
    (hi : i < c.cache_size) (hj : j < c.cache_size)
    (hki : c.keys.getD i none = some k) (hkj : c.keys.getD j none = some k) : i = j := by
  obtain ⟨p, hp, hop, hkp, hcp⟩ := hI.slot_entry i k hi hki
  obtain ⟨q, hq, hoq, hkq, hcq⟩ := hI.slot_entry j k hj hkj
  have hpq : p = q := goodEntry_unique hp hq hop hoq (by rw [hkp, hkq])
    (hI.entry_good p hp hop) (hI.entry_good q hq hoq)
  subst hpq
  rw [hcp] at hcq
  omega

/-- Under the invariant, looking up an occupied slot's key returns the
slot. -/
theorem Inv.lookup_slot {c : RBCCache} (hI : Inv c) {i : Nat} {k : Key}
    (hi : i < c.cache_size) (hki : c.keys.getD i none = some k) :
    getCacheIndex c k = some (i : Int) := by
  obtain ⟨p, hp, hop, hkp, hcp⟩ := hI.slot_entry i k hi hki
  have hlook := getCacheIndex_of_goodEntry hI.hash_pos hop (hI.entry_good p hp hop)
  rw [hkp, hcp] at hlook
  exact hlook

/-- Under the invariant, a lookup that returns `-1` means no occupied
entry holds the key. -/
theorem Inv.no_match_of_miss {c : RBCCache} (hI : Inv c) {k : Key}
    (hmiss : getCacheIndex c k = some (-1)) :
    ∀ p, p < c.hash_size →
      ¬((c.hash_table.getD p default).state = STATE_OCCUPIED ∧
        (c.hash_table.getD p default).key = k) := by
  intro p hp hcon
  have hlook := getCacheIndex_of_goodEntry hI.hash_pos hcon.1 (hI.entry_good p hp hcon.1)
  rw [hcon.2, hmiss] at hlook
  have hci := Option.some.inj hlook
  obtain ⟨i, hi, hcpi, _⟩ := hI.entry_slot p hp hcon.1
  rw [hcpi] at hci
  omega

/-- A fresh cache satisfies the invariant. -/
theorem Inv_createCache (n : Nat) (hn : 0 < n) : Inv (createCache n) := by
  have hge : n * 2 ≤ next_prime (n * 2) := next_prime_ge _
  constructor
  · exact hn
  · show 0 < next_prime (n * 2)
    omega
  · exact List.length_replicate n none
  · exact List.length_replicate n none
  · exact List.length_replicate _ _
  · exact hn
  · intro i hi
    show ((List.replicate n (none : Option Key)).getD i none).isSome ↔
      ((List.replicate n (none : Option Nat)).getD i none).isSome
    rw [getD_replicate n _ _ i hi, getD_replicate n _ _ i hi]
    exact Iff.rfl
  · intro i cid hi hv
    rw [show (createCache n).values = List.replicate n none from rfl,
      getD_replicate n _ _ i hi] at hv
    exact Option.noConfusion hv
  · intro p hp hocc
    rw [show (createCache n).hash_table = List.replicate (next_prime (n * 2)) default
      from rfl, getD_replicate (next_prime (n * 2)) default default p hp] at hocc
    exact absurd hocc (by decide)
  · intro p hp hocc
    rw [show (createCache n).hash_table = List.replicate (next_prime (n * 2)) default
      from rfl, getD_replicate (next_prime (n * 2)) default default p hp] at hocc
    exact absurd hocc (by decide)
  · intro i k hi hk
    rw [show (createCache n).keys = List.replicate n none from rfl,
      getD_replicate n _ _ i hi] at hk
    exact Option.noConfusion hk
  · show 0 = countState (List.replicate (next_prime (n * 2)) default) STATE_OCCUPIED
    exact (countState_replicate _ _ (by decide)).symm

/-- `releaseValue` preserves the invariant. -/
theorem Inv_releaseValue (c : RBCCache) (cid : Nat) (hI : Inv c) :
    Inv (releaseValue c cid) := by
  unfold releaseValue
  cases hc : c.heap.getD cid none with
  | none => exact hI
  | some cv =>
    dsimp only
    by_cases hfree : cv.refcount - 1 = 0 ∧ cv.index = -1
    · rw [if_pos hfree]
      refine ⟨hI.size_pos, hI.hash_pos, hI.keys_len, hI.values_len, hI.table_len,
        hI.hand_lt, hI.align, ?_, hI.entry_good, hI.entry_slot, hI.slot_entry, hI.used_eq⟩
      intro i cid' hi hv
      obtain ⟨hlv, hidx⟩ := hI.slot_cell i cid' hi hv
      have hne : cid' ≠ cid := by
        intro hEq
        subst hEq
        unfold cellOf at hidx
        rw [hc] at hidx
        simp only [Option.getD_some] at hidx
        rw [hfree.2] at hidx
        omega
      constructor
      · unfold live
        dsimp only
        rw [getD_set_ne _ _ _ cid cid' (fun hEq => hne hEq.symm)]
        exact hlv
      · unfold cellOf
        dsimp only
        rw [getD_set_ne _ _ _ cid cid' (fun hEq => hne hEq.symm)]
        exact hidx
    · rw [if_neg hfree]
      refine ⟨hI.size_pos, hI.hash_pos, hI.keys_len, hI.values_len, hI.table_len,
        hI.hand_lt, hI.align, ?_, hI.entry_good, hI.entry_slot, hI.slot_entry, hI.used_eq⟩
      intro i cid' hi hv
      obtain ⟨hlv, hidx⟩ := hI.slot_cell i cid' hi hv
      by_cases hne : cid' = cid
      · subst hne
        constructor
        · unfold live
          dsimp only
          rw [getD_set_self _ _ _ cid' (live_lt hlv)]
          rfl
        · unfold cellOf
          dsimp only
          rw [getD_set_self _ _ _ cid' (live_lt hlv)]
          unfold cellOf at hidx
          rw [hc] at hidx
          exact hidx
      · constructor
        · unfold live
          dsimp only
          rw [getD_set_ne _ _ _ cid cid' (fun hEq => hne hEq.symm)]
          exact hlv
        · unfold cellOf
          dsimp only
          rw [getD_set_ne _ _ _ cid cid' (fun hEq => hne hEq.symm)]
          exact hidx

/-- The clock sweep preserves the invariant. -/
theorem Inv_sweepLoop (c : RBCCache) (fuel : Nat) (hI : Inv c) :
    Inv (sweepLoop c fuel).2 := by
  obtain ⟨hsz, hks, hvs, hht, hhs, hhu⟩ := sweepLoop_fields fuel c
  refine ⟨?_, ?_, ?_, ?_, ?_, ?_, ?_, ?_, ?_, ?_, ?_, ?_⟩
  · rw [hsz]
    exact hI.size_pos
  · rw [hhs]
    exact hI.hash_pos
  · rw [hks, hsz]
    exact hI.keys_len
  · rw [hvs, hsz]
    exact hI.values_len
  · rw [hht, hhs]
    exact hI.table_len
  · rw [hsz]
    exact sweepLoop_hand_lt fuel c hI.size_pos hI.hand_lt
  · intro i hi
    rw [hks, hvs]
    rw [hsz] at hi
    exact hI.align i hi
  · intro i cid hi hv
    rw [hvs] at hv
    rw [hsz] at hi
    obtain ⟨hlv, hidx⟩ := hI.slot_cell i cid hi hv
    refine ⟨(sweepLoop_live fuel c cid).mpr hlv, ?_⟩
    rw [sweepLoop_index fuel c cid]
    exact hidx
  · intro p hp hocc
    rw [hht] at hocc ⊢
    rw [hhs] at hp ⊢
    exact hI.entry_good p hp hocc
  · intro p hp hocc
    rw [hht] at hocc ⊢
    rw [hhs] at hp
    rw [hks, hsz]
    exact hI.entry_slot p hp hocc
  · intro i k hi hk
    rw [hks] at hk
    rw [hsz] at hi
    rw [hht, hhs]
    exact hI.slot_entry i k hi hk
  · rw [hhu, hht]
    exact hI.used_eq

/-- Retiring the victim slot (erasing its key from the index, freeing the
key string, freeing or detaching its cell) preserves the invariant, empties
the slot, and leaves every other occupied index entry and slot in place. -/
theorem Inv_retire (c : RBCCache) (v : Nat) (hI : Inv c) (hv : v < c.cache_size) :
    ∃ c2, retireSlotKey c v = some c2 ∧
      (Inv (retireSlotCell c2 v) ∧
       (retireSlotCell c2 v).keys.getD v none = none ∧
       (retireSlotCell c2 v).values.getD v none = none ∧
       (retireSlotCell c2 v).cache_size = c.cache_size ∧
       (retireSlotCell c2 v).hash_size = c.hash_size ∧
       (retireSlotCell c2 v).clock_hand = c.clock_hand ∧
       (retireSlotCell c2 v).heap.length = c.heap.length ∧
       (∀ cid, live (retireSlotCell c2 v) cid → live c cid) ∧
       c.hash_used - 1 ≤ (retireSlotCell c2 v).hash_used ∧
       (retireSlotCell c2 v).hash_used ≤ c.hash_used ∧
       ((retireSlotCell c2 v).hash_table = c.hash_table ∨
        ∃ p, p < c.hash_size ∧ (c.hash_table.getD p default).state = STATE_OCCUPIED ∧
          (retireSlotCell c2 v).hash_table = c.hash_table.set p
            { c.hash_table.getD p default with state := STATE_TOMBSTONE }) ∧
       (∀ i, i < c.cache_size → i ≠ v →
         (retireSlotCell c2 v).keys.getD i none = c.keys.getD i none ∧
         (retireSlotCell c2 v).values.getD i none = c.values.getD i none)) := by
  cases hkv : c.keys.getD v none with
  | none =>
    have hvn : c.values.getD v none = none := by
      cases hvv : c.values.getD v none with
      | none => rfl
      | some cid0 =>
        have hvs : (c.keys.getD v none).isSome := (hI.align v hv).mpr (by rw [hvv]; rfl)
        rw [hkv] at hvs
        exact Bool.noConfusion hvs
    have hrk : retireSlotKey c v = some c := by
      unfold retireSlotKey
      rw [hkv]
    have hrc : retireSlotCell c v = c := by
      unfold retireSlotCell
      rw [hvn]
    refine ⟨c, hrk, ?_⟩
    rw [hrc]
    exact ⟨hI, hkv, hvn, rfl, rfl, rfl, rfl, fun _ h => h, by omega, Nat.le_refl _,
      Or.inl rfl, fun i _ _ => ⟨rfl, rfl⟩⟩
  | some kv =>
    have hvs : (c.values.getD v none).isSome := (hI.align v hv).mp (by rw [hkv]; rfl)
    cases hvv : c.values.getD v none with
    | none =>
      rw [hvv] at hvs
      exact Bool.noConfusion hvs
    | some cid_v =>
    obtain ⟨p, hp, hop, hkp, hcp⟩ := hI.slot_entry v kv hv hkv
    have hplen : p < c.hash_table.length := by
      rw [hI.table_len]
      exact hp
    obtain ⟨hlive_v, hidx_v⟩ := hI.slot_cell v cid_v hv hvv
    have hef := eraseHash_found hI.hash_pos hp hop (hI.entry_good p hp hop)
    rw [hkp] at hef
    have hrk : retireSlotKey c v = some
        { c with keys := c.keys.set v none,
                 hash_table := c.hash_table.set p
                   { c.hash_table.getD p default with state := STATE_TOMBSTONE },
                 hash_used := c.hash_used - 1 } := by
      unfold retireSlotKey
      rw [hkv]
      dsimp only
      rw [hef]
    set c2x : RBCCache :=
      { c with keys := c.keys.set v none,
               hash_table := c.hash_table.set p
                 { c.hash_table.getD p default with state := STATE_TOMBSTONE },
               hash_used := c.hash_used - 1 } with hc2x
    cases hcell : c.heap.getD cid_v none with
    | none =>
      unfold live at hlive_v
      rw [hcell] at hlive_v
      exact Bool.noConfusion hlive_v
    | some old =>
    have hused1 : 1 ≤ countState c.hash_table STATE_OCCUPIED :=
      countState_pos c.hash_table STATE_OCCUPIED p hplen hop
    have hcount : countState (c.hash_table.set p
        { c.hash_table.getD p default with state := STATE_TOMBSTONE }) STATE_OCCUPIED =
        countState c.hash_table STATE_OCCUPIED - 1 := by
      have hbal := @countState_set STATE_OCCUPIED
        { c.hash_table.getD p default with state := STATE_TOMBSTONE } c.hash_table p hplen
      rw [if_pos hop] at hbal
      rw [if_neg (by exact (by decide : STATE_TOMBSTONE ≠ STATE_OCCUPIED))] at hbal
      omega
    have hmain : ∀ (W : Option CacheValue) (X : RBCCache),
        X = { c2x with heap := c2x.heap.set cid_v W, values := c2x.values.set v none } →
        Inv X ∧
        X.keys.getD v none = none ∧
        X.values.getD v none = none ∧
        X.cache_size = c.cache_size ∧
        X.hash_size = c.hash_size ∧
        X.clock_hand = c.clock_hand ∧
        X.heap.length = c.heap.length ∧
        (∀ cid, live X cid → live c cid) ∧
        c.hash_used - 1 ≤ X.hash_used ∧
        X.hash_used ≤ c.hash_used ∧
        (X.hash_table = c.hash_table ∨
         ∃ q, q < c.hash_size ∧ (c.hash_table.getD q default).state = STATE_OCCUPIED ∧
           X.hash_table = c.hash_table.set q
             { c.hash_table.getD q default with state := STATE_TOMBSTONE }) ∧
        (∀ i, i < c.cache_size → i ≠ v →
          X.keys.getD i none = c.keys.getD i none ∧
          X.values.getD i none = c.values.getD i none) := by
      intro W X hX
      subst hX
      have hkeyslen : v < c.keys.length := by
        rw [hI.keys_len]
        exact hv
      have hvalueslen : v < c.values.length := by
        rw [hI.values_len]
        exact hv
      refine ⟨?_, ?_, ?_, rfl, rfl, rfl, ?_, ?_, ?_, ?_, ?_, ?_⟩
      · -- the invariant for the retired state
        refine ⟨hI.size_pos, hI.hash_pos, ?_, ?_, ?_, hI.hand_lt, ?_, ?_, ?_, ?_, ?_, ?_⟩
        · show (c.keys.set v none).length = c.cache_size
          rw [length_set']
          exact hI.keys_len
        · show (c.values.set v none).length = c.cache_size
          rw [length_set']
          exact hI.values_len
        · show (c.hash_table.set p _).length = c.hash_size
          rw [length_set']
          exact hI.table_len
        · intro i hi
          show ((c.keys.set v none).getD i none).isSome ↔
            ((c.values.set v none).getD i none).isSome
          by_cases hiv : i = v
          · subst hiv
            rw [getD_set_self _ _ _ i hkeyslen, getD_set_self _ _ _ i hvalueslen]
            exact Iff.rfl
          · rw [getD_set_ne _ _ _ v i (fun hEq => hiv hEq.symm),
              getD_set_ne _ _ _ v i (fun hEq => hiv hEq.symm)]
            exact hI.align i hi
        · intro i cid hi hvi
          have hvi' : (c.values.set v none).getD i none = some cid := hvi
          have hiv : i ≠ v := by
            intro hEq
            subst hEq
            rw [getD_set_self _ _ _ i hvalueslen] at hvi'
            exact Option.noConfusion hvi'
          rw [getD_set_ne _ _ _ v i (fun hEq => hiv hEq.symm)] at hvi'
          obtain ⟨hlv, hidx⟩ := hI.slot_cell i cid hi hvi'
          have hcidne : cid ≠ cid_v := by
            intro hEq
            subst hEq
            exact hiv (hI.values_inj hi hv hvi' hvv)
          constructor
          · show ((c.heap.set cid_v W).getD cid none).isSome
            rw [getD_set_ne _ _ _ cid_v cid (fun hEq => hcidne hEq.symm)]
            exact hlv
          · show (((c.heap.set cid_v W).getD cid none).getD default).index = (i : Int)
            rw [getD_set_ne _ _ _ cid_v cid (fun hEq => hcidne hEq.symm)]
            exact hidx
        · intro p' hp' hocc'
          have hocc2 : ((c.hash_table.set p
              { c.hash_table.getD p default with state := STATE_TOMBSTONE }).getD p'
              default).state = STATE_OCCUPIED := hocc'
          have hp2 : p' < c.hash_size := hp'
          have hpp : p' ≠ p := by
            intro hEq
            subst hEq
            rw [getD_set_self _ _ _ p' hplen] at hocc2
            exact absurd hocc2 (by decide : STATE_TOMBSTONE ≠ STATE_OCCUPIED)
          rw [getD_set_ne _ _ _ p p' (fun hEq => hpp hEq.symm)] at hocc2
          exact goodEntry_set_tomb c.hash_table c.hash_size p' p hplen hpp
            (hI.entry_good p' hp2 hocc2)
        · intro p' hp' hocc'
          have hocc2 : ((c.hash_table.set p
              { c.hash_table.getD p default with state := STATE_TOMBSTONE }).getD p'
              default).state = STATE_OCCUPIED := hocc'
          have hp2 : p' < c.hash_size := hp'
          have hpp : p' ≠ p := by
            intro hEq
            subst hEq
            rw [getD_set_self _ _ _ p' hplen] at hocc2
            exact absurd hocc2 (by decide : STATE_TOMBSTONE ≠ STATE_OCCUPIED)
          rw [getD_set_ne _ _ _ p p' (fun hEq => hpp hEq.symm)] at hocc2
          obtain ⟨i, hi, hci, hki⟩ := hI.entry_slot p' hp2 hocc2
          have hiv : i ≠ v := by
            intro hEq
            subst hEq
            have hkeysame : (c.hash_table.getD p' default).key = kv := by
              rw [hki] at hkv
              exact Option.some.inj hkv
            have hpq : p' = p := goodEntry_unique hp2 hp hocc2 hop
              (by rw [hkeysame, hkp]) (hI.entry_good p' hp2 hocc2)
              (hI.entry_good p hp hop)
            exact hpp hpq
          refine ⟨i, hi, ?_, ?_⟩
          · show ((c.hash_table.set p _).getD p' default).cache_index = (i : Int)
            rw [getD_set_ne _ _ _ p p' (fun hEq => hpp hEq.symm)]
            exact hci
          · show (c.keys.set v none).getD i none = some ((c.hash_table.set p _).getD p'
              default).key
            rw [getD_set_ne _ _ _ v i (fun hEq => hiv hEq.symm),
              getD_set_ne _ _ _ p p' (fun hEq => hpp hEq.symm)]
            exact hki
        · intro i k' hi hk'
          have hk2 : (c.keys.set v none).getD i none = some k' := hk'
          have hiv : i ≠ v := by
            intro hEq
            subst hEq
            rw [getD_set_self _ _ _ i hkeyslen] at hk2
            exact Option.noConfusion hk2
          rw [getD_set_ne _ _ _ v i (fun hEq => hiv hEq.symm)] at hk2
          obtain ⟨q, hq, hoq, hkq, hcq⟩ := hI.slot_entry i k' hi hk2
          have hqp : q ≠ p := by
            intro hEq
            subst hEq
            rw [hcp] at hcq
            have : v = i := by omega
            exact hiv this.symm
          refine ⟨q, hq, ?_, ?_, ?_⟩
          · show ((c.hash_table.set p _).getD q default).state = STATE_OCCUPIED
            rw [getD_set_ne _ _ _ p q (fun hEq => hqp hEq.symm)]
            exact hoq
          · show ((c.hash_table.set p _).getD q default).key = k'
            rw [getD_set_ne _ _ _ p q (fun hEq => hqp hEq.symm)]
            exact hkq
          · show ((c.hash_table.set p _).getD q default).cache_index = (i : Int)
            rw [getD_set_ne _ _ _ p q (fun hEq => hqp hEq.symm)]
            exact hcq
        · show c.hash_used - 1 = countState (c.hash_table.set p
            { c.hash_table.getD p default with state := STATE_TOMBSTONE }) STATE_OCCUPIED
          rw [hcount, hI.used_eq]
      · show (c.keys.set v none).getD v none = none
        exact getD_set_self _ _ _ v hkeyslen
      · show (c.values.set v none).getD v none = none
        exact getD_set_self _ _ _ v hvalueslen
      · show (c.heap.set cid_v W).length = c.heap.length
        exact length_set' _ _ _
      · intro cid hl
        by_cases hcc : cid = cid_v
        · subst hcc
          unfold live
          rw [hcell]
          rfl
        · unfold live at hl ⊢
          have hl' : ((c.heap.set cid_v W).getD cid none).isSome := hl
          rw [getD_set_ne _ _ _ cid_v cid (fun hEq => hcc hEq.symm)] at hl'
          exact hl'
      · show c.hash_used - 1 ≤ c.hash_used - 1
        exact Nat.le_refl _
      · show c.hash_used - 1 ≤ c.hash_used
        omega
      · refine Or.inr ⟨p, hp, hop, ?_⟩
        rfl
      · intro i hi hiv
        constructor
        · show (c.keys.set v none).getD i none = c.keys.getD i none
          rw [getD_set_ne _ _ _ v i (fun hEq => hiv hEq.symm)]
        · show (c.values.set v none).getD i none = c.values.getD i none
          rw [getD_set_ne _ _ _ v i (fun hEq => hiv hEq.symm)]
    by_cases hrc0 : old.refcount = 0
    · have hrsc : retireSlotCell c2x v =
          { c2x with heap := c2x.heap.set cid_v none, values := c2x.values.set v none } := by
        unfold retireSlotCell
        rw [show c2x.values.getD v none = some cid_v from hvv]
        dsimp only
        rw [show c2x.heap.getD cid_v none = some old from hcell]
        dsimp only
        rw [if_pos hrc0]
      refine ⟨c2x, hrk, ?_⟩
      rw [hrsc]
      exact hmain none _ rfl
    · have hrsc : retireSlotCell c2x v =
          { c2x with heap := c2x.heap.set cid_v (some { old with index := -1 }),
                     values := c2x.values.set v none } := by
        unfold retireSlotCell
        rw [show c2x.values.getD v none = some cid_v from hvv]
        dsimp only
        rw [show c2x.heap.getD cid_v none = some old from hcell]
        dsimp only
        rw [if_neg hrc0]
      refine ⟨c2x, hrk, ?_⟩
      rw [hrsc]
      exact hmain (some { old with index := -1 }) _ rfl

/-- Inserting the key of slot `v` (present in no index entry) re-establishes
the index half of the invariant, leaving slots, heap, capacity and hand
untouched — including across the rehash the insert may attempt first. -/
theorem insertHash_Inv (c : RBCCache) (k : Key) (v : Nat) (ro : Bool) (c' : RBCCache)
    (hpos : 0 < c.hash_size) (hlen : c.hash_table.length = c.hash_size)
    (hWF : tableWF c.hash_table c.hash_size)
    (hused : c.hash_used = countState c.hash_table STATE_OCCUPIED)
    (hnok : ∀ p, p < c.hash_size →
      ¬((c.hash_table.getD p default).state = STATE_OCCUPIED ∧
        (c.hash_table.getD p default).key = k))
    (hslot : ∀ p, p < c.hash_size →
      (c.hash_table.getD p default).state = STATE_OCCUPIED →
      ∃ i, i < c.cache_size ∧ (c.hash_table.getD p default).cache_index = (i : Int) ∧
        c.keys.getD i none = some (c.hash_table.getD p default).key)
    (hkeyv : c.keys.getD v none = some k) (hv : v < c.cache_size)
    (hsl : ∀ i k', i < c.cache_size → i ≠ v → c.keys.getD i none = some k' →
      ∃ p, p < c.hash_size ∧ (c.hash_table.getD p default).state = STATE_OCCUPIED ∧
        (c.hash_table.getD p default).key = k' ∧
        (c.hash_table.getD p default).cache_index = (i : Int))
    (h : insertHash c k (v : Int) ro = some c') :
    c'.keys = c.keys ∧ c'.values = c.values ∧ c'.heap = c.heap ∧
    c'.cache_size = c.cache_size ∧ c'.clock_hand = c.clock_hand ∧
    0 < c'.hash_size ∧ c'.hash_table.length = c'.hash_size ∧
    tableWF c'.hash_table c'.hash_size ∧
    c'.hash_used = countState c'.hash_table STATE_OCCUPIED ∧
    (∀ p, p < c'.hash_size →
      (c'.hash_table.getD p default).state = STATE_OCCUPIED →
      ∃ i, i < c.cache_size ∧ (c'.hash_table.getD p default).cache_index = (i : Int) ∧
        c.keys.getD i none = some (c'.hash_table.getD p default).key) ∧
    (∀ i k', i < c.cache_size → c.keys.getD i none = some k' →
      ∃ p, p < c'.hash_size ∧ (c'.hash_table.getD p default).state = STATE_OCCUPIED ∧
        (c'.hash_table.getD p default).key = k' ∧
        (c'.hash_table.getD p default).cache_index = (i : Int)) := by
  have hc1P : ∀ c1 : RBCCache,
      (if 7 ≤ c.hash_used * 10 / c.hash_size then rehash c ro else some c) = some c1 →
      (c1.keys = c.keys ∧ c1.values = c.values ∧ c1.heap = c.heap ∧
       c1.cache_size = c.cache_size ∧ c1.clock_hand = c.clock_hand) ∧
      0 < c1.hash_size ∧ c1.hash_table.length = c1.hash_size ∧
      tableWF c1.hash_table c1.hash_size ∧
      c1.hash_used = countState c1.hash_table STATE_OCCUPIED ∧
      (∀ p, p < c1.hash_size →
        ¬((c1.hash_table.getD p default).state = STATE_OCCUPIED ∧
          (c1.hash_table.getD p default).key = k)) ∧
      (∀ p, p < c1.hash_size →
        (c1.hash_table.getD p default).state = STATE_OCCUPIED →
        ∃ i, i < c.cache_size ∧ (c1.hash_table.getD p default).cache_index = (i : Int) ∧
          c.keys.getD i none = some (c1.hash_table.getD p default).key) ∧
      (∀ i k', i < c.cache_size → i ≠ v → c.keys.getD i none = some k' →
        ∃ p, p < c1.hash_size ∧ (c1.hash_table.getD p default).state = STATE_OCCUPIED ∧
          (c1.hash_table.getD p default).key = k' ∧
          (c1.hash_table.getD p default).cache_index = (i : Int)) := by
    intro c1 hst
    by_cases htrig : 7 ≤ c.hash_used * 10 / c.hash_size
    · rw [if_pos htrig] at hst
      cases ro with
      | false =>
        have hc1 : c1 = c := by
          unfold rehash at hst
          simp only [Bool.false_eq_true, if_false] at hst
          exact (Option.some.inj hst).symm
        subst hc1
        exact ⟨⟨rfl, rfl, rfl, rfl, rfl⟩, hpos, hlen, hWF, hused, hnok, hslot, hsl⟩
      | true =>
        have hnewpos : 0 < next_prime (c.hash_size * 2) :=
          Nat.lt_of_lt_of_le (by omega) (next_prime_ge _)
        have hroom : 0 + countState c.hash_table STATE_OCCUPIED <
            next_prime (c.hash_size * 2) := by
          have h1 : countState c.hash_table STATE_OCCUPIED ≤ c.hash_size :=
            hlen ▸ countState_le_length c.hash_table STATE_OCCUPIED
          have h2 : c.hash_size * 2 ≤ next_prime (c.hash_size * 2) := next_prime_ge _
          omega
        obtain ⟨t', hloop, hlen', hEO', hcount', _, hmem', hWF', hfrom'⟩ :=
          rehashLoop_spec hnewpos c.hash_table
            (List.replicate (next_prime (c.hash_size * 2)) default) 0
            (List.length_replicate _ _)
            (fun q hq => by
              rw [getD_replicate (next_prime (c.hash_size * 2)) default default q hq]
              exact Or.inl rfl)
            (countState_replicate _ _ (by decide))
            hroom
            (fun e _ _ q hq hocc' => by
              rw [getD_replicate (next_prime (c.hash_size * 2)) default default q hq]
                at hocc'
              exact absurd hocc' (by decide))
            (tableWF_pairwise c.hash_table c.hash_size hlen hWF)
            (fun q hq hocc' => by
              rw [getD_replicate (next_prime (c.hash_size * 2)) default default q hq]
                at hocc'
              exact absurd hocc' (by decide))
        unfold rehash at hst
        rw [if_pos rfl, hloop] at hst
        dsimp only at hst
        have hc1 : c1 = { c with hash_size := next_prime (c.hash_size * 2), hash_table := t', hash_used := 0 + countState c.hash_table STATE_OCCUPIED } :=
          (Option.some.inj hst).symm
        subst hc1
        have hfromE : ∀ q, q < next_prime (c.hash_size * 2) →
            (t'.getD q default).state = STATE_OCCUPIED → t'.getD q default ∈ c.hash_table := by
          intro q hq hocc'
          rcases hfrom' q hq hocc' with hmem | hEq
          · exact hmem
          · rw [getD_replicate (next_prime (c.hash_size * 2)) default default q hq] at hEq
            rw [hEq] at hocc'
            exact absurd hocc' (by decide)
        have hpos' : ∀ q, q < next_prime (c.hash_size * 2) →
            (t'.getD q default).state = STATE_OCCUPIED →
            ∃ p2, p2 < c.hash_size ∧ c.hash_table.getD p2 default = t'.getD q default := by
          intro q hq hocc'
          obtain ⟨idx, hidx⟩ := List.mem_iff_get.mp (hfromE q hq hocc')
          refine ⟨(idx : Nat), by rw [← hlen]; exact idx.2, ?_⟩
          rw [getD_eq_get c.hash_table default (idx : Nat) idx.2]
          exact hidx
        refine ⟨⟨rfl, rfl, rfl, rfl, rfl⟩, hnewpos, hlen', hWF', hcount'.symm, ?_, ?_, ?_⟩
        · intro p hp hcon
          obtain ⟨p2, hp2, hEq2⟩ := hpos' p hp hcon.1
          refine hnok p2 hp2 ?_
          rw [hEq2]
          exact hcon
        · intro p hp hocc'
          obtain ⟨p2, hp2, hEq2⟩ := hpos' p hp hocc'
          have hocc2 : (c.hash_table.getD p2 default).state = STATE_OCCUPIED := by
            rw [hEq2]
            exact hocc'
          obtain ⟨i, hi, hci, hki⟩ := hslot p2 hp2 hocc2
          rw [hEq2] at hci hki
          exact ⟨i, hi, hci, hki⟩
        · intro i k' hi hiv hk'
          obtain ⟨p, hp, hoccp, hkeyp, hcip⟩ := hsl i k' hi hiv hk'
          obtain ⟨q, hq, hEqq, _⟩ := hmem' (c.hash_table.getD p default)
            (getD_mem c.hash_table default p (by rw [hlen]; exact hp)) hoccp
          refine ⟨q, hq, ?_, ?_, ?_⟩
          · rw [hEqq]
            exact hoccp
          · rw [hEqq]
            exact hkeyp
          · rw [hEqq]
            exact hcip
    · rw [if_neg htrig] at hst
      have hc1 : c1 = c := (Option.some.inj hst).symm
      subst hc1
      exact ⟨⟨rfl, rfl, rfl, rfl, rfl⟩, hpos, hlen, hWF, hused, hnok, hslot, hsl⟩
  unfold insertHash at h
  cases hst : (if 7 ≤ c.hash_used * 10 / c.hash_size then rehash c ro else some c) with
  | none =>
    rw [hst] at h
    exact Option.noConfusion h
  | some c1 =>
    rw [hst] at h
    dsimp only at h
    obtain ⟨⟨hky, hvl, hhp, hcs, hch⟩, h1pos, hlen1, hWF1, hused1, hnok1, hslot1, hsl1⟩ :=
      hc1P c1 hst
    cases hins : probeIns c1.hash_table c1.hash_size k (v : Int) (hash k c1.hash_size)
        none c1.hash_size with
    | none =>
      rw [hins] at h
      exact Option.noConfusion h
    | some tf =>
      obtain ⟨t2, fresh⟩ := tf
      rw [hins] at h
      dsimp only at h
      have hc' : c' = { c1 with hash_table := t2, hash_used := c1.hash_used + (if fresh = true then 1 else 0) } :=
        (Option.some.inj h).symm
      have hh : hash k c1.hash_size < c1.hash_size := hash_lt _ h1pos
      rw [show hash k c1.hash_size = (hash k c1.hash_size + 0) % c1.hash_size from by
        rw [Nat.add_zero, Nat.mod_eq_of_lt hh]] at hins
      obtain ⟨d, hd, hsk, hstop⟩ := probeIns_inv c1.hash_size 0 none t2 fresh hh
        (fun d' hd' => absurd hd' (Nat.not_lt_zero d'))
        (fun q hq => Option.noConfusion hq) hins
      rcases hstop with ⟨hfr, hnonocc, ht2⟩ | ⟨_, hoccm, hkeym, _⟩
      · -- fresh landing
        subst hfr
        subst ht2
        subst hc'
        set q0 := (hash k c1.hash_size + d) % c1.hash_size with hq0
        have hq0lt : q0 < c1.hash_size := Nat.mod_lt _ h1pos
        have hq0len : q0 < c1.hash_table.length := by
          rw [hlen1]
          exact hq0lt
        have hdlt : d < c1.hash_size := by omega
        have hgetq0 : (c1.hash_table.set q0 ⟨k, (v : Int), STATE_OCCUPIED⟩).getD q0 default =
            ⟨k, (v : Int), STATE_OCCUPIED⟩ := getD_set_self _ _ _ q0 hq0len
        have hgetne : ∀ p, p ≠ q0 →
            (c1.hash_table.set q0 ⟨k, (v : Int), STATE_OCCUPIED⟩).getD p default =
            c1.hash_table.getD p default := by
          intro p hpq
          exact getD_set_ne _ _ _ q0 p (fun hEq => hpq hEq.symm)
        have hWF2 : tableWF (c1.hash_table.set q0 ⟨k, (v : Int), STATE_OCCUPIED⟩)
            c1.hash_size := by
          intro p hp hoccp
          by_cases hpq : p = q0
          · subst hpq
            refine ⟨d, hdlt, ?_, ?_⟩
            · rw [hgetq0]
            · intro d' hd'
              rw [hgetq0]
              have hne : (hash k c1.hash_size + d') % c1.hash_size ≠ q0 := by
                rw [hq0]
                intro hEq
                exact absurd (walk_inj (hash k c1.hash_size) d' d
                  (Nat.lt_trans hd' hdlt) hdlt hEq) (Nat.ne_of_lt hd')
              unfold skipAt
              rw [hgetne _ hne]
              exact hsk d' hd'
          · have hoccp' : (c1.hash_table.getD p default).state = STATE_OCCUPIED := by
              rw [← hgetne p hpq]
              exact hoccp
            obtain ⟨dp, hdp, hpEq, hskp⟩ := hWF1 p hp hoccp'
            have hkeyp : ((c1.hash_table.set q0 ⟨k, (v : Int), STATE_OCCUPIED⟩).getD p
                default).key = (c1.hash_table.getD p default).key := by
              rw [hgetne p hpq]
            refine ⟨dp, hdp, ?_, ?_⟩
            · rw [hkeyp]
              exact hpEq
            · intro d' hd'
              rw [hkeyp]
              have hskd := hskp d' hd'
              by_cases hrq : (hash (c1.hash_table.getD p default).key c1.hash_size + d') %
                  c1.hash_size = q0
              · unfold skipAt
                rw [hrq, hgetq0]
                refine ⟨(by decide : STATE_OCCUPIED ≠ STATE_EMPTY), ?_⟩
                intro hcon
                have hkk : (c1.hash_table.getD p default).key = k := hcon.2.symm
                exact hnok1 p hp ⟨hoccp', hkk⟩
              · unfold skipAt
                rw [hgetne _ hrq]
                exact hskd
        have hcount2 : countState (c1.hash_table.set q0 ⟨k, (v : Int), STATE_OCCUPIED⟩)
            STATE_OCCUPIED = countState c1.hash_table STATE_OCCUPIED + 1 := by
          have hbal := @countState_set STATE_OCCUPIED ⟨k, (v : Int), STATE_OCCUPIED⟩
            c1.hash_table q0 hq0len
          rw [if_neg hnonocc, if_pos rfl] at hbal
          omega
        refine ⟨hky, hvl, hhp, hcs, hch, h1pos, ?_, hWF2, ?_, ?_, ?_⟩
        · show (c1.hash_table.set q0 ⟨k, (v : Int), STATE_OCCUPIED⟩).length = c1.hash_size
          rw [length_set']
          exact hlen1
        · show c1.hash_used + (if true = true then 1 else 0) =
            countState (c1.hash_table.set q0 ⟨k, (v : Int), STATE_OCCUPIED⟩) STATE_OCCUPIED
          rw [hcount2, if_pos rfl, hused1]
        · intro p hp hoccp
          by_cases hpq : p = q0
          · subst hpq
            refine ⟨v, hv, ?_, ?_⟩
            · show ((c1.hash_table.set q0 ⟨k, (v : Int), STATE_OCCUPIED⟩).getD q0
                default).cache_index = (v : Int)
              rw [hgetq0]
            · show c.keys.getD v none = some ((c1.hash_table.set q0
                ⟨k, (v : Int), STATE_OCCUPIED⟩).getD q0 default).key
              rw [hgetq0]
              exact hkeyv
          · have hoccp' : (c1.hash_table.getD p default).state = STATE_OCCUPIED := by
              rw [← hgetne p hpq]
              exact hoccp
            obtain ⟨i, hi, hci, hki⟩ := hslot1 p hp hoccp'
            refine ⟨i, hi, ?_, ?_⟩
            · rw [hgetne p hpq]
              exact hci
            · rw [hgetne p hpq]
              exact hki
        · intro i k' hi hk'
          by_cases hiv : i = v
          · subst hiv
            have hkk : k' = k := by
              rw [hkeyv] at hk'
              exact (Option.some.inj hk').symm
            subst hkk
            refine ⟨q0, hq0lt, ?_, ?_, ?_⟩
            · rw [hgetq0]
            · rw [hgetq0]
            · rw [hgetq0]
          · obtain ⟨p, hp, hoccp, hkeyp, hcip⟩ := hsl1 i k' hi hiv hk'
            have hpq : p ≠ q0 := by
              intro hEq
              subst hEq
              exact hnonocc hoccp
            refine ⟨p, hp, ?_, ?_, ?_⟩
            · rw [hgetne p hpq]
              exact hoccp
            · rw [hgetne p hpq]
              exact hkeyp
            · rw [hgetne p hpq]
              exact hcip
      · -- an occupied match would contradict the key's absence
        exfalso
        exact hnok1 _ (Nat.mod_lt _ h1pos) ⟨hoccm, hkeym⟩

/-- A completed `accessCache` call preserves the invariant. -/
theorem Inv_access (c c' : RBCCache) (k : Key) (value : List Nat) (plan : AllocPlan)
    (r : Option Nat) (hI : Inv c) (h : accessCache c k value plan = some (c', r)) :
    Inv c' := by
  unfold accessCache at h
  cases hg : getCacheIndex c k with
  | none =>
    rw [hg] at h
    exact Option.noConfusion h
  | some index =>
    rw [hg] at h
    dsimp only at h
    by_cases hhit : index ≠ -1 ∧ (c.values.getD index.toNat none).isSome
    · rw [if_pos hhit] at h
      have hc'' : c' = modifyCell c ((c.values.getD index.toNat none).getD 0)
          (fun w => { w with refcount := w.refcount + 1, ref_bit := 1 }) :=
        (congrArg Prod.fst (Option.some.inj h)).symm
      subst hc''
      have hidxpres : ∀ cid, (cellOf (modifyCell c ((c.values.getD index.toNat none).getD 0)
          (fun w => { w with refcount := w.refcount + 1, ref_bit := 1 })) cid).index =
          (cellOf c cid).index := by
        intro cid
        unfold cellOf
        rw [modifyCell_getD]
        by_cases hcc : cid = (c.values.getD index.toNat none).getD 0
        · rw [if_pos hcc, hcc]
          cases c.heap.getD ((c.values.getD index.toNat none).getD 0) none <;> rfl
        · rw [if_neg hcc]
      refine ⟨hI.size_pos, hI.hash_pos, hI.keys_len, hI.values_len, hI.table_len,
        hI.hand_lt, hI.align, ?_, hI.entry_good, hI.entry_slot, hI.slot_entry, hI.used_eq⟩
      intro i cid hi hvi
      obtain ⟨hlv, hidx⟩ := hI.slot_cell i cid hi hvi
      refine ⟨(live_modifyCell c _ _ cid).mpr hlv, ?_⟩
      rw [hidxpres cid]
      exact hidx
    · rw [if_neg hhit] at h
      have hIF : Inv (findClockVictim c).2 := by
        rw [findClockVictim_snd]
        exact Inv_sweepLoop c _ hI
      have hcsF : (findClockVictim c).2.cache_size = c.cache_size := by
        rw [findClockVictim_snd]
        exact (sweepLoop_fields _ c).1
      have htbF : (findClockVictim c).2.hash_table = c.hash_table := by
        rw [findClockVictim_snd]
        exact (sweepLoop_fields _ c).2.2.2.1
      have hhsF : (findClockVictim c).2.hash_size = c.hash_size := by
        rw [findClockVictim_snd]
        exact (sweepLoop_fields _ c).2.2.2.2.1
      have hvlt : (findClockVictim c).1 < c.cache_size :=
        findClockVictim_lt c hI.size_pos hI.hand_lt
      have hvlt2 : (findClockVictim c).1 < (findClockVictim c).2.cache_size := by
        rw [hcsF]
        exact hvlt
      obtain ⟨c2, hrk, hIc3, hk3, hv3, hcs3, hhs3, hch3, hhl3, hlv3, hub1, hub2, htb3,
        hsl3⟩ := Inv_retire (findClockVictim c).2 (findClockVictim c).1 hIF hvlt2
      rw [hrk] at h
      dsimp only at h
      set v := (findClockVictim c).1 with hvdef
      set c3 := retireSlotCell c2 v with hc3def
      -- the miss implies the probe stopped at an EMPTY entry
      have hmiss : index = -1 := by
        obtain ⟨d, hd, hsk, hstop⟩ := probeGet_inv c.hash_size (hash k c.hash_size) index
          (hash_lt _ hI.hash_pos) hg
        rcases hstop with ⟨_, hres⟩ | ⟨hoccm, hkeym, hres⟩
        · exact hres
        · exfalso
          obtain ⟨i, hi, hci, hki⟩ := hI.entry_slot _ (Nat.mod_lt _ hI.hash_pos) hoccm
          refine hhit ⟨?_, ?_⟩
          · rw [hres, hci]
            omega
          · rw [hres, hci]
            have htn : ((i : Nat) : Int).toNat = i := by omega
            rw [htn]
            exact (hI.align i hi).mp (by rw [hki]; rfl)
      have hmiss' : getCacheIndex c k = some (-1) := by
        rw [hg, hmiss]
      have hnok3 : ∀ p, p < c3.hash_size →
          ¬((c3.hash_table.getD p default).state = STATE_OCCUPIED ∧
            (c3.hash_table.getD p default).key = k) := by
        intro p hp hcon
        have hp' : p < c.hash_size := by
          rw [← hhsF, ← hhs3]
          exact hp
        rcases htb3 with hEq | ⟨q, hq, hoq, hset⟩
        · rw [hEq, htbF] at hcon
          exact hI.no_match_of_miss hmiss' p hp' hcon
        · rw [hset] at hcon
          by_cases hpq : p = q
          · subst hpq
            have hqlen : p < (findClockVictim c).2.hash_table.length := by
              rw [hIF.table_len]
              rw [← hhs3]
              exact hp
            rw [getD_set_self _ _ _ p hqlen] at hcon
            exact absurd hcon.1 (by decide : STATE_TOMBSTONE ≠ STATE_OCCUPIED)
          · rw [getD_set_ne _ _ _ q p (fun hEq => hpq hEq.symm)] at hcon
            rw [htbF] at hcon
            exact hI.no_match_of_miss hmiss' p hp' hcon
      unfold admitEntry at h
      by_cases hfail : plan.strdupOk = false ∨ plan.cellOk = false ∨ plan.dataOk = false
      · rw [if_pos hfail] at h
        have hc'' : c' = c3 := (congrArg Prod.fst (Option.some.inj h)).symm
        rw [hc'']
        exact hIc3
      · rw [if_neg hfail] at h
        have hkl3 : v < c3.keys.length := by
          rw [hIc3.keys_len, hcs3]
          exact hvlt2
        have hvl3 : v < c3.values.length := by
          rw [hIc3.values_len, hcs3]
          exact hvlt2
        cases hins2 : insertHash
            { c3 with keys := c3.keys.set v (some k),
                      values := c3.values.set v (some c3.heap.length),
                      heap := c3.heap ++ [some ⟨value, 1, (v : Int), 1⟩] }
            k (v : Int) plan.rehashOk with
        | none =>
          rw [hins2] at h
          exact Option.noConfusion h
        | some c4 =>
          rw [hins2] at h
          dsimp only at h
          have hc4 : c' = c4 := (congrArg Prod.fst (Option.some.inj h)).symm
          rw [hc4]
          obtain ⟨hky4, hvl4, hhp4, hcs4, hch4, hpos4, hlen4, hWF4, hused4, hes4, hse4⟩ :=
            insertHash_Inv
              { c3 with keys := c3.keys.set v (some k),
                        values := c3.values.set v (some c3.heap.length),
                        heap := c3.heap ++ [some ⟨value, 1, (v : Int), 1⟩] }
              k v plan.rehashOk c4
              hIc3.hash_pos hIc3.table_len
              (fun p hp ho => hIc3.entry_good p hp ho)
              hIc3.used_eq
              hnok3
              (by
                intro p hp hocc
                obtain ⟨i, hi, hci, hki⟩ := hIc3.entry_slot p hp hocc
                have hiv : i ≠ v := by
                  intro hEq
                  subst hEq
                  rw [hk3] at hki
                  exact Option.noConfusion hki
                refine ⟨i, hi, hci, ?_⟩
                show (c3.keys.set v (some k)).getD i none = _
                rw [getD_set_ne _ _ _ v i (fun hEq => hiv hEq.symm)]
                exact hki)
              (show (c3.keys.set v (some k)).getD v none = some k from
                getD_set_self _ _ _ v hkl3)
              (show v < c3.cache_size from hcs3 ▸ hvlt2)
              (by
                intro i k' hi hiv hk'
                have hk'' : c3.keys.getD i none = some k' := by
                  rw [show (c3.keys.set v (some k)).getD i none = c3.keys.getD i none from
                    getD_set_ne _ _ _ v i (fun hEq => hiv hEq.symm)] at hk'
                  exact hk'
                exact hIc3.slot_entry i k' hi hk'')
              hins2
          -- assemble the invariant for the post-admission state
          have hcs43 : c4.cache_size = c3.cache_size := hcs4
          have hky43 : c4.keys = c3.keys.set v (some k) := hky4
          have hvl43 : c4.values = c3.values.set v (some c3.heap.length) := hvl4
          have hhp43 : c4.heap = c3.heap ++ [some ⟨value, 1, (v : Int), 1⟩] := hhp4
          refine ⟨?_, hpos4, ?_, ?_, hlen4, ?_, ?_, ?_, hWF4, ?_, ?_, hused4⟩
          · rw [hcs43]
            exact hIc3.size_pos
          · rw [hky43, length_set', hcs43]
            exact hIc3.keys_len
          · rw [hvl43, length_set', hcs43]
            exact hIc3.values_len
          · rw [hch4, hcs43, hch3, hcs3]
            exact hIF.hand_lt
          · intro i hi
            rw [hky43, hvl43]
            rw [hcs43] at hi
            by_cases hiv : i = v
            · subst hiv
              rw [getD_set_self _ _ _ v hkl3, getD_set_self _ _ _ v hvl3]
              exact Iff.rfl
            · rw [getD_set_ne _ _ _ v i (fun hEq => hiv hEq.symm),
                getD_set_ne _ _ _ v i (fun hEq => hiv hEq.symm)]
              exact hIc3.align i hi
          · intro i cid hi hvi
            rw [hvl43] at hvi
            rw [hcs43] at hi
            by_cases hiv : i = v
            · subst hiv
              rw [getD_set_self _ _ _ v hvl3] at hvi
              have hcid : cid = c3.heap.length := (Option.some.inj hvi).symm
              subst hcid
              constructor
              · show (c4.heap.getD c3.heap.length none).isSome
                rw [hhp43, getD_append_self]
                rfl
              · show ((c4.heap.getD c3.heap.length none).getD default).index = (v : Int)
                rw [hhp43, getD_append_self]
                rfl
            · rw [getD_set_ne _ _ _ v i (fun hEq => hiv hEq.symm)] at hvi
              obtain ⟨hlv, hidx⟩ := hIc3.slot_cell i cid hi hvi
              have hcl : cid < c3.heap.length := live_lt hlv
              constructor
              · show (c4.heap.getD cid none).isSome
                rw [hhp43, getD_append_lt _ _ _ cid hcl]
                exact hlv
              · show ((c4.heap.getD cid none).getD default).index = (i : Int)
                rw [hhp43, getD_append_lt _ _ _ cid hcl]
                exact hidx
          · intro p hp hocc
            obtain ⟨i, hi, hci, hki⟩ := hes4 p hp hocc
            refine ⟨i, ?_, hci, ?_⟩
            · rw [hcs43]
              exact hi
            · rw [hky43]
              exact hki
          · intro i k' hi hk'
            rw [hky43] at hk'
            rw [hcs43] at hi
            exact hse4 i k' hi hk'

/-- Every completed public operation preserves the invariant. -/
theorem Inv_step (c c' : RBCCache) (h : Step c c') (hI : Inv c) : Inv c' := by
  cases h with
  | access k value plan c2 r hk hacc => exact Inv_access _ _ k value plan r hI hacc
  | release cid cv hc hrc => exact Inv_releaseValue _ cid hI

/-- Every state reachable from a fresh cache satisfies the invariant. -/
theorem Inv_reachable (n : Nat) (c : RBCCache) (hn : 0 < n) (h : Reachable n c) :
    Inv c := by
  unfold Reachable at h
  induction h with
  | refl => exact Inv_createCache n hn
  | tail _ hbc ih => exact Inv_step _ _ hbc ih

/-- C2: after every sequence of completed public operations on a fresh
cache, the slot array and the hash index are mutually consistent: looking
up an occupied slot's key returns that slot; every OCCUPIED index entry
`(k, j)` names a valid slot `j` with `keys[j] = k` whose cell's `index`
field is `j`; and each occupied slot's key occurs in exactly one OCCUPIED
entry. -/
theorem slot_index_consistent (n : Nat) (c : RBCCache) (hn : 0 < n)
    (h : Reachable n c) :
    (∀ i k, i < c.cache_size → c.keys.getD i none = some k →
      getCacheIndex c k = some (i : Int)) ∧
    (∀ p, p < c.hash_size → (c.hash_table.getD p default).state = STATE_OCCUPIED →
      ∃ i, i < c.cache_size ∧ (c.hash_table.getD p default).cache_index = (i : Int) ∧
        c.keys.getD i none = some (c.hash_table.getD p default).key ∧
        ∃ cid, c.values.getD i none = some cid ∧ (cellOf c cid).index = (i : Int)) ∧
    (∀ i k, i < c.cache_size → c.keys.getD i none = some k →
      ∃ p, p < c.hash_size ∧ (c.hash_table.getD p default).state = STATE_OCCUPIED ∧
        (c.hash_table.getD p default).key = k ∧
        (c.hash_table.getD p default).cache_index = (i : Int) ∧
        ∀ q, q < c.hash_size → (c.hash_table.getD q default).state = STATE_OCCUPIED →
          (c.hash_table.getD q default).key = k → q = p) := by
  have hI := Inv_reachable n c hn h
  refine ⟨?_, ?_, ?_⟩
  · intro i k hi hk
    exact hI.lookup_slot hi hk
  · intro p hp hocc
    obtain ⟨i, hi, hci, hki⟩ := hI.entry_slot p hp hocc
    have hvs : (c.values.getD i none).isSome := (hI.align i hi).mp (by rw [hki]; rfl)
    cases hvv : c.values.getD i none with
    | none =>
      rw [hvv] at hvs
      exact Bool.noConfusion hvs
    | some cid =>
      obtain ⟨_, hidx⟩ := hI.slot_cell i cid hi hvv
      exact ⟨i, hi, hci, hki, cid, hvv, hidx⟩
  · intro i k hi hk
    obtain ⟨p, hp, hop, hkp, hcp⟩ := hI.slot_entry i k hi hk
    refine ⟨p, hp, hop, hkp, hcp, ?_⟩
    intro q hq hoq hkq
    exact goodEntry_unique hq hp hoq hop (by rw [hkq, hkp]) (hI.entry_good q hq hoq)
      (hI.entry_good p hp hop)

/-- Concrete reachable state for the consistency witness: capacity 4, key
A admitted and released. -/
def c2w : RBCCache := doAR (createCache 4) [65] [1]

/-- C2 witness: the consistency statement holds at the concrete reachable
state `c2w`. -/
theorem slot_index_consistent_witness :
    (∀ i k, i < c2w.cache_size → c2w.keys.getD i none = some k →
      getCacheIndex c2w k = some (i : Int)) ∧
    (∀ p, p < c2w.hash_size → (c2w.hash_table.getD p default).state = STATE_OCCUPIED →
      ∃ i, i < c2w.cache_size ∧ (c2w.hash_table.getD p default).cache_index = (i : Int) ∧
        c2w.keys.getD i none = some (c2w.hash_table.getD p default).key ∧
        ∃ cid, c2w.values.getD i none = some cid ∧ (cellOf c2w cid).index = (i : Int)) ∧
    (∀ i k, i < c2w.cache_size → c2w.keys.getD i none = some k →
      ∃ p, p < c2w.hash_size ∧ (c2w.hash_table.getD p default).state = STATE_OCCUPIED ∧
        (c2w.hash_table.getD p default).key = k ∧
        (c2w.hash_table.getD p default).cache_index = (i : Int) ∧
        ∀ q, q < c2w.hash_size → (c2w.hash_table.getD q default).state = STATE_OCCUPIED →
          (c2w.hash_table.getD q default).key = k → q = p) :=
  slot_index_consistent 4 c2w (by decide)
    (Step_doAR (createCache 4) [65] [1] (by decide) (by decide) (by decide) (by decide))

/-! ### C9: allocation failure during admission rolls back cleanly -/

/-- C9: if any admission allocation (key string, cell, payload) fails after
a miss, the access still completes and returns NULL; no allocation survives
(the heap keeps its extent and no cell comes alive); the victim slot has
already been retired by then (key slot and value slot emptied, its index
entry erased), so at most one occupied index entry is lost; and the missed
key is still absent from the index. -/
theorem accessCache_alloc_fail_rollback (n : Nat) (c : RBCCache) (k : Key)
    (value : List Nat) (plan : AllocPlan) (hn : 0 < n) (hreach : Reachable n c)
    (hfail : plan.strdupOk = false ∨ plan.cellOk = false ∨ plan.dataOk = false)
    (hmiss : getCacheIndex c k = some (-1)) :
    ∃ c', accessCache c k value plan = some (c', none) ∧
      c'.cache_size = c.cache_size ∧ c'.hash_size = c.hash_size ∧
      c'.heap.length = c.heap.length ∧
      (∀ cid, live c' cid → live c cid) ∧
      c'.keys.getD (findClockVictim c).1 none = none ∧
      c'.values.getD (findClockVictim c).1 none = none ∧
      c.hash_used - 1 ≤ c'.hash_used ∧ c'.hash_used ≤ c.hash_used ∧
      getCacheIndex c' k = some (-1) := by
  have hI := Inv_reachable n c hn hreach
  have hIF : Inv (findClockVictim c).2 := by
    rw [findClockVictim_snd]
    exact Inv_sweepLoop c _ hI
  have hcsF : (findClockVictim c).2.cache_size = c.cache_size := by
    rw [findClockVictim_snd]
    exact (sweepLoop_fields _ c).1
  have htbF : (findClockVictim c).2.hash_table = c.hash_table := by
    rw [findClockVictim_snd]
    exact (sweepLoop_fields _ c).2.2.2.1
  have hhsF : (findClockVictim c).2.hash_size = c.hash_size := by
    rw [findClockVictim_snd]
    exact (sweepLoop_fields _ c).2.2.2.2.1
  have hhuF : (findClockVictim c).2.hash_used = c.hash_used := by
    rw [findClockVictim_snd]
    exact (sweepLoop_fields _ c).2.2.2.2.2
  have hhlF : (findClockVictim c).2.heap.length = c.heap.length := by
    rw [findClockVictim_snd]
    exact sweepLoop_heap_length _ c
  have hvlt2 : (findClockVictim c).1 < (findClockVictim c).2.cache_size := by
    rw [hcsF]
    exact findClockVictim_lt c hI.size_pos hI.hand_lt
  obtain ⟨c2, hrk, hIc3, hk3, hv3, hcs3, hhs3, hch3, hhl3, hlv3, hub1, hub2, htb3,
    hsl3⟩ := Inv_retire (findClockVictim c).2 (findClockVictim c).1 hIF hvlt2
  refine ⟨retireSlotCell c2 (findClockVictim c).1, ?_, ?_, ?_, ?_, ?_, hk3, hv3,
    ?_, ?_, ?_⟩
  · unfold accessCache
    rw [hmiss]
    dsimp only
    rw [if_neg (by intro hcon; exact hcon.1 rfl)]
    rw [hrk]
    dsimp only
    unfold admitEntry
    rw [if_pos hfail]
  · rw [hcs3, hcsF]
  · rw [hhs3, hhsF]
  · rw [hhl3, hhlF]
  · intro cid hl
    have h1 := hlv3 cid hl
    rw [findClockVictim_snd] at h1
    exact (sweepLoop_live _ c cid).mp h1
  · rw [hhuF] at hub1
    exact hub1
  · rw [hhuF] at hub2
    exact hub2
  · obtain ⟨d, hd, hsk, hstop⟩ := probeGet_inv c.hash_size (hash k c.hash_size) (-1)
      (hash_lt _ hI.hash_pos) hmiss
    rcases hstop with ⟨hE, _⟩ | ⟨hoccm, _, hres⟩
    · have hhs3' : (retireSlotCell c2 (findClockVictim c).1).hash_size = c.hash_size := by
        rw [hhs3, hhsF]
      unfold getCacheIndex
      rw [hhs3']
      rcases htb3 with hEq | ⟨q, hq, hoq, hset⟩
      · rw [hEq, htbF]
        exact probeGet_miss d _ _ (hash_lt _ hI.hash_pos) hd hsk hE
      · rw [hset, htbF]
        rw [hhsF] at hq
        rw [htbF] at hoq
        have hqlen : q < c.hash_table.length := by
          rw [hI.table_len]
          exact hq
        have hpq : (hash k c.hash_size + d) % c.hash_size ≠ q := by
          intro hEq2
          rw [hEq2] at hE
          rw [hE] at hoq
          exact absurd hoq (by decide)
        apply probeGet_miss d _ _ (hash_lt _ hI.hash_pos) hd
        · intro d' hd'
          exact skipAt_set_tomb c.hash_table k _ q hqlen (hsk d' hd')
        · rw [getD_set_ne _ _ _ q _ (fun hEq2 => hpq hEq2.symm)]
          exact hE
    · exfalso
      obtain ⟨i, hi, hci, _⟩ := hI.entry_slot _ (Nat.mod_lt _ hI.hash_pos) hoccm
      rw [hci] at hres
      omega

/-- Concrete reachable state for the rollback witness: capacity 4, keys A
and B admitted and released. -/
def c9w : RBCCache := doAR (doAR (createCache 4) [65] [1]) [66] [2]

/-- C9 witness: accessing the missing key C on `c9w` with a failing
`strdup` completes with NULL, retires the victim slot, allocates nothing,
and leaves C absent from the index. -/
theorem accessCache_alloc_fail_rollback_witness :
    ∃ c', accessCache c9w [67] [3] ⟨false, true, true, true⟩ = some (c', none) ∧
      c'.cache_size = c9w.cache_size ∧ c'.hash_size = c9w.hash_size ∧
      c'.heap.length = c9w.heap.length ∧
      (∀ cid, live c' cid → live c9w cid) ∧
      c'.keys.getD (findClockVictim c9w).1 none = none ∧
      c'.values.getD (findClockVictim c9w).1 none = none ∧
      c9w.hash_used - 1 ≤ c'.hash_used ∧ c'.hash_used ≤ c9w.hash_used ∧
      getCacheIndex c' [67] = some (-1) :=
  accessCache_alloc_fail_rollback 4 c9w [67] [3] ⟨false, true, true, true⟩ (by decide)
    (Relation.ReflTransGen.trans
      (Step_doAR (createCache 4) [65] [1] (by decide) (by decide) (by decide) (by decide))
      (Step_doAR (doAR (createCache 4) [65] [1]) [66] [2] (by decide) (by decide)
        (by decide) (by decide)))
    (Or.inl rfl) (by decide)

end RBC
